import Mathlib

/-!
# Arena allocator: embedding of `allocator.c`

The arena is the static array `heap[HEAP_SIZE]`.  Positions in the arena are
byte offsets from its first byte, kept as natural numbers; a block pointer is
`Option Nat`, `none` being `NULL`.  Every `size_t` expression wraps at
`2 ^ 64`.  Sums of a block pointer and a byte count are exact offsets in the
functions that run on the allocator's own blocks; `validate_heap`, which is
meant for arbitrary header contents, works on machine addresses that wrap.

A state keeps two views of the arena: `hdr o` is the `block_header_t` read at
offset `o`, and `data o` is the byte at offset `o` read as payload.  The
allocator writes all four fields of a header before it ever reads one at a new
offset (`allocator_init`, `split_block`), so stale payload bytes are never read
back as a header.  Payload writes are kept apart from the headers: `memcpy` and
`memset` have a result only when the bytes they write fit in the block at the
destination address.  The C functions copy and fill in any case; a call that
runs past its block is run on the bytes of the arena by the second embedding,
`Raw`, which follows the definitions of this one.

A function with a loop takes an iteration budget `fuel` and returns an
`Option`; `none` means that the model assigns no result to the call.
-/

namespace Alloc

/-! ## Constants (`allocator.h`) -/

/-- Capacity of the arena in bytes. -/
def HEAP_SIZE : Nat := 1024 * 1024

/-- Minimum allocation size. -/
def MIN_BLOCK_SIZE : Nat := 16

/-- The value of `sizeof(block_header_t)` on an LP64 target: a `size_t`, an
`int` padded to eight bytes, and two pointers. -/
def HEADER_SIZE : Nat := 32

/-- Memory alignment requirement. -/
def ALIGNMENT : Nat := 8

/-- Modulus of `size_t` arithmetic. -/
def SIZE_MOD : Nat := 2 ^ 64

/-- Wrapping `size_t` addition. -/
def size_add (a b : Nat) : Nat := (a + b) % SIZE_MOD

/-- Wrapping `size_t` subtraction. -/
def size_sub (a b : Nat) : Nat := (a + (SIZE_MOD - b % SIZE_MOD)) % SIZE_MOD

/-! ## Data model -/

/-- Memory block header. -/
@[ext]
structure block_header_t where
  /-- Size of the block, excluding the header. -/
  size : Nat
  /-- The flag `is_free`: true when the C field is non-zero. -/
  is_free : Bool
  /-- Next block in the free list. -/
  next : Option Nat
  /-- Previous block in the free list. -/
  prev : Option Nat

/-- The globals of `allocator.c`. -/
structure State where
  /-- Header view of `heap`. -/
  hdr : Nat → block_header_t
  /-- Payload view of `heap`. -/
  data : Nat → Nat
  /-- Head of the free blocks list. -/
  free_list_head : Option Nat
  /-- Initialization flag. -/
  allocator_initialized : Bool
  /-- Total allocated memory. -/
  total_allocated : Nat
  /-- Total free memory. -/
  total_free : Nat

/-- Store a header at an arena offset. -/
def State.setHdr (s : State) (o : Nat) (h : block_header_t) : State :=
  { s with hdr := fun a => if a = o then h else s.hdr a }

/-- The globals at program start: zeroed static storage, with the
initialisers of lines 10 to 13. -/
def startState : State :=
  { hdr := fun _ => { size := 0, is_free := false, next := none, prev := none }
    data := fun _ => 0
    free_list_head := none
    allocator_initialized := false
    total_allocated := 0
    total_free := HEAP_SIZE }

/-! ## The allocator -/

/-- Initialize the allocator. -/
def allocator_init (s : State) : State :=
  if s.allocator_initialized then s
  else
    let s1 := { s with free_list_head := some 0 }
    let s2 := s1.setHdr 0
      { size := HEAP_SIZE - HEADER_SIZE, is_free := true, next := none, prev := none }
    { s2 with total_allocated := 0
              total_free := HEAP_SIZE - HEADER_SIZE
              allocator_initialized := true }

/-- Align size to the alignment boundary:
`(size + ALIGNMENT - 1) & ~(ALIGNMENT - 1)` in `size_t`. -/
def align_size (size : Nat) : Nat :=
  ((size + ALIGNMENT - 1) % SIZE_MOD) &&& (SIZE_MOD - 1 - (ALIGNMENT - 1))

/-- The `while` loop of `find_free_block`; the outer `none` means that the
iteration budget ran out. -/
def find_free_block_loop (hdr : Nat → block_header_t) (size : Nat) :
    Nat → Option Nat → Option (Option Nat)
  | 0, _ => none
  | _ + 1, none => some none
  | fuel + 1, some current =>
    if (hdr current).is_free = true ∧ (hdr current).size ≥ size then some (some current)
    else find_free_block_loop hdr size fuel (hdr current).next

/-- Find a free block that can accommodate the requested size. -/
def find_free_block (fuel : Nat) (s : State) (size : Nat) : Option (Option Nat) :=
  match s.free_list_head with
  | none => some none
  | some head => find_free_block_loop s.hdr size fuel (some head)

/-- Add block to the free list. -/
def add_to_free_list (s : State) (block : Nat) : State :=
  match s.free_list_head with
  | none =>
    let s1 := { s with free_list_head := some block }
    s1.setHdr block { s1.hdr block with next := none, prev := none }
  | some head =>
    let s1 := s.setHdr block { s.hdr block with next := some head, prev := none }
    let s2 := s1.setHdr head { s1.hdr head with prev := some block }
    { s2 with free_list_head := some block }

/-- Remove block from the free list. -/
def remove_from_free_list (s : State) (block : Nat) : State :=
  let s1 := match (s.hdr block).prev with
    | some p => s.setHdr p { s.hdr p with next := (s.hdr block).next }
    | none => { s with free_list_head := (s.hdr block).next }
  let s2 := match (s1.hdr block).next with
    | some n => s1.setHdr n { s1.hdr n with prev := (s1.hdr block).prev }
    | none => s1
  s2.setHdr block { s2.hdr block with next := none, prev := none }

/-- Split a block if it is larger than needed; returns the new block. -/
def split_block (s : State) (block size : Nat) : State × Option Nat :=
  if (s.hdr block).size ≤ size_add (size_add size HEADER_SIZE) MIN_BLOCK_SIZE then (s, none)
  else
    let new_block := block + HEADER_SIZE + size
    let s1 := s.setHdr new_block
      { size := size_sub (size_sub (s.hdr block).size size) HEADER_SIZE
        is_free := true, next := none, prev := none }
    let s2 := s1.setHdr block { s1.hdr block with size := size }
    (add_to_free_list s2 new_block, some new_block)

/-- The `while` loop of `merge_free_blocks`; `none` means that the iteration
budget ran out. -/
def merge_loop : Nat → State → Nat → Option State
  | 0, _, _ => none
  | fuel + 1, s, current_pos =>
    if current_pos < HEAP_SIZE then
      let next_pos := current_pos + HEADER_SIZE + (s.hdr current_pos).size
      if (s.hdr current_pos).is_free = true ∧ next_pos < HEAP_SIZE
          ∧ (s.hdr next_pos).is_free = true then
        let s1 := remove_from_free_list s next_pos
        let s2 := s1.setHdr current_pos
          { s1.hdr current_pos with
            size := size_add (s1.hdr current_pos).size
                      (size_add HEADER_SIZE (s1.hdr next_pos).size) }
        merge_loop fuel s2 current_pos
      else
        merge_loop fuel s
          (current_pos + size_add HEADER_SIZE (s.hdr current_pos).size)
    else some s

/-- Merge adjacent free blocks. -/
def merge_free_blocks (fuel : Nat) (s : State) : Option State :=
  merge_loop fuel s 0

/-- The part of `my_malloc` after a block was found: unlink it, split it, mark
it allocated, update the statistics and return the payload address. -/
def my_malloc_take (s : State) (block size : Nat) : State × Option Nat :=
  let s1 := remove_from_free_list s block
  let s2 := (split_block s1 block size).1
  let s3 := s2.setHdr block { s2.hdr block with is_free := false }
  let s4 := { s3 with total_allocated := size_add s3.total_allocated (s3.hdr block).size }
  let s5 := { s4 with total_free := size_sub s4.total_free (s4.hdr block).size }
  (s5, some (block + HEADER_SIZE))

/-- Custom malloc implementation.  The outer `none` means that a loop did not
finish within `fuel` iterations; the inner `none` is the `NULL` result. -/
def my_malloc (fuel : Nat) (s : State) (size : Nat) : Option (State × Option Nat) :=
  let s := if s.allocator_initialized then s else allocator_init s
  if size = 0 then some (s, none)
  else
    let size := align_size size
    let size := if size < MIN_BLOCK_SIZE then MIN_BLOCK_SIZE else size
    match find_free_block fuel s size with
    | none => none
    | some (some block) => some (my_malloc_take s block size)
    | some none =>
      match merge_free_blocks fuel s with
      | none => none
      | some sm =>
        match find_free_block fuel sm size with
        | none => none
        | some none => some (sm, none)
        | some (some block) => some (my_malloc_take sm block size)

/-- Custom free implementation.  An address below `HEADER_SIZE` stands for a
header pointer below the arena start. -/
def my_free (fuel : Nat) (s : State) (ptr : Option Nat) : Option State :=
  match ptr with
  | none => some s
  | some p =>
    if p < HEADER_SIZE ∨ p - HEADER_SIZE ≥ HEAP_SIZE then some s
    else
      let block := p - HEADER_SIZE
      if (s.hdr block).is_free then some s
      else
        let s1 := s.setHdr block { s.hdr block with is_free := true }
        let s2 := { s1 with total_allocated := size_sub s1.total_allocated (s1.hdr block).size }
        let s3 := { s2 with total_free := size_add s2.total_free (s2.hdr block).size }
        merge_free_blocks fuel (add_to_free_list s3 block)

/-- The library call `memcpy(dst, src, n)` on the payload view, for `dst` the
payload address of a block.  A copy longer than that block overwrites the
headers that follow it, which the payload view cannot express: the result is
`none` then, and `Raw.memcpy` is the copy on the bytes of the arena. -/
def memcpy (s : State) (dst src n : Nat) : Option State :=
  if n ≤ (s.hdr (dst - HEADER_SIZE)).size then
    some { s with
      data := fun a => if dst ≤ a ∧ a < dst + n then s.data (src + (a - dst)) else s.data a }
  else none

/-- The library call `memset(dst, c, n)` on the payload view, for `dst` the
payload address of a block; `none` when the fill is longer than that block. -/
def memset (s : State) (dst c n : Nat) : Option State :=
  if n ≤ (s.hdr (dst - HEADER_SIZE)).size then
    some { s with data := fun a => if dst ≤ a ∧ a < dst + n then c else s.data a }
  else none

/-- Custom realloc implementation.  The outer `none` means that a loop ran out
of `fuel` or that the `memcpy` does not fit in the new block. -/
def my_realloc (fuel : Nat) (s : State) (ptr : Option Nat) (size : Nat) :
    Option (State × Option Nat) :=
  match ptr with
  | none => my_malloc fuel s size
  | some p =>
    if size = 0 then
      match my_free fuel s (some p) with
      | none => none
      | some s1 => some (s1, none)
    else
      let block := p - HEADER_SIZE
      let old_size := (s.hdr block).size
      if size ≤ old_size then some (s, some p)
      else
        match my_malloc fuel s size with
        | none => none
        | some (s1, none) => some (s1, none)
        | some (s1, some new_ptr) =>
          match memcpy s1 new_ptr p old_size with
          | none => none
          | some s2 =>
            match my_free fuel s2 (some p) with
            | none => none
            | some s3 => some (s3, some new_ptr)

/-- Custom calloc implementation.  The outer `none` means that a loop ran out
of `fuel` or that the `memset` does not fit in the new block. -/
def my_calloc (fuel : Nat) (s : State) (num size : Nat) : Option (State × Option Nat) :=
  let total_size := (num * size) % SIZE_MOD
  if num ≠ 0 ∧ total_size / num ≠ size then some (s, none)
  else
    match my_malloc fuel s total_size with
    | none => none
    | some (s1, none) => some (s1, none)
    | some (s1, some p) =>
      match memset s1 p 0 total_size with
      | none => none
      | some s2 => some (s2, some p)

/-- Get total allocated memory. -/
def get_total_allocated (s : State) : Nat := s.total_allocated

/-- Get total free memory. -/
def get_total_free (s : State) : Nat := s.total_free

/-- The `while` loop of `get_fragmentation_count`. -/
def fragmentation_loop (hdr : Nat → block_header_t) : Nat → Option Nat → Nat → Option Nat
  | 0, _, _ => none
  | _ + 1, none, count => some count
  | fuel + 1, some current, count =>
    fragmentation_loop hdr fuel (hdr current).next
      (if (hdr current).is_free then count + 1 else count)

/-- Count memory fragmentation (number of free blocks). -/
def get_fragmentation_count (fuel : Nat) (s : State) : Option Nat :=
  fragmentation_loop s.hdr fuel s.free_list_head 0

/-- Addition of a byte count to a machine address, which wraps at `2 ^ 64`. -/
def ptr_add (p n : Nat) : Nat := (p + n) % SIZE_MOD

/-- The `while` loop of `validate_heap`.  The function is meant to run on
arbitrary header contents, so `current_pos` is a machine address here, `heap`
being the address of the arena, and the pointer sums wrap.  A header read
below the arena has no result. -/
def validate_heap_loop (hdr : Nat → block_header_t) (heap : Nat) : Nat → Nat → Option Bool
  | 0, _ => none
  | fuel + 1, current_pos =>
    if current_pos < heap + HEAP_SIZE then
      if current_pos < heap then none
      else
        let block := current_pos - heap
        if ptr_add current_pos HEADER_SIZE > heap + HEAP_SIZE then some false
        else if ptr_add (ptr_add current_pos HEADER_SIZE) (hdr block).size > heap + HEAP_SIZE then
          some false
        else validate_heap_loop hdr heap fuel
          (ptr_add current_pos (size_add HEADER_SIZE (hdr block).size))
    else some true

/-- Validate heap integrity; `heap` is the machine address of the arena, with
`heap + HEAP_SIZE < 2 ^ 64`. -/
def validate_heap (heap fuel : Nat) (s : State) : Option Bool :=
  validate_heap_loop s.hdr heap fuel heap

/-- Cleanup allocator. -/
def allocator_cleanup (s : State) : State :=
  if s.allocator_initialized then { s with allocator_initialized := false } else s

/-! ## Specification vocabulary -/

/-- Offsets met by walking the arena from `pos` in steps of
`HEADER_SIZE + block.size` while the position is inside the arena. -/
def walk_from (hdr : Nat → block_header_t) : Nat → Nat → List Nat
  | 0, _ => []
  | fuel + 1, pos =>
    if pos < HEAP_SIZE then
      pos :: walk_from hdr fuel (pos + HEADER_SIZE + (hdr pos).size)
    else []

/-- The arena walk from offset 0.  Every step advances by at least
`HEADER_SIZE`, so `HEAP_SIZE` steps always cover the arena. -/
def arena_walk (s : State) : List Nat := walk_from s.hdr HEAP_SIZE 0

/-- Offsets met by following `next` from a block pointer. -/
def chain_from (hdr : Nat → block_header_t) : Nat → Option Nat → List Nat
  | 0, _ => []
  | _ + 1, none => []
  | fuel + 1, some o => o :: chain_from hdr fuel (hdr o).next

/-- The Free Registry: the blocks reachable from `free_list_head`. -/
def registry (s : State) : List Nat := chain_from s.hdr HEAP_SIZE s.free_list_head

/-- The list `l` is the header-to-header walk from `pos` that lands exactly
on `e`. -/
def IsWalk (hdr : Nat → block_header_t) : Nat → List Nat → Nat → Prop
  | pos, [], e => pos = e
  | pos, o :: l, e => o = pos ∧ IsWalk hdr (pos + HEADER_SIZE + (hdr pos).size) l e

/-- The list `l` is a doubly linked segment: it starts at pointer `cur`, whose
`prev` is `p`; each `next` is the following element, whose `prev` points back;
the `next` of the last element is `e`. -/
def IsSeg (hdr : Nat → block_header_t) : Option Nat → Option Nat → List Nat → Option Nat → Prop
  | _, cur, [], e => cur = e
  | p, cur, o :: l, e => cur = some o ∧ (hdr o).prev = p ∧ IsSeg hdr (some o) (hdr o).next l e

/-- Pointer to the last element of `l`, or `p` when `l` is empty. -/
def lastPtr (p : Option Nat) : List Nat → Option Nat
  | [] => p
  | o :: l => lastPtr (some o) l

/-- Sum of `size` over the blocks of `w` that are marked allocated. -/
def alloc_sum (hdr : Nat → block_header_t) (w : List Nat) : Nat :=
  ((w.filter (fun o => !(hdr o).is_free)).map (fun o => (hdr o).size)).sum

/-- Sum of `size` over the blocks of `w` that are marked free. -/
def free_sum (hdr : Nat → block_header_t) (w : List Nat) : Nat :=
  ((w.filter (fun o => (hdr o).is_free)).map (fun o => (hdr o).size)).sum

/-- No two physically adjacent blocks of `w` are both free. -/
def NoAdjFree (hdr : Nat → block_header_t) (w : List Nat) : Prop :=
  ∀ a ∈ w, ∀ b ∈ w, b = a + HEADER_SIZE + (hdr a).size →
    ¬ ((hdr a).is_free = true ∧ (hdr b).is_free = true)

/-- Blocks of a walk that survive coalescing: a block is absorbed exactly when
it is free and the block before it in the walk is free (`pf`). -/
def surv_aux (f : Nat → Bool) : Bool → List Nat → List Nat
  | _, [] => []
  | pf, a :: l => if pf && f a then surv_aux f true l else a :: surv_aux f (f a) l

/-- Partition invariant: the arena walk lands exactly on `HEAP_SIZE`. -/
def PartitionInv (s : State) : Prop := IsWalk s.hdr 0 (arena_walk s) HEAP_SIZE

/-- Registry invariant. -/
def RegistryInv (s : State) : Prop :=
  IsSeg s.hdr none s.free_list_head (registry s) none ∧
  (registry s).Nodup ∧
  (∀ o, o ∈ registry s ↔ o ∈ arena_walk s ∧ (s.hdr o).is_free = true) ∧
  (∀ o ∈ arena_walk s, (s.hdr o).is_free = false →
    (s.hdr o).next = none ∧ (s.hdr o).prev = none)

/-- Size invariant. -/
def SizeInv (s : State) : Prop :=
  ∀ o ∈ arena_walk s, MIN_BLOCK_SIZE ≤ (s.hdr o).size ∧ (s.hdr o).size % ALIGNMENT = 0

/-- The structural part of a well-formed state, with the walk `w` and the
registry `fl` made explicit. -/
structure Core (s : State) (w fl : List Nat) : Prop where
  walk : IsWalk s.hdr 0 w HEAP_SIZE
  chain : IsSeg s.hdr none s.free_list_head fl none
  nodup : fl.Nodup
  mem_fl : ∀ o, o ∈ fl ↔ o ∈ w ∧ (s.hdr o).is_free = true

/-- A user store into the payload of live blocks: `d` differs from the current
payload view only inside the payload of a live address. -/
def PayloadWrite (s : State) (live : List Nat) (d : Nat → Nat) : Prop :=
  ∀ a, d a ≠ s.data a →
    ∃ p ∈ live, p ≤ a ∧ a < p + (s.hdr (p - HEADER_SIZE)).size

/-- States reached from `allocator_init` through the public operations,
together with the addresses returned so far and not yet released.  Every
non-null address passed to `my_free` or `my_realloc` is such a live address.
A call is a step when the two views assign it a result: `my_realloc` and
`my_calloc` have none when their `memcpy` or `memset` does not fit in the block
that `my_malloc` returned, which takes a size above `SIZE_MAX - 7`.  The
states that the program reaches after such a `my_realloc` are therefore not
states of `Reach`; `overrun_scenario` and `overrun_self_scenario` compute them
on the bytes of the arena. -/
inductive Reach : State → List Nat → Prop
  | init (s0 : State) : s0.allocator_initialized = false → Reach (allocator_init s0) []
  | malloc {s s1 : State} {live : List Nat} {r : Option Nat} (fuel size : Nat) :
      Reach s live → my_malloc fuel s size = some (s1, r) → Reach s1 (r.toList ++ live)
  | calloc {s s1 : State} {live : List Nat} {r : Option Nat} (fuel num size : Nat) :
      Reach s live → my_calloc fuel s num size = some (s1, r) → Reach s1 (r.toList ++ live)
  | free_null {s s1 : State} {live : List Nat} (fuel : Nat) :
      Reach s live → my_free fuel s none = some s1 → Reach s1 live
  | free {s s1 : State} {live : List Nat} (fuel p : Nat) :
      Reach s live → p ∈ live → my_free fuel s (some p) = some s1 → Reach s1 (live.erase p)
  | realloc_null {s s1 : State} {live : List Nat} {r : Option Nat} (fuel size : Nat) :
      Reach s live → my_realloc fuel s none size = some (s1, r) →
      Reach s1 (r.toList ++ live)
  | realloc_zero {s s1 : State} {live : List Nat} {r : Option Nat} (fuel p : Nat) :
      Reach s live → p ∈ live → my_realloc fuel s (some p) 0 = some (s1, r) →
      Reach s1 (live.erase p)
  | realloc_same {s s1 : State} {live : List Nat} (fuel p size : Nat) :
      Reach s live → p ∈ live → size ≠ 0 →
      my_realloc fuel s (some p) size = some (s1, some p) → Reach s1 live
  | realloc_moved {s s1 : State} {live : List Nat} (fuel p size q : Nat) :
      Reach s live → p ∈ live → size ≠ 0 → q ≠ p →
      my_realloc fuel s (some p) size = some (s1, some q) → Reach s1 (q :: live.erase p)
  | realloc_failed {s s1 : State} {live : List Nat} (fuel p size : Nat) :
      Reach s live → p ∈ live → size ≠ 0 →
      my_realloc fuel s (some p) size = some (s1, none) → Reach s1 live
  | store {s : State} {live : List Nat} (d : Nat → Nat) :
      Reach s live → PayloadWrite s live d → Reach { s with data := d } live

/-- Every free block of the walk `w` under `h1` lies inside a free block of the
walk `w2` under `h2`. -/
def Covers (h1 h2 : Nat → block_header_t) (w w2 : List Nat) : Prop :=
  ∀ o ∈ w, (h1 o).is_free = true →
    ∃ o2 ∈ w2, (h2 o2).is_free = true ∧ o2 ≤ o ∧
      o + HEADER_SIZE + (h1 o).size ≤ o2 + HEADER_SIZE + (h2 o2).size

/-- What coalescing may change between a state `s` with walk `w` and registry
`fl` and the coalesced state `s2` with walk `w2` and registry `fl2`. -/
structure MergeRel (s s2 : State) (w w2 fl fl2 : List Nat) : Prop where
  sub : fl2.Sublist fl
  subset : ∀ o ∈ w2, o ∈ w
  free_eq : ∀ o, (s2.hdr o).is_free = (s.hdr o).is_free
  size_le : ∀ o, (s.hdr o).size ≤ (s2.hdr o).size
  untouched : ∀ o, o ∉ fl → s2.hdr o = s.hdr o
  data_eq : s2.data = s.data
  init_eq : s2.allocator_initialized = s.allocator_initialized
  talloc_eq : s2.total_allocated = s.total_allocated
  tfree_eq : s2.total_free = s.total_free
  covers : Covers s.hdr s2.hdr w w2
  aligned : (∀ o ∈ w, (s.hdr o).size % ALIGNMENT = 0) →
    ∀ o, (s2.hdr o).size % ALIGNMENT = (s.hdr o).size % ALIGNMENT

/-- The block size `my_malloc` searches for: the aligned request, raised to
`MIN_BLOCK_SIZE` (lines 155 to 161). -/
def request_size (size : Nat) : Nat :=
  if align_size size < MIN_BLOCK_SIZE then MIN_BLOCK_SIZE else align_size size

/-- The fit test of `find_free_block`. -/
def fits (s : State) (r : Nat) (o : Nat) : Bool :=
  (s.hdr o).is_free && decide (r ≤ (s.hdr o).size)

/-- The invariant of reachable states, with the walk `w`, the registry `fl` and
the live addresses made explicit. -/
structure Inv (s : State) (live w fl : List Nat) : Prop where
  core : Core s w fl
  links : ∀ o ∈ w, (s.hdr o).is_free = false →
    (s.hdr o).next = none ∧ (s.hdr o).prev = none
  sizes : ∀ o ∈ w, MIN_BLOCK_SIZE ≤ (s.hdr o).size ∧ (s.hdr o).size % ALIGNMENT = 0
  talloc : s.total_allocated = alloc_sum s.hdr w
  tsum : s.total_allocated + s.total_free = HEAP_SIZE - HEADER_SIZE
  noadj : NoAdjFree s.hdr w
  init : s.allocator_initialized = true
  live_iff : ∀ p, p ∈ live ↔ ∃ b ∈ w, (s.hdr b).is_free = false ∧ p = b + HEADER_SIZE
  live_nodup : live.Nodup

/-- What a successful `my_malloc` that takes the free block `b` for a request
of `r` bytes changes between the state `s` (walk `w`, registry `fl`) and the
result `t` (walk `w2`, registry `fl2`). -/
structure TakeRel (s t : State) (w w2 fl fl2 : List Nat) (b r : Nat) : Prop where
  keep : ∀ o ∈ w, o ∈ w2
  fresh : ∀ o ∈ w2, o ∈ w ∨
    (o = b + HEADER_SIZE + r ∧ o ∉ w ∧ (t.hdr b).size = r ∧ (t.hdr o).is_free = true ∧
      o + HEADER_SIZE + (t.hdr o).size = b + HEADER_SIZE + (s.hdr b).size)
  same : ∀ o ∈ w, o ≠ b →
    (t.hdr o).size = (s.hdr o).size ∧ (t.hdr o).is_free = (s.hdr o).is_free
  untouched : ∀ o ∈ w, (s.hdr o).is_free = false → t.hdr o = s.hdr o
  taken : (t.hdr b).is_free = false ∧ (t.hdr b).next = none ∧ (t.hdr b).prev = none
  size_ge : r ≤ (t.hdr b).size
  size_le : (t.hdr b).size ≤ (s.hdr b).size
  reg : fl2 = fl.erase b ∨ fl2 = (b + HEADER_SIZE + r) :: fl.erase b
  talloc : t.total_allocated = s.total_allocated + (t.hdr b).size
  tfree : t.total_free + (t.hdr b).size = s.total_free
  data : t.data = s.data

/-- Successive `my_malloc` calls that all return an address. -/
def malloc_all (fuel : Nat) : State → List Nat → Option State
  | s, [] => some s
  | s, k :: ks =>
    match my_malloc fuel s k with
    | some (s1, some _) => malloc_all fuel s1 ks
    | _ => none

/-- Block `b` of the walk `w` is allocated with at least `r` bytes, and the
block that ends where `b` starts, if any, is not free. -/
structure Held (s : State) (w : List Nat) (b r : Nat) : Prop where
  mem : b ∈ w
  alloc : (s.hdr b).is_free = false
  big : r ≤ (s.hdr b).size
  pred : ∀ a ∈ w, a + HEADER_SIZE + (s.hdr a).size = b → (s.hdr a).is_free = false

/-- The state after `allocator_init()` at program start. -/
def fresh : State := allocator_init startState

/-- The state after `allocator_init(); p = my_malloc(100)`; `p` is 32. -/
def one_block : State := (my_malloc_take fresh 0 104).1

/-- The state after a further `q = my_malloc(100)`; `q` is 168. -/
def two_blocks : State := (my_malloc_take one_block 136 104).1

/-- The state after a further `my_free(p)`. -/
def first_released : State := (my_free HEAP_SIZE two_blocks (some 32)).getD two_blocks

/-- The state after a further `my_free(q)`. -/
def both_released : State := (my_free HEAP_SIZE first_released (some 168)).getD first_released

/-- The coalescing scenario of `test_merge_blocks` from the state `s`: allocate
`n` bytes three times, then release the second, the first and the third
address.  The result holds the state after the three allocations, the final
state and the three addresses. -/
def coalesce_scenario (fuel : Nat) (s : State) (n : Nat) :
    Option (State × State × Option Nat × Option Nat × Option Nat) :=
  match my_malloc fuel s n with
  | none => none
  | some (s1, a) =>
    match my_malloc fuel s1 n with
    | none => none
    | some (s2, b) =>
      match my_malloc fuel s2 n with
      | none => none
      | some (s3, c) =>
        match my_free fuel s3 b with
        | none => none
        | some s4 =>
          match my_free fuel s4 a with
          | none => none
          | some s5 =>
            match my_free fuel s5 c with
            | none => none
            | some s6 => some (s3, s6, a, b, c)

/-- An initialised state outside the reachable ones: two adjacent free blocks,
of 1000 bytes at offset 0 and of the rest of the arena at offset 1032. -/
def two_free : State :=
  { hdr := fun o =>
      if o = 0 then { size := 1000, is_free := true, next := some 1032, prev := none }
      else if o = 1032 then
        { size := HEAP_SIZE - 1032 - HEADER_SIZE, is_free := true, next := none, prev := some 0 }
      else { size := 0, is_free := false, next := none, prev := none }
    data := fun _ => 0
    free_list_head := some 0
    allocator_initialized := true
    total_allocated := 0
    total_free := HEAP_SIZE - 2 * HEADER_SIZE }

/-- The state after `allocator_init(); my_malloc(100); allocator_cleanup()`:
the arena still holds the allocated block, the flag is cleared. -/
def torn_down : State := allocator_cleanup one_block

/-- Successive `my_malloc` calls of `n` bytes each, `k` times; the addresses
returned are collected, the first call first. -/
def malloc_many (fuel : Nat) (n : Nat) : Nat → State → Option (State × List (Option Nat))
  | 0, s => some (s, [])
  | k + 1, s =>
    match my_malloc fuel s n with
    | none => none
    | some (s1, p) =>
      match malloc_many fuel n k s1 with
      | none => none
      | some (s2, ps) => some (s2, p :: ps)

/-- Successive `my_free` calls on a list of addresses. -/
def free_each (fuel : Nat) : State → List (Option Nat) → Option State
  | s, [] => some s
  | s, p :: ps =>
    match my_free fuel s p with
    | none => none
    | some s1 => free_each fuel s1 ps

/-- Every other element of a list, starting with the second one. -/
def odd_entries : List (Option Nat) → List (Option Nat)
  | _ :: p :: ps => p :: odd_entries ps
  | _ => []

/-- The scenario of `test_fragmentation` on the fresh arena: ten allocations of
50 bytes, then the release of `ptrs[1]`, `ptrs[3]`, ..., `ptrs[9]`. -/
def fragmentation_scenario (fuel : Nat) : Option State :=
  match malloc_many fuel 50 10 fresh with
  | none => none
  | some (s, ps) => free_each fuel s (odd_entries ps)

/-- An arena content outside the reachable ones: the header at offset 0
carries the size `SIZE_MAX - 31`, for which `HEADER_SIZE + size` is 0 in
`size_t`. -/
def wrapping_header : State :=
  fresh.setHdr 0 { size := SIZE_MOD - HEADER_SIZE, is_free := true, next := none, prev := none }

/-- The state after `allocator_init(); a = my_malloc(72)`; `a` is 32. -/
def probe_a : State := (my_malloc_take fresh 0 72).1

/-- The state after a further `my_malloc(16)`, which returns 136. -/
def probe_b : State := (my_malloc_take probe_a 104 16).1

/-- The state after a further `my_free(a)`: the free block at offset 0 has 72
bytes and is the head of the registry. -/
def split_probe : State := (my_free HEAP_SIZE probe_b (some 32)).getD probe_b

/-- The live addresses after a series of allocations that returned `ps`. -/
def lives_after : List (Option Nat) → List Nat → List Nat
  | [], live => live
  | p :: ps, live => lives_after ps (p.toList ++ live)

/-- The live addresses after a series of releases of `ps`. -/
def released : List (Option Nat) → List Nat → List Nat
  | [], live => live
  | none :: ps, live => released ps live
  | some q :: ps, live => released ps (live.erase q)

/-- Every address of `ps` is live when its turn to be released comes. -/
def all_live : List (Option Nat) → List Nat → Bool
  | [], _ => true
  | none :: ps, live => all_live ps live
  | some q :: ps, live => decide (q ∈ live) && all_live ps (live.erase q)

/-- The state after the ten allocations of `test_fragmentation`. -/
def ten_blocks : State := ((malloc_many HEAP_SIZE 50 10 fresh).map Prod.fst).getD fresh

/-- The state after the five releases of `test_fragmentation`. -/
def fragmented : State := (fragmentation_scenario HEAP_SIZE).getD fresh

/-- The block at offset `o` of the state `s` is undisturbed in the state `t`:
it is a block of the arena walk of `t`, its header is the one it had in `s`,
and its payload bytes are the ones it had in `s`. -/
def Kept (s t : State) (o : Nat) : Prop :=
  o ∈ arena_walk t ∧ t.hdr o = s.hdr o ∧
  ∀ a, o + HEADER_SIZE ≤ a → a < o + HEADER_SIZE + (s.hdr o).size → t.data a = s.data a

/-- State after `allocator_init(); a = my_malloc(100); b = my_malloc(16)`. -/
def crowded_b : State := (my_malloc_take one_block 136 16).1

/-- State after a further `c = my_malloc(100)`. -/
def crowded_c : State := (my_malloc_take crowded_b 184 104).1

/-- State after a further `my_free(b)`: the 16-byte block at offset 136 is free
and at the head of the registry, between the allocated blocks of `a` (offset 0)
and `c` (offset 184). -/
def crowded : State := (my_free HEAP_SIZE crowded_c (some 168)).getD crowded_c

/-! ## Byte-level embedding

The same functions on the bytes of `heap[]` themselves, for the calls in which
a copy runs past the block it was given and overwrites headers, which the two
views of `State` keep apart.  A header at offset `b` is the 32 bytes from `b`:
`size` at `b`, `is_free` (an `int`) at `b + 8`, `next` at `b + 16`, `prev` at
`b + 24`; integers are little-endian.  A stored pointer to `heap + p` is kept
as eight fragments, since its numeric value depends on the address of the
arena.  Positions are offsets from `heap`; the arena is taken to lie in the
lower half of the address space, and a pointer sum that reaches `2 ^ 63` has no
result.  An access outside `heap[]`, a load of a number from pointer
fragments, and a load of a pointer from bytes that are neither all zero nor a
whole stored pointer have no result either: what the program does then depends
on the address of the arena and on the memory around it. -/

namespace Raw

/-- One byte of `heap[]`: a plain byte, or byte `k` of a stored pointer
`heap + p`. -/
inductive memval where
  | byte (n : Nat) : memval
  | frag (p k : Nat) : memval
deriving DecidableEq

/-- The globals of `allocator.c`, with the arena as bytes. -/
structure State where
  /-- The array `heap`. -/
  heap : Nat → memval
  /-- Head of the free blocks list. -/
  free_list_head : Option Nat
  /-- Initialization flag. -/
  allocator_initialized : Bool
  /-- Total allocated memory. -/
  total_allocated : Nat
  /-- Total free memory. -/
  total_free : Nat

/-- The globals at program start: zeroed static storage, with the
initialisers of lines 10 to 13. -/
def startState : State :=
  { heap := fun _ => memval.byte 0
    free_list_head := none
    allocator_initialized := false
    total_allocated := 0
    total_free := HEAP_SIZE }

/-- Little-endian value of the `k` plain bytes from offset `a`. -/
def load_bytes (mem : Nat → memval) : Nat → Nat → Option Nat
  | 0, _ => some 0
  | k + 1, a =>
    match mem a, load_bytes mem k (a + 1) with
    | memval.byte b, some r => some (b + 256 * r)
    | _, _ => none

/-- Load of a `k`-byte unsigned integer at offset `a`. -/
def load (mem : Nat → memval) (a k : Nat) : Option Nat :=
  if a + k ≤ HEAP_SIZE then load_bytes mem k a else none

/-- Load of a block pointer at offset `a`: `NULL` from eight zero bytes,
`heap + p` from the eight fragments of that pointer. -/
def load_ptr (mem : Nat → memval) (a : Nat) : Option (Option Nat) :=
  if a + 8 ≤ HEAP_SIZE then
    match mem a with
    | memval.byte _ =>
      match load_bytes mem 8 a with
      | some 0 => some none
      | _ => none
    | memval.frag p _ =>
      if (List.range 8).all (fun k => decide (mem (a + k) = memval.frag p k)) then some (some p)
      else none
  else none

/-- Store of a `k`-byte unsigned integer at offset `a`. -/
def store (mem : Nat → memval) (a k v : Nat) : Option (Nat → memval) :=
  if a + k ≤ HEAP_SIZE then
    some (fun x => if a ≤ x ∧ x < a + k then memval.byte (v / 256 ^ (x - a) % 256) else mem x)
  else none

/-- Store of a block pointer at offset `a`. -/
def store_ptr (mem : Nat → memval) (a : Nat) (p : Option Nat) : Option (Nat → memval) :=
  match p with
  | none => store mem a 8 0
  | some q =>
    if a + 8 ≤ HEAP_SIZE then
      some (fun x => if a ≤ x ∧ x < a + 8 then memval.frag q (x - a) else mem x)
    else none

/-- Sum of a position and a byte count. -/
def ptr_off (p n : Nat) : Option Nat := if p + n < 2 ^ 63 then some (p + n) else none

/-- The field `block->size`. -/
def get_size (s : State) (block : Nat) : Option Nat := load s.heap block 8

/-- The field `block->is_free`, as the truth value C gives it. -/
def get_is_free (s : State) (block : Nat) : Option Bool :=
  (load s.heap (block + 8) 4).map (fun v => decide (v ≠ 0))

/-- The field `block->next`. -/
def get_next (s : State) (block : Nat) : Option (Option Nat) := load_ptr s.heap (block + 16)

/-- The field `block->prev`. -/
def get_prev (s : State) (block : Nat) : Option (Option Nat) := load_ptr s.heap (block + 24)

/-- Assignment to `block->size`. -/
def set_size (s : State) (block v : Nat) : Option State :=
  (store s.heap block 8 v).map (fun m => { s with heap := m })

/-- Assignment to `block->is_free`. -/
def set_is_free (s : State) (block v : Nat) : Option State :=
  (store s.heap (block + 8) 4 v).map (fun m => { s with heap := m })

/-- Assignment to `block->next`. -/
def set_next (s : State) (block : Nat) (p : Option Nat) : Option State :=
  (store_ptr s.heap (block + 16) p).map (fun m => { s with heap := m })

/-- Assignment to `block->prev`. -/
def set_prev (s : State) (block : Nat) (p : Option Nat) : Option State :=
  (store_ptr s.heap (block + 24) p).map (fun m => { s with heap := m })

/-- Initialize the allocator. -/
def allocator_init (s : State) : Option State :=
  if s.allocator_initialized then some s
  else
    let s0 := { s with free_list_head := some 0 }
    (set_size s0 0 (HEAP_SIZE - HEADER_SIZE)).bind fun s1 =>
    (set_is_free s1 0 1).bind fun s2 =>
    (set_next s2 0 none).bind fun s3 =>
    (set_prev s3 0 none).bind fun s4 =>
    some { s4 with total_allocated := 0
                   total_free := HEAP_SIZE - HEADER_SIZE
                   allocator_initialized := true }

/-- The `while` loop of `find_free_block`. -/
def find_free_block_loop (s : State) (size : Nat) : Nat → Option Nat → Option (Option Nat)
  | 0, _ => none
  | _ + 1, none => some none
  | fuel + 1, some current =>
    (get_is_free s current).bind fun f =>
    (if f then get_size s current else some 0).bind fun sz =>
    if f = true ∧ sz ≥ size then some (some current)
    else (get_next s current).bind fun nx => find_free_block_loop s size fuel nx

/-- Find a free block that can accommodate the requested size. -/
def find_free_block (fuel : Nat) (s : State) (size : Nat) : Option (Option Nat) :=
  match s.free_list_head with
  | none => some none
  | some head => find_free_block_loop s size fuel (some head)

/-- Add block to the free list. -/
def add_to_free_list (s : State) (block : Nat) : Option State :=
  match s.free_list_head with
  | none =>
    let s1 := { s with free_list_head := some block }
    (set_next s1 block none).bind fun s2 => set_prev s2 block none
  | some head =>
    (set_next s block (some head)).bind fun s1 =>
    (set_prev s1 block none).bind fun s2 =>
    (set_prev s2 head (some block)).bind fun s3 =>
    some { s3 with free_list_head := some block }

/-- Remove block from the free list. -/
def remove_from_free_list (s : State) (block : Nat) : Option State :=
  (get_prev s block).bind fun pv =>
  (match pv with
    | some p => (get_next s block).bind fun nx => set_next s p nx
    | none => (get_next s block).bind fun nx => some { s with free_list_head := nx }).bind fun s1 =>
  (get_next s1 block).bind fun nx1 =>
  (match nx1 with
    | some n => (get_prev s1 block).bind fun pv1 => set_prev s1 n pv1
    | none => some s1).bind fun s2 =>
  (set_next s2 block none).bind fun s3 => set_prev s3 block none

/-- Split a block if it is larger than needed; returns the new block. -/
def split_block (s : State) (block size : Nat) : Option (State × Option Nat) :=
  (get_size s block).bind fun bsz =>
  if bsz ≤ size_add (size_add size HEADER_SIZE) MIN_BLOCK_SIZE then some (s, none)
  else
    (ptr_off block (HEADER_SIZE + size)).bind fun new_block =>
    (set_size s new_block (size_sub (size_sub bsz size) HEADER_SIZE)).bind fun s1 =>
    (set_is_free s1 new_block 1).bind fun s2 =>
    (set_next s2 new_block none).bind fun s3 =>
    (set_prev s3 new_block none).bind fun s4 =>
    (set_size s4 block size).bind fun s5 =>
    (add_to_free_list s5 new_block).bind fun s6 => some (s6, some new_block)

/-- The test of `merge_free_blocks` on the block at `current_pos`: whether it is
free and followed inside the arena by a free block, and the position of that
block. -/
def merge_test (s : State) (current_pos : Nat) : Option (Bool × Nat) :=
  (get_is_free s current_pos).bind fun f =>
  if f then
    (get_size s current_pos).bind fun sz =>
    (ptr_off current_pos (HEADER_SIZE + sz)).bind fun next_pos =>
    if next_pos < HEAP_SIZE then (get_is_free s next_pos).map fun nf => (nf, next_pos)
    else some (false, next_pos)
  else some (false, current_pos)

/-- The `while` loop of `merge_free_blocks`. -/
def merge_loop : Nat → State → Nat → Option State
  | 0, _, _ => none
  | fuel + 1, s, current_pos =>
    if current_pos < HEAP_SIZE then
      (merge_test s current_pos).bind fun t =>
      if t.1 then
        (remove_from_free_list s t.2).bind fun s1 =>
        (get_size s1 current_pos).bind fun csz =>
        (get_size s1 t.2).bind fun nsz =>
        (set_size s1 current_pos (size_add csz (size_add HEADER_SIZE nsz))).bind fun s2 =>
        merge_loop fuel s2 current_pos
      else
        (get_size s current_pos).bind fun sz =>
        (ptr_off current_pos (size_add HEADER_SIZE sz)).bind fun pos =>
        merge_loop fuel s pos
    else some s

/-- Merge adjacent free blocks. -/
def merge_free_blocks (fuel : Nat) (s : State) : Option State :=
  merge_loop fuel s 0

/-- The part of `my_malloc` after a block was found. -/
def my_malloc_take (s : State) (block size : Nat) : Option (State × Option Nat) :=
  (remove_from_free_list s block).bind fun s1 =>
  (split_block s1 block size).bind fun r =>
  (set_is_free r.1 block 0).bind fun s3 =>
  (get_size s3 block).bind fun bsz =>
  let s4 := { s3 with total_allocated := size_add s3.total_allocated bsz }
  let s5 := { s4 with total_free := size_sub s4.total_free bsz }
  some (s5, some (block + HEADER_SIZE))

/-- Custom malloc implementation. -/
def my_malloc (fuel : Nat) (s : State) (size : Nat) : Option (State × Option Nat) :=
  (if s.allocator_initialized then some s else allocator_init s).bind fun s =>
  if size = 0 then some (s, none)
  else
    let size := align_size size
    let size := if size < MIN_BLOCK_SIZE then MIN_BLOCK_SIZE else size
    match find_free_block fuel s size with
    | none => none
    | some (some block) => my_malloc_take s block size
    | some none =>
      match merge_free_blocks fuel s with
      | none => none
      | some sm =>
        match find_free_block fuel sm size with
        | none => none
        | some none => some (sm, none)
        | some (some block) => my_malloc_take sm block size

/-- Custom free implementation.  An address below `HEADER_SIZE` stands for a
header pointer below the arena start. -/
def my_free (fuel : Nat) (s : State) (ptr : Option Nat) : Option State :=
  match ptr with
  | none => some s
  | some p =>
    if p < HEADER_SIZE ∨ p - HEADER_SIZE ≥ HEAP_SIZE then some s
    else
      let block := p - HEADER_SIZE
      (get_is_free s block).bind fun f =>
      if f then some s
      else
        (set_is_free s block 1).bind fun s1 =>
        (get_size s1 block).bind fun bsz =>
        let s2 := { s1 with total_allocated := size_sub s1.total_allocated bsz }
        let s3 := { s2 with total_free := size_add s2.total_free bsz }
        (add_to_free_list s3 block).bind fun s4 => merge_free_blocks fuel s4

/-- The library call `memcpy(dst, src, n)` inside `heap[]`, for ranges that do
not overlap. -/
def memcpy (s : State) (dst src n : Nat) : Option State :=
  if dst + n ≤ HEAP_SIZE ∧ src + n ≤ HEAP_SIZE ∧ (dst + n ≤ src ∨ src + n ≤ dst) then
    some { s with
      heap := fun x => if dst ≤ x ∧ x < dst + n then s.heap (src + (x - dst)) else s.heap x }
  else none

/-- Custom realloc implementation. -/
def my_realloc (fuel : Nat) (s : State) (ptr : Option Nat) (size : Nat) :
    Option (State × Option Nat) :=
  match ptr with
  | none => my_malloc fuel s size
  | some p =>
    if size = 0 then (my_free fuel s (some p)).map fun s1 => (s1, none)
    else if p < HEADER_SIZE then none
    else
      let block := p - HEADER_SIZE
      (get_size s block).bind fun old_size =>
      if size ≤ old_size then some (s, some p)
      else
        (my_malloc fuel s size).bind fun r =>
        match r.2 with
        | none => some (r.1, none)
        | some new_ptr =>
          (memcpy r.1 new_ptr p old_size).bind fun s2 =>
          (my_free fuel s2 (some p)).bind fun s3 => some (s3, some new_ptr)

/-- A store of the byte `v` at offset `a` by the caller. -/
def poke (s : State) (a v : Nat) : Option State :=
  (store s.heap a 1 v).map (fun m => { s with heap := m })

/-- A store of the `k`-byte little-endian integer `v` at offset `a` by the
caller. -/
def poke_uint (s : State) (a k v : Nat) : Option State :=
  (store s.heap a k v).map (fun m => { s with heap := m })

/-- Get total allocated memory. -/
def get_total_allocated (s : State) : Nat := s.total_allocated

/-- Get total free memory. -/
def get_total_free (s : State) : Nat := s.total_free

/-- The `while` loop of `get_fragmentation_count`. -/
def fragmentation_loop (s : State) : Nat → Option Nat → Nat → Option Nat
  | 0, _, _ => none
  | _ + 1, none, count => some count
  | fuel + 1, some current, count =>
    (get_is_free s current).bind fun f =>
    (get_next s current).bind fun nx =>
    fragmentation_loop s fuel nx (if f then count + 1 else count)

/-- Count memory fragmentation (number of free blocks). -/
def get_fragmentation_count (fuel : Nat) (s : State) : Option Nat :=
  fragmentation_loop s fuel s.free_list_head 0

/-- The `while` loop of `validate_heap`. -/
def validate_heap_loop (s : State) : Nat → Nat → Option Bool
  | 0, _ => none
  | fuel + 1, current_pos =>
    if current_pos < HEAP_SIZE then
      if current_pos + HEADER_SIZE > HEAP_SIZE then some false
      else
        (get_size s current_pos).bind fun sz =>
        (ptr_off current_pos (HEADER_SIZE + sz)).bind fun e =>
        if e > HEAP_SIZE then some false
        else
          (ptr_off current_pos (size_add HEADER_SIZE sz)).bind fun pos =>
          validate_heap_loop s fuel pos
    else some true

/-- Validate heap integrity. -/
def validate_heap (fuel : Nat) (s : State) : Option Bool := validate_heap_loop s fuel 0

/-- The blocks met by walking the arena from `pos` in steps of
`HEADER_SIZE + block.size`, each with its size and its flag, and the position
at which the walk leaves the arena. -/
def walk_from (s : State) : Nat → Nat → Option (List (Nat × Nat × Bool) × Nat)
  | 0, _ => none
  | fuel + 1, pos =>
    if pos < HEAP_SIZE then
      (get_size s pos).bind fun sz =>
      (get_is_free s pos).bind fun f =>
      (ptr_off pos (HEADER_SIZE + sz)).bind fun e =>
      (walk_from s fuel e).map fun r => ((pos, sz, f) :: r.1, r.2)
    else some ([], pos)

/-- The arena walk from offset 0. -/
def arena_walk (fuel : Nat) (s : State) : Option (List (Nat × Nat × Bool) × Nat) :=
  walk_from s fuel 0

/-- The blocks met by following `next` from a block pointer, each with its
size and its flag. -/
def chain_from (s : State) : Nat → Option Nat → Option (List (Nat × Nat × Bool))
  | 0, _ => none
  | _ + 1, none => some []
  | fuel + 1, some o =>
    (get_size s o).bind fun sz =>
    (get_is_free s o).bind fun f =>
    (get_next s o).bind fun nx =>
    (chain_from s fuel nx).map fun r => (o, sz, f) :: r

/-- The Free Registry: the blocks reachable from `free_list_head`. -/
def registry (fuel : Nat) (s : State) : Option (List (Nat × Nat × Bool)) :=
  chain_from s fuel s.free_list_head

end Raw

/-! ## Calls whose copy runs past the new block -/

/-- The bytes after `allocator_init(); p = my_malloc(100)`: `p` is the address
32 of the block at offset 0. -/
def raw_one_block : Option Raw.State :=
  (Raw.allocator_init Raw.startState).bind fun s0 =>
  (Raw.my_malloc HEAP_SIZE s0 100).map Prod.fst

/-- The program `allocator_init(); p = my_malloc(100);
*(size_t *)(p + 16) = S; *(int *)(p + 24) = F; q = my_realloc(p, SIZE_MAX)`.
The two stores lie in the payload of `p`.  The inner `my_malloc(SIZE_MAX)`
returns the address 168 of a 16-byte block, followed by the header of the free
block at offset 184; the copy of the 104 payload bytes of `p` to address 168
puts `S` and `F` into the fields `size` and `is_free` of that header. -/
def overrun_scenario (S F : Nat) : Option (Raw.State × Option Nat) :=
  raw_one_block.bind fun s1 =>
  (Raw.poke_uint s1 48 8 S).bind fun s2 =>
  (Raw.poke_uint s2 56 4 F).bind fun s3 =>
  Raw.my_realloc HEAP_SIZE s3 (some 32) (SIZE_MOD - 1)

/-- The bytes after `allocator_init(); x = my_malloc(16); y = my_malloc(24);
p = my_malloc(100); my_free(x)`: the blocks of `x`, `y` and `p` are at the
offsets 0, 48 and 104, their addresses are 32, 80 and 136, and the block of `x`
is free and at the head of the registry. -/
def raw_three_blocks : Option Raw.State :=
  (Raw.allocator_init Raw.startState).bind fun s0 =>
  (Raw.my_malloc HEAP_SIZE s0 16).bind fun r1 =>
  (Raw.my_malloc HEAP_SIZE r1.1 24).bind fun r2 =>
  (Raw.my_malloc HEAP_SIZE r2.1 100).bind fun r3 =>
  Raw.my_free HEAP_SIZE r3.1 (some 32)

/-- The program of `raw_three_blocks` followed by
`*(size_t *)(p + 16) = YS; *(int *)(p + 24) = YF; *(size_t *)(p + 72) = 104;
*(int *)(p + 80) = 1; q = my_realloc(p, SIZE_MAX)`.  The four stores lie in the
payload of `p`.  The inner `my_malloc(SIZE_MAX)` returns the address 32 of the
16-byte block of `x`; the copy of the 104 payload bytes of `p` to address 32
ends where the payload of `p` starts and overwrites the header of `y` (with
`YS` and `YF`) and the header of `p` itself (with size 104 and `is_free = 1`),
so that the `my_free(p)` at the end of `my_realloc` takes `p` for a double
free and returns at once. -/
def overrun_self_scenario (YS YF : Nat) : Option (Raw.State × Option Nat) :=
  raw_three_blocks.bind fun s =>
  (Raw.poke_uint s 152 8 YS).bind fun s =>
  (Raw.poke_uint s 160 4 YF).bind fun s =>
  (Raw.poke_uint s 208 8 104).bind fun s =>
  (Raw.poke_uint s 216 4 1).bind fun s =>
  Raw.my_realloc HEAP_SIZE s (some 136) (SIZE_MOD - 1)

/-! ## Basic facts -/

@[simp] theorem setHdr_hdr (s : State) (o : Nat) (h : block_header_t) (a : Nat) :
    (s.setHdr o h).hdr a = if a = o then h else s.hdr a := rfl

@[simp] theorem setHdr_head (s : State) (o : Nat) (h : block_header_t) :
    (s.setHdr o h).free_list_head = s.free_list_head := rfl

@[simp] theorem setHdr_data (s : State) (o : Nat) (h : block_header_t) :
    (s.setHdr o h).data = s.data := rfl

@[simp] theorem setHdr_init (s : State) (o : Nat) (h : block_header_t) :
    (s.setHdr o h).allocator_initialized = s.allocator_initialized := rfl

@[simp] theorem setHdr_talloc (s : State) (o : Nat) (h : block_header_t) :
    (s.setHdr o h).total_allocated = s.total_allocated := rfl

@[simp] theorem setHdr_tfree (s : State) (o : Nat) (h : block_header_t) :
    (s.setHdr o h).total_free = s.total_free := rfl

/-! ### Walks -/

theorem walk_le {hdr : Nat → block_header_t} {l : List Nat} {pos e : Nat}
    (h : IsWalk hdr pos l e) : pos ≤ e := by
  induction l generalizing pos with
  | nil => exact le_of_eq h
  | cons o l ih =>
    have := ih h.2
    omega

theorem walk_mem {hdr : Nat → block_header_t} {l : List Nat} {pos e o : Nat}
    (h : IsWalk hdr pos l e) (ho : o ∈ l) :
    pos ≤ o ∧ o + HEADER_SIZE + (hdr o).size ≤ e := by
  induction l generalizing pos with
  | nil => cases ho
  | cons a l ih =>
    obtain ⟨rfl, h2⟩ := h
    rcases List.mem_cons.1 ho with rfl | ho
    · exact ⟨le_rfl, walk_le h2⟩
    · have := ih h2 ho
      simp only [HEADER_SIZE] at *
      omega

theorem walk_append {hdr : Nat → block_header_t} {l1 l2 : List Nat} {pos e : Nat} :
    IsWalk hdr pos (l1 ++ l2) e ↔ ∃ m, IsWalk hdr pos l1 m ∧ IsWalk hdr m l2 e := by
  induction l1 generalizing pos with
  | nil => simp [IsWalk]
  | cons a l ih =>
    show (a = pos ∧ IsWalk hdr _ (l ++ l2) e) ↔
      ∃ m, (a = pos ∧ IsWalk hdr _ l m) ∧ IsWalk hdr m l2 e
    rw [ih]
    constructor
    · rintro ⟨rfl, m, h1, h2⟩
      exact ⟨m, ⟨rfl, h1⟩, h2⟩
    · rintro ⟨m, ⟨rfl, h1⟩, h2⟩
      exact ⟨rfl, m, h1, h2⟩

theorem walk_congr {hdr hdr2 : Nat → block_header_t} {l : List Nat} {pos e : Nat}
    (hs : ∀ o ∈ l, (hdr2 o).size = (hdr o).size) :
    IsWalk hdr2 pos l e ↔ IsWalk hdr pos l e := by
  induction l generalizing pos with
  | nil => simp [IsWalk]
  | cons a l ih =>
    simp only [IsWalk]
    constructor
    · rintro ⟨rfl, h⟩
      rw [hs a (List.mem_cons_self _ _)] at h
      exact ⟨rfl, (ih (fun o ho => hs o (List.mem_cons_of_mem _ ho))).1 h⟩
    · rintro ⟨rfl, h⟩
      rw [hs a (List.mem_cons_self _ _)]
      exact ⟨rfl, (ih (fun o ho => hs o (List.mem_cons_of_mem _ ho))).2 h⟩

theorem walk_head_lt {hdr : Nat → block_header_t} {l : List Nat} {pos e o : Nat}
    (h : IsWalk hdr (pos + HEADER_SIZE + (hdr pos).size) l e) (ho : o ∈ l) : pos < o := by
  have := (walk_mem h ho).1
  simp only [HEADER_SIZE] at *
  omega

theorem walk_sorted {hdr : Nat → block_header_t} {l : List Nat} {pos e : Nat}
    (h : IsWalk hdr pos l e) : l.Pairwise (· < ·) := by
  induction l generalizing pos with
  | nil => exact List.Pairwise.nil
  | cons a l ih =>
    obtain ⟨rfl, h2⟩ := h
    exact List.Pairwise.cons (fun o ho => walk_head_lt h2 ho) (ih h2)

theorem walk_nodup {hdr : Nat → block_header_t} {l : List Nat} {pos e : Nat}
    (h : IsWalk hdr pos l e) : l.Nodup :=
  (walk_sorted h).imp (fun hab => Nat.ne_of_lt hab)

/-- Two blocks of a walk do not overlap: a later block starts at or after the
end of an earlier one. -/
theorem walk_disjoint {hdr : Nat → block_header_t} {l : List Nat} {pos e a b : Nat}
    (h : IsWalk hdr pos l e) (ha : a ∈ l) (hb : b ∈ l) (hab : a < b) :
    a + HEADER_SIZE + (hdr a).size ≤ b := by
  induction l generalizing pos with
  | nil => cases ha
  | cons x l ih =>
    obtain ⟨hx, h2⟩ := h
    subst hx
    rcases List.mem_cons.1 ha with hax | hal
    · rcases List.mem_cons.1 hb with hbx | hbl
      · omega
      · rw [hax]
        exact (walk_mem h2 hbl).1
    · rcases List.mem_cons.1 hb with hbx | hbl
      · have := walk_head_lt h2 hal
        omega
      · exact ih h2 hal hbl

theorem walk_unique {hdr : Nat → block_header_t} {l1 l2 : List Nat} {pos e : Nat}
    (h1 : IsWalk hdr pos l1 e) (h2 : IsWalk hdr pos l2 e) : l1 = l2 := by
  induction l1 generalizing pos l2 with
  | nil =>
    cases l2 with
    | nil => rfl
    | cons b l2 =>
      have h1e : pos = e := h1
      have := walk_le h2.2
      simp only [HEADER_SIZE] at *
      omega
  | cons a l1 ih =>
    cases l2 with
    | nil =>
      have h2e : pos = e := h2
      have := walk_le h1.2
      simp only [HEADER_SIZE] at *
      omega
    | cons b l2 =>
      obtain ⟨rfl, h1⟩ := h1
      obtain ⟨rfl, h2⟩ := h2
      rw [ih h1 h2]

theorem walk_length {hdr : Nat → block_header_t} {l : List Nat} {pos e : Nat}
    (h : IsWalk hdr pos l e) : pos + HEADER_SIZE * l.length ≤ e := by
  induction l generalizing pos with
  | nil => simpa using le_of_eq h
  | cons a l ih =>
    have := ih h.2
    simp only [List.length_cons, HEADER_SIZE] at *
    omega

theorem walk_from_eq {hdr : Nat → block_header_t} {l : List Nat} {pos : Nat}
    (h : IsWalk hdr pos l HEAP_SIZE) (fuel : Nat) (hf : l.length ≤ fuel) :
    walk_from hdr fuel pos = l := by
  induction l generalizing pos fuel with
  | nil =>
    have hp : pos = HEAP_SIZE := h
    cases fuel <;> simp [walk_from, hp]
  | cons a l ih =>
    obtain ⟨rfl, h2⟩ := h
    cases fuel with
    | zero => simp at hf
    | succ fuel =>
      have h3 := walk_le h2
      have hlt : a < HEAP_SIZE := by
        simp only [HEADER_SIZE] at *
        omega
      simp only [walk_from, hlt, if_true]
      rw [ih h2 fuel (by simpa using hf)]

theorem arena_walk_eq {s : State} {w : List Nat} (h : IsWalk s.hdr 0 w HEAP_SIZE) :
    arena_walk s = w := by
  apply walk_from_eq h
  have := walk_length h
  simp only [HEADER_SIZE] at *
  omega

/-! ### Doubly linked segments -/

@[simp] theorem lastPtr_nil (p : Option Nat) : lastPtr p [] = p := rfl

@[simp] theorem lastPtr_cons (p : Option Nat) (a : Nat) (l : List Nat) :
    lastPtr p (a :: l) = lastPtr (some a) l := rfl

theorem lastPtr_append_singleton (p : Option Nat) (l : List Nat) (q : Nat) :
    lastPtr p (l ++ [q]) = some q := by
  induction l generalizing p with
  | nil => rfl
  | cons a l ih => simpa using ih (some a)

theorem seg_append {hdr : Nat → block_header_t} {l1 l2 : List Nat} {p c e : Option Nat} :
    IsSeg hdr p c (l1 ++ l2) e ↔
      ∃ m, IsSeg hdr p c l1 m ∧ IsSeg hdr (lastPtr p l1) m l2 e := by
  induction l1 generalizing p c with
  | nil => simp [IsSeg]
  | cons a l ih =>
    show (c = some a ∧ (hdr a).prev = p ∧ IsSeg hdr (some a) (hdr a).next (l ++ l2) e) ↔
      ∃ m, (c = some a ∧ (hdr a).prev = p ∧ IsSeg hdr (some a) (hdr a).next l m) ∧
        IsSeg hdr (lastPtr (some a) l) m l2 e
    rw [ih]
    constructor
    · rintro ⟨h1, h2, m, h3, h4⟩
      exact ⟨m, ⟨h1, h2, h3⟩, h4⟩
    · rintro ⟨m, ⟨h1, h2, h3⟩, h4⟩
      exact ⟨h1, h2, m, h3, h4⟩

theorem seg_congr {hdr hdr2 : Nat → block_header_t} {l : List Nat} {p c e : Option Nat}
    (hs : ∀ o ∈ l, (hdr2 o).next = (hdr o).next ∧ (hdr2 o).prev = (hdr o).prev) :
    IsSeg hdr2 p c l e ↔ IsSeg hdr p c l e := by
  induction l generalizing p c with
  | nil => exact Iff.rfl
  | cons a l ih =>
    show (c = some a ∧ (hdr2 a).prev = p ∧ IsSeg hdr2 (some a) (hdr2 a).next l e) ↔
      (c = some a ∧ (hdr a).prev = p ∧ IsSeg hdr (some a) (hdr a).next l e)
    rw [(hs a (List.mem_cons_self _ _)).1, (hs a (List.mem_cons_self _ _)).2,
      ih (fun o ho => hs o (List.mem_cons_of_mem _ ho))]

theorem chain_from_eq {hdr : Nat → block_header_t} {l : List Nat} {p c : Option Nat}
    (h : IsSeg hdr p c l none) (fuel : Nat) (hf : l.length < fuel) :
    chain_from hdr fuel c = l := by
  induction l generalizing p c fuel with
  | nil =>
    have hc : c = none := h
    subst hc
    cases fuel <;> simp [chain_from]
  | cons a l ih =>
    obtain ⟨hc, -, h2⟩ := h
    subst hc
    cases fuel with
    | zero => simp at hf
    | succ fuel =>
      simp only [chain_from]
      rw [ih h2 fuel (by simpa using hf)]

/-! ### `remove_from_free_list` -/

theorem ite_size (c : Prop) [Decidable c] (a b : block_header_t) :
    (if c then a else b).size = if c then a.size else b.size := by
  split <;> rfl

theorem ite_is_free (c : Prop) [Decidable c] (a b : block_header_t) :
    (if c then a else b).is_free = if c then a.is_free else b.is_free := by
  split <;> rfl

theorem ite_next (c : Prop) [Decidable c] (a b : block_header_t) :
    (if c then a else b).next = if c then a.next else b.next := by
  split <;> rfl

theorem ite_prev (c : Prop) [Decidable c] (a b : block_header_t) :
    (if c then a else b).prev = if c then a.prev else b.prev := by
  split <;> rfl

theorem remove_size (s : State) (b o : Nat) :
    ((remove_from_free_list s b).hdr o).size = (s.hdr o).size := by
  unfold remove_from_free_list
  rcases hp : (s.hdr b).prev with _ | p <;> rcases hn : (s.hdr b).next with _ | n <;>
    simp only [hp, hn, setHdr_hdr, ite_size, ite_is_free, ite_next, ite_prev] <;>
    split_ifs <;> (try simp_all) <;> (try split_ifs) <;> (try simp_all)

theorem remove_is_free (s : State) (b o : Nat) :
    ((remove_from_free_list s b).hdr o).is_free = (s.hdr o).is_free := by
  unfold remove_from_free_list
  rcases hp : (s.hdr b).prev with _ | p <;> rcases hn : (s.hdr b).next with _ | n <;>
    simp only [hp, hn, setHdr_hdr, ite_size, ite_is_free, ite_next, ite_prev] <;>
    split_ifs <;> (try simp_all) <;> (try split_ifs) <;> (try simp_all)

theorem remove_next (s : State) (b o : Nat) :
    ((remove_from_free_list s b).hdr o).next =
      if o = b then none
      else if (s.hdr b).prev = some o then (s.hdr b).next else (s.hdr o).next := by
  unfold remove_from_free_list
  rcases hp : (s.hdr b).prev with _ | p <;> rcases hn : (s.hdr b).next with _ | n <;>
    simp only [hp, hn, setHdr_hdr, ite_size, ite_is_free, ite_next, ite_prev] <;>
    split_ifs <;> (try simp_all) <;> (try split_ifs) <;> (try simp_all)

theorem remove_prev (s : State) (b o : Nat) :
    ((remove_from_free_list s b).hdr o).prev =
      if o = b then none
      else if (s.hdr b).next = some o then (s.hdr b).prev else (s.hdr o).prev := by
  unfold remove_from_free_list
  rcases hp : (s.hdr b).prev with _ | p <;> rcases hn : (s.hdr b).next with _ | n <;>
    simp only [hp, hn, setHdr_hdr, ite_size, ite_is_free, ite_next, ite_prev] <;>
    split_ifs <;> (try simp_all) <;> (try split_ifs) <;> (try simp_all)

theorem remove_head (s : State) (b : Nat) :
    (remove_from_free_list s b).free_list_head =
      if (s.hdr b).prev = none then (s.hdr b).next else s.free_list_head := by
  unfold remove_from_free_list
  rcases hp : (s.hdr b).prev with _ | p <;> rcases hn : (s.hdr b).next with _ | n <;>
    simp only [hp, hn, setHdr_hdr, setHdr_head, ite_size, ite_is_free, ite_next, ite_prev] <;>
    split_ifs <;> simp_all

theorem remove_other (s : State) (b : Nat) :
    (remove_from_free_list s b).data = s.data ∧
    (remove_from_free_list s b).allocator_initialized = s.allocator_initialized ∧
    (remove_from_free_list s b).total_allocated = s.total_allocated ∧
    (remove_from_free_list s b).total_free = s.total_free := by
  unfold remove_from_free_list
  rcases hp : (s.hdr b).prev with _ | p <;> rcases hn : (s.hdr b).next with _ | n <;>
    simp only [hp, hn, setHdr_hdr, setHdr_head, ite_size, ite_is_free, ite_next, ite_prev] <;>
    (try split_ifs) <;> simp_all

/-- Headers that are neither the removed block nor its list neighbours are
untouched. -/
theorem remove_hdr_other (s : State) (b o : Nat) (hob : o ≠ b)
    (hp : (s.hdr b).prev ≠ some o) (hn : (s.hdr b).next ≠ some o) :
    (remove_from_free_list s b).hdr o = s.hdr o := by
  apply block_header_t.ext
  · exact remove_size s b o
  · exact remove_is_free s b o
  · rw [remove_next]; simp [hob, hp]
  · rw [remove_prev]; simp [hob, hn]

theorem remove_seg_tail (s : State) (b : Nat) (l2 : List Nat)
    (hc : IsSeg s.hdr (some b) (s.hdr b).next l2 none)
    (hb : b ∉ l2) (hn : l2.Nodup) (hp : ∀ o ∈ l2, (s.hdr b).prev ≠ some o) :
    IsSeg (remove_from_free_list s b).hdr (s.hdr b).prev (s.hdr b).next l2 none := by
  cases l2 with
  | nil => exact hc
  | cons n l2 =>
    obtain ⟨h1, h2, h3⟩ := hc
    have hnb : n ≠ b := fun h => hb (h ▸ List.mem_cons_self _ _)
    have hnd := List.nodup_cons.1 hn
    refine ⟨h1, ?_, ?_⟩
    · rw [remove_prev]; simp [hnb, h1]
    · have hnx : ((remove_from_free_list s b).hdr n).next = (s.hdr n).next := by
        rw [remove_next]; simp [hnb, hp n (List.mem_cons_self _ _)]
      rw [hnx]
      refine (seg_congr ?_).2 h3
      intro o ho
      have hob : o ≠ b := fun h => hb (h ▸ List.mem_cons_of_mem _ ho)
      have hon : o ≠ n := fun h => hnd.1 (h ▸ ho)
      rw [remove_hdr_other s b o hob (hp o (List.mem_cons_of_mem _ ho))
        (by rw [h1]; simpa using Ne.symm hon)]
      exact ⟨rfl, rfl⟩

theorem remove_seg_init (s : State) (b : Nat) (l1 : List Nat)
    (hc : IsSeg s.hdr none s.free_list_head l1 (some b))
    (hpb : (s.hdr b).prev = lastPtr none l1)
    (hb : b ∉ l1) (hn : l1.Nodup) (hx : ∀ o ∈ l1, (s.hdr b).next ≠ some o) :
    IsSeg (remove_from_free_list s b).hdr none (remove_from_free_list s b).free_list_head
      l1 (s.hdr b).next := by
  rcases List.eq_nil_or_concat l1 with rfl | ⟨l, q, rfl⟩
  · show (remove_from_free_list s b).free_list_head = (s.hdr b).next
    rw [remove_head]
    simp [show (s.hdr b).prev = none from hpb]
  · rw [List.concat_eq_append] at *
    rw [lastPtr_append_singleton] at hpb
    have hhead : (remove_from_free_list s b).free_list_head = s.free_list_head := by
      rw [remove_head]; simp [hpb]
    rw [hhead]
    obtain ⟨m, hm1, hm2, hm3, hm4⟩ := seg_append.1 hc
    have hqb : q ≠ b := fun h => hb (h ▸ by simp)
    have hnd := List.nodup_append.1 hn
    refine seg_append.2 ⟨m, ?_, hm2, ?_, ?_⟩
    · refine (seg_congr ?_).2 hm1
      intro o ho
      have hob : o ≠ b := fun h => hb (h ▸ by simp [ho])
      have hoq : o ≠ q := fun h => hnd.2.2 ho (by simp [h])
      rw [remove_hdr_other s b o hob (by rw [hpb]; simpa using Ne.symm hoq)
        (hx o (by simp [ho]))]
      exact ⟨rfl, rfl⟩
    · rw [remove_prev]
      simp only [hqb, if_false, hx q (by simp)]
      exact hm3
    · show ((remove_from_free_list s b).hdr q).next = (s.hdr b).next
      rw [remove_next]; simp [hqb, hpb]

theorem remove_seg (s : State) (b : Nat) (l1 l2 : List Nat)
    (hc : IsSeg s.hdr none s.free_list_head (l1 ++ b :: l2) none)
    (hn : (l1 ++ b :: l2).Nodup) :
    IsSeg (remove_from_free_list s b).hdr none (remove_from_free_list s b).free_list_head
      (l1 ++ l2) none := by
  obtain ⟨m, h1, h2, h3, h4⟩ := seg_append.1 hc
  subst h2
  have hnd := List.nodup_append.1 hn
  have hnd2 := List.nodup_cons.1 hnd.2.1
  have hb1 : b ∉ l1 := fun h => hnd.2.2 h (List.mem_cons_self _ _)
  have hnx1 : ∀ o ∈ l1, (s.hdr b).next ≠ some o := by
    intro o ho hEq
    cases l2 with
    | nil =>
      have h4n : (s.hdr b).next = none := h4
      rw [h4n] at hEq; cases hEq
    | cons n l2 =>
      have : (s.hdr b).next = some n := h4.1
      rw [this] at hEq
      cases hEq
      exact hnd.2.2 ho (by simp)
  have hpv2 : ∀ o ∈ l2, (s.hdr b).prev ≠ some o := by
    intro o ho hEq
    rw [h3] at hEq
    rcases List.eq_nil_or_concat l1 with rfl | ⟨l, q, rfl⟩
    · cases hEq
    · rw [List.concat_eq_append, lastPtr_append_singleton] at hEq
      cases hEq
      exact hnd.2.2 (by simp) (List.mem_cons_of_mem _ ho)
  refine seg_append.2 ⟨(s.hdr b).next, remove_seg_init s b l1 h1 h3 hb1 hnd.1 hnx1, ?_⟩
  rw [← h3]
  exact remove_seg_tail s b l2 h4 hnd2.1 hnd2.2 hpv2

/-! ### `size_t` arithmetic without wrap-around -/

theorem SIZE_MOD_eq : SIZE_MOD = 18446744073709551616 := by
  norm_num [SIZE_MOD]

theorem size_add_eq {a b : Nat} (h : a + b < SIZE_MOD) : size_add a b = a + b :=
  Nat.mod_eq_of_lt h

theorem size_sub_eq {a b : Nat} (hb : b ≤ a) (ha : a < SIZE_MOD) : size_sub a b = a - b := by
  unfold size_sub
  rw [SIZE_MOD_eq] at *
  omega

/-! ### `add_to_free_list` -/

theorem add_size (s : State) (b o : Nat) :
    ((add_to_free_list s b).hdr o).size = (s.hdr o).size := by
  unfold add_to_free_list
  rcases hh : s.free_list_head with _ | h <;>
    simp only [setHdr_hdr, ite_size, ite_is_free, ite_next, ite_prev] <;>
    split_ifs <;> simp_all

theorem add_is_free (s : State) (b o : Nat) :
    ((add_to_free_list s b).hdr o).is_free = (s.hdr o).is_free := by
  unfold add_to_free_list
  rcases hh : s.free_list_head with _ | h <;>
    simp only [setHdr_hdr, ite_size, ite_is_free, ite_next, ite_prev] <;>
    split_ifs <;> simp_all

theorem add_next (s : State) (b o : Nat) :
    ((add_to_free_list s b).hdr o).next =
      if o = b then s.free_list_head else (s.hdr o).next := by
  unfold add_to_free_list
  rcases hh : s.free_list_head with _ | h
  all_goals simp only [setHdr_hdr, ite_size, ite_is_free, ite_next, ite_prev]
  all_goals split_ifs <;> simp_all

theorem add_prev (s : State) (b o : Nat) :
    ((add_to_free_list s b).hdr o).prev =
      if s.free_list_head = some o then some b
      else if o = b then none else (s.hdr o).prev := by
  unfold add_to_free_list
  rcases hh : s.free_list_head with _ | h <;>
    simp only [setHdr_hdr, ite_size, ite_is_free, ite_next, ite_prev] <;>
    split_ifs <;> simp_all

theorem add_head (s : State) (b : Nat) :
    (add_to_free_list s b).free_list_head = some b := by
  unfold add_to_free_list
  rcases hh : s.free_list_head with _ | h <;> simp

theorem add_other (s : State) (b : Nat) :
    (add_to_free_list s b).data = s.data ∧
    (add_to_free_list s b).allocator_initialized = s.allocator_initialized ∧
    (add_to_free_list s b).total_allocated = s.total_allocated ∧
    (add_to_free_list s b).total_free = s.total_free := by
  unfold add_to_free_list
  rcases hh : s.free_list_head with _ | h <;> simp

theorem add_seg (s : State) (b : Nat) (fl : List Nat)
    (hc : IsSeg s.hdr none s.free_list_head fl none) (hb : b ∉ fl) (hn : fl.Nodup) :
    IsSeg (add_to_free_list s b).hdr none (add_to_free_list s b).free_list_head
      (b :: fl) none := by
  refine ⟨add_head s b, ?_, ?_⟩
  · rw [add_prev]
    cases fl with
    | nil =>
      have : s.free_list_head = none := hc
      simp [this]
    | cons h t =>
      have hh : s.free_list_head = some h := hc.1
      have hbh : h ≠ b := fun e => hb (e ▸ List.mem_cons_self _ _)
      simp [hh, hbh]
  · rw [add_next]
    simp only [if_true]
    cases fl with
    | nil => exact hc
    | cons h t =>
      obtain ⟨hh, hp, ht⟩ := hc
      have hbh : h ≠ b := fun e => hb (e ▸ List.mem_cons_self _ _)
      have hnd := List.nodup_cons.1 hn
      refine ⟨hh, ?_, ?_⟩
      · rw [add_prev]; simp [hh]
      · rw [add_next]
        simp only [hbh, if_false]
        refine (seg_congr ?_).2 ht
        intro o ho
        have hob : o ≠ b := fun e => hb (e ▸ List.mem_cons_of_mem _ ho)
        have hoh : o ≠ h := fun e => hnd.1 (e ▸ ho)
        rw [add_next, add_prev]
        simp [hob, hh, Ne.symm hoh]

/-! ### Membership of list neighbours -/

theorem seg_next_mem {hdr : Nat → block_header_t} {l : List Nat} {p c : Option Nat}
    {b o : Nat} (h : IsSeg hdr p c l none) (hb : b ∈ l) (hx : (hdr b).next = some o) :
    o ∈ l := by
  induction l generalizing p c with
  | nil => cases hb
  | cons a l ih =>
    obtain ⟨-, -, h3⟩ := h
    rcases List.mem_cons.1 hb with rfl | hb
    · cases l with
      | nil =>
        have : (hdr b).next = none := h3
        rw [this] at hx; cases hx
      | cons n l =>
        have : (hdr b).next = some n := h3.1
        rw [this] at hx; cases hx
        simp
    · exact List.mem_cons_of_mem _ (ih h3 hb)

theorem seg_prev_mem {hdr : Nat → block_header_t} {l : List Nat} {p c : Option Nat}
    {b o : Nat} (h : IsSeg hdr p c l none) (hb : b ∈ l) (hx : (hdr b).prev = some o) :
    o ∈ l ∨ p = some o := by
  induction l generalizing p c with
  | nil => cases hb
  | cons a l ih =>
    obtain ⟨-, h2, h3⟩ := h
    rcases List.mem_cons.1 hb with rfl | hb
    · right; rw [← h2, hx]
    · rcases ih h3 hb with h | h
      · exact Or.inl (List.mem_cons_of_mem _ h)
      · cases h; exact Or.inl (List.mem_cons_self _ _)

theorem seg_head_mem {hdr : Nat → block_header_t} {l : List Nat} {p c : Option Nat}
    {o : Nat} (h : IsSeg hdr p c l none) (hc : c = some o) : o ∈ l := by
  cases l with
  | nil =>
    have : c = none := h
    rw [this] at hc; cases hc
  | cons a l =>
    have : c = some a := h.1
    rw [this] at hc; cases hc
    exact List.mem_cons_self _ _

/-- Removing a registered block leaves every unregistered header untouched. -/
theorem remove_hdr_not_mem {s : State} {fl : List Nat} {b o : Nat}
    (hc : IsSeg s.hdr none s.free_list_head fl none) (hb : b ∈ fl) (ho : o ∉ fl) :
    (remove_from_free_list s b).hdr o = s.hdr o := by
  apply remove_hdr_other
  · rintro rfl; exact ho hb
  · intro h
    rcases seg_prev_mem hc hb h with h | h
    · exact ho h
    · cases h
  · intro h
    exact ho (seg_next_mem hc hb h)

theorem erase_split {l1 l2 : List Nat} {b : Nat} (hn : (l1 ++ b :: l2).Nodup) :
    (l1 ++ b :: l2).erase b = l1 ++ l2 := by
  have hnd := List.nodup_append.1 hn
  have hb1 : b ∉ l1 := fun h => hnd.2.2 h (List.mem_cons_self _ _)
  rw [List.erase_append_right _ hb1]
  simp

theorem remove_seg_erase {s : State} {fl : List Nat} {b : Nat}
    (hc : IsSeg s.hdr none s.free_list_head fl none) (hn : fl.Nodup) (hb : b ∈ fl) :
    IsSeg (remove_from_free_list s b).hdr none (remove_from_free_list s b).free_list_head
      (fl.erase b) none := by
  obtain ⟨l1, l2, rfl⟩ := List.append_of_mem hb
  rw [erase_split hn]
  exact remove_seg s b l1 l2 hc hn

theorem remove_links_self (s : State) (b : Nat) :
    ((remove_from_free_list s b).hdr b).next = none ∧
    ((remove_from_free_list s b).hdr b).prev = none := by
  rw [remove_next, remove_prev]; simp

/-! ### `split_block` and the tail of `my_malloc` -/

theorem core_size_le {s : State} {w fl : List Nat} (hC : Core s w fl) {o : Nat}
    (ho : o ∈ w) : o + HEADER_SIZE + (s.hdr o).size ≤ HEAP_SIZE :=
  (walk_mem hC.walk ho).2

theorem core_mem_walk {s : State} {w fl : List Nat} (hC : Core s w fl) {o : Nat}
    (ho : o ∈ fl) : o ∈ w := ((hC.mem_fl o).1 ho).1

theorem core_mem_free {s : State} {w fl : List Nat} (hC : Core s w fl) {o : Nat}
    (ho : o ∈ fl) : (s.hdr o).is_free = true := ((hC.mem_fl o).1 ho).2

theorem split_threshold {r sz : Nat} (hr : r ≤ sz) (hsz : sz ≤ HEAP_SIZE) :
    size_add (size_add r HEADER_SIZE) MIN_BLOCK_SIZE = r + HEADER_SIZE + MIN_BLOCK_SIZE := by
  unfold size_add
  simp only [HEAP_SIZE, HEADER_SIZE, MIN_BLOCK_SIZE, SIZE_MOD_eq] at *
  omega

theorem split_remainder {r sz : Nat} (hr : r + HEADER_SIZE ≤ sz) (hsz : sz ≤ HEAP_SIZE) :
    size_sub (size_sub sz r) HEADER_SIZE = sz - r - HEADER_SIZE := by
  unfold size_sub
  simp only [HEAP_SIZE, HEADER_SIZE, MIN_BLOCK_SIZE, SIZE_MOD_eq] at *
  omega

theorem take_nosplit {s : State} {w fl : List Nat} {b r : Nat} (hC : Core s w fl)
    (hb : b ∈ fl) (hr : r ≤ (s.hdr b).size)
    (hns : (s.hdr b).size ≤ r + HEADER_SIZE + MIN_BLOCK_SIZE) :
    Core (my_malloc_take s b r).1 w (fl.erase b) ∧
    (∀ o, ((my_malloc_take s b r).1.hdr o).size = (s.hdr o).size) ∧
    (∀ o, ((my_malloc_take s b r).1.hdr o).is_free =
      if o = b then false else (s.hdr o).is_free) ∧
    ((my_malloc_take s b r).1.hdr b).next = none ∧
    ((my_malloc_take s b r).1.hdr b).prev = none ∧
    (∀ o, o ∉ fl → (my_malloc_take s b r).1.hdr o = s.hdr o) ∧
    (my_malloc_take s b r).1.total_allocated = size_add s.total_allocated (s.hdr b).size ∧
    (my_malloc_take s b r).1.total_free = size_sub s.total_free (s.hdr b).size ∧
    (my_malloc_take s b r).1.data = s.data ∧
    (my_malloc_take s b r).1.allocator_initialized = s.allocator_initialized := by
  have hbw := core_mem_walk hC hb
  have hszle := core_size_le hC hbw
  have hthr := split_threshold hr (by omega : (s.hdr b).size ≤ HEAP_SIZE)
  have hsp : split_block (remove_from_free_list s b) b r = (remove_from_free_list s b, none) := by
    unfold split_block
    rw [remove_size, hthr, if_pos hns]
  have hhdr : ∀ o, (my_malloc_take s b r).1.hdr o =
      if o = b then { (remove_from_free_list s b).hdr b with is_free := false }
      else (remove_from_free_list s b).hdr o := by
    intro o
    simp only [my_malloc_take, hsp, setHdr_hdr]
  have hhead : (my_malloc_take s b r).1.free_list_head =
      (remove_from_free_list s b).free_list_head := by
    simp only [my_malloc_take, hsp, setHdr_head]
  have hsize : ∀ o, ((my_malloc_take s b r).1.hdr o).size = (s.hdr o).size := by
    intro o
    rw [hhdr]
    split
    · subst o; exact remove_size s b b
    · exact remove_size s b o
  have hfree : ∀ o, ((my_malloc_take s b r).1.hdr o).is_free =
      if o = b then false else (s.hdr o).is_free := by
    intro o
    rw [hhdr]
    split
    · rfl
    · exact remove_is_free s b o
  refine ⟨⟨?_, ?_, hC.nodup.erase b, ?_⟩, hsize, hfree, ?_, ?_, ?_, ?_, ?_, ?_, ?_⟩
  · exact (walk_congr (fun o _ => hsize o)).2 hC.walk
  · rw [hhead]
    refine (seg_congr ?_).2 (remove_seg_erase hC.chain hC.nodup hb)
    intro o _
    rw [hhdr]
    split
    · subst o; exact ⟨rfl, rfl⟩
    · exact ⟨rfl, rfl⟩
  · intro o
    rw [hC.nodup.mem_erase_iff, hC.mem_fl, hfree]
    by_cases hob : o = b
    · simp [hob]
    · simp [hob]
  · rw [hhdr]; simp [(remove_links_self s b).1]
  · rw [hhdr]; simp [(remove_links_self s b).2]
  · intro o ho
    have hob : o ≠ b := fun e => ho (e ▸ hb)
    rw [hhdr, if_neg hob]
    exact remove_hdr_not_mem hC.chain hb ho
  · simp only [my_malloc_take, hsp, setHdr_hdr, setHdr_talloc, if_true, remove_size,
      (remove_other s b).2.2.1]
  · simp only [my_malloc_take, hsp, setHdr_hdr, setHdr_tfree, if_true, remove_size,
      (remove_other s b).2.2.2]
  · simp only [my_malloc_take, hsp, setHdr_data, (remove_other s b).1]
  · simp only [my_malloc_take, hsp, setHdr_init, (remove_other s b).2.1]

theorem walk_gap {hdr : Nat → block_header_t} {l : List Nat} {pos e b x : Nat}
    (h : IsWalk hdr pos l e) (hb : b ∈ l) (h1 : b < x)
    (h2 : x < b + HEADER_SIZE + (hdr b).size) : x ∉ l := by
  intro hx
  have := walk_disjoint h hb hx h1
  omega

theorem add_hdr_other (s : State) (b o : Nat) (hob : o ≠ b)
    (hh : s.free_list_head ≠ some o) : (add_to_free_list s b).hdr o = s.hdr o := by
  apply block_header_t.ext
  · exact add_size s b o
  · exact add_is_free s b o
  · rw [add_next]; simp [hob]
  · rw [add_prev]; simp [hob, hh]

theorem take_split {s : State} {w1 w2 fl : List Nat} {b r : Nat}
    (hC : Core s (w1 ++ b :: w2) fl)
    (hb : b ∈ fl) (hsp : r + HEADER_SIZE + MIN_BLOCK_SIZE < (s.hdr b).size) :
    Core (my_malloc_take s b r).1 (w1 ++ b :: (b + HEADER_SIZE + r) :: w2)
      ((b + HEADER_SIZE + r) :: fl.erase b) ∧
    (∀ o, ((my_malloc_take s b r).1.hdr o).size =
      if o = b then r
      else if o = b + HEADER_SIZE + r then (s.hdr b).size - r - HEADER_SIZE
      else (s.hdr o).size) ∧
    (∀ o, ((my_malloc_take s b r).1.hdr o).is_free =
      if o = b then false
      else if o = b + HEADER_SIZE + r then true else (s.hdr o).is_free) ∧
    ((my_malloc_take s b r).1.hdr b).next = none ∧
    ((my_malloc_take s b r).1.hdr b).prev = none ∧
    (∀ o, o ∉ fl → o ≠ b + HEADER_SIZE + r → (my_malloc_take s b r).1.hdr o = s.hdr o) ∧
    (my_malloc_take s b r).1.total_allocated = size_add s.total_allocated r ∧
    (my_malloc_take s b r).1.total_free = size_sub s.total_free r ∧
    (my_malloc_take s b r).1.data = s.data ∧
    (my_malloc_take s b r).1.allocator_initialized = s.allocator_initialized ∧
    (b + HEADER_SIZE + r) ∉ w1 ++ b :: w2 := by
  have hbw : b ∈ w1 ++ b :: w2 := by simp
  have hszle := core_size_le hC hbw
  have hthr := split_threshold (by omega : r ≤ (s.hdr b).size)
    (by omega : (s.hdr b).size ≤ HEAP_SIZE)
  have hrem := split_remainder (by omega : r + HEADER_SIZE ≤ (s.hdr b).size)
    (by omega : (s.hdr b).size ≤ HEAP_SIZE)
  have hnbb : b + HEADER_SIZE + r ≠ b := by simp only [HEADER_SIZE]; omega
  have hnbw : (b + HEADER_SIZE + r) ∉ w1 ++ b :: w2 :=
    walk_gap hC.walk hbw (by simp only [HEADER_SIZE]; omega)
      (by simp only [HEADER_SIZE, MIN_BLOCK_SIZE] at *; omega)
  have hnbfl : (b + HEADER_SIZE + r) ∉ fl := fun h => hnbw (core_mem_walk hC h)
  -- intermediate states
  obtain ⟨s1, hs1⟩ : ∃ s1, s1 = remove_from_free_list s b := ⟨_, rfl⟩
  obtain ⟨s1b, hs1b⟩ : ∃ s1b, s1b = (s1.setHdr (b + HEADER_SIZE + r)
      { size := (s.hdr b).size - r - HEADER_SIZE, is_free := true,
        next := none, prev := none }).setHdr b { s1.hdr b with size := r } := ⟨_, rfl⟩
  have hsp2 : split_block s1 b r = (add_to_free_list s1b (b + HEADER_SIZE + r),
      some (b + HEADER_SIZE + r)) := by
    unfold split_block
    rw [hs1, remove_size, hthr, if_neg (by omega), hrem, hs1b, hs1]
    simp only [setHdr_hdr, if_neg (Ne.symm hnbb)]
  have hhdr : ∀ o, (my_malloc_take s b r).1.hdr o =
      if o = b then { (add_to_free_list s1b (b + HEADER_SIZE + r)).hdr b with is_free := false }
      else (add_to_free_list s1b (b + HEADER_SIZE + r)).hdr o := by
    intro o
    simp only [my_malloc_take, ← hs1, hsp2, setHdr_hdr]
  have hhead : (my_malloc_take s b r).1.free_list_head =
      (add_to_free_list s1b (b + HEADER_SIZE + r)).free_list_head := by
    simp only [my_malloc_take, ← hs1, hsp2, setHdr_head]
  have h1b : ∀ o, s1b.hdr o =
      if o = b then { s1.hdr b with size := r }
      else if o = b + HEADER_SIZE + r then
        { size := (s.hdr b).size - r - HEADER_SIZE, is_free := true, next := none, prev := none }
      else s1.hdr o := by
    intro o
    rw [hs1b]
    simp only [setHdr_hdr]
  have h1bhead : s1b.free_list_head = s1.free_list_head := by
    rw [hs1b]; rfl
  have hsize : ∀ o, ((my_malloc_take s b r).1.hdr o).size =
      if o = b then r
      else if o = b + HEADER_SIZE + r then (s.hdr b).size - r - HEADER_SIZE
      else (s.hdr o).size := by
    intro o
    rw [hhdr]
    by_cases hob : o = b
    · subst hob
      simp only [if_true, add_size, h1b]
    · by_cases hon : o = b + HEADER_SIZE + r
      · simp only [hob, hon, if_false, add_size, h1b, hnbb, if_true]
      · simp only [hob, hon, if_false, add_size, h1b, hs1, remove_size]
  have hfree : ∀ o, ((my_malloc_take s b r).1.hdr o).is_free =
      if o = b then false
      else if o = b + HEADER_SIZE + r then true else (s.hdr o).is_free := by
    intro o
    rw [hhdr]
    by_cases hob : o = b
    · subst hob
      simp only [if_true]
    · by_cases hon : o = b + HEADER_SIZE + r
      · simp only [hob, hon, if_false, add_is_free, h1b, hnbb, if_true]
      · simp only [hob, hon, if_false, add_is_free, h1b, hs1, remove_is_free]
  have hseg1 : IsSeg s1.hdr none s1.free_list_head (fl.erase b) none := by
    rw [hs1]; exact remove_seg_erase hC.chain hC.nodup hb
  have hb_erase : b ∉ fl.erase b := fun h => (hC.nodup.mem_erase_iff.1 h).1 rfl
  have hnb_erase : (b + HEADER_SIZE + r) ∉ fl.erase b := fun h => hnbfl (List.mem_of_mem_erase h)
  have hseg1b : IsSeg s1b.hdr none s1b.free_list_head (fl.erase b) none := by
    rw [h1bhead]
    refine (seg_congr ?_).2 hseg1
    intro o ho
    have hob : o ≠ b := fun e => hb_erase (e ▸ ho)
    have hon : o ≠ b + HEADER_SIZE + r := fun e => hnb_erase (e ▸ ho)
    rw [h1b, if_neg hob, if_neg hon]
    exact ⟨rfl, rfl⟩
  have hseg2 := add_seg s1b (b + HEADER_SIZE + r) (fl.erase b) hseg1b hnb_erase
    (hC.nodup.erase b)
  have hhead1 : s1b.free_list_head ≠ some b := by
    intro h
    exact hb_erase (seg_head_mem hseg1b h)
  have hszb : ((my_malloc_take s b r).1.hdr b).size = r := by rw [hsize]; simp
  have hother : (add_to_free_list s1b (b + HEADER_SIZE + r)).data = s.data ∧
      (add_to_free_list s1b (b + HEADER_SIZE + r)).allocator_initialized
        = s.allocator_initialized ∧
      (add_to_free_list s1b (b + HEADER_SIZE + r)).total_allocated = s.total_allocated ∧
      (add_to_free_list s1b (b + HEADER_SIZE + r)).total_free = s.total_free := by
    have h1 := add_other s1b (b + HEADER_SIZE + r)
    have h2 := remove_other s b
    rw [← hs1] at h2
    have h3 : s1b.data = s1.data ∧ s1b.allocator_initialized = s1.allocator_initialized ∧
        s1b.total_allocated = s1.total_allocated ∧ s1b.total_free = s1.total_free := by
      rw [hs1b]; exact ⟨rfl, rfl, rfl, rfl⟩
    exact ⟨h1.1.trans (h3.1.trans h2.1), h1.2.1.trans (h3.2.1.trans h2.2.1),
      h1.2.2.1.trans (h3.2.2.1.trans h2.2.2.1), h1.2.2.2.trans (h3.2.2.2.trans h2.2.2.2)⟩
  refine ⟨⟨?_, ?_, ?_, ?_⟩, hsize, hfree, ?_, ?_, ?_, ?_, ?_, ?_, ?_, hnbw⟩
  · -- walk
    obtain ⟨m, hw1, hbm, hw2⟩ := walk_append.1 hC.walk
    subst hbm
    have hsrt := walk_sorted hC.walk
    rw [List.pairwise_append] at hsrt
    refine walk_append.2 ⟨b, ?_, rfl, ?_⟩
    · refine (walk_congr ?_).2 hw1
      intro o ho
      have hlt := hsrt.2.2 o ho b (List.mem_cons_self _ _)
      rw [hsize, if_neg (by omega), if_neg (by simp only [HEADER_SIZE]; omega)]
    · have e1 : ((my_malloc_take s b r).1.hdr b).size = r := by rw [hsize]; simp
      have e2 : ((my_malloc_take s b r).1.hdr (b + HEADER_SIZE + r)).size
          = (s.hdr b).size - r - HEADER_SIZE := by rw [hsize]; simp [hnbb]
      show IsWalk _ (b + HEADER_SIZE + ((my_malloc_take s b r).1.hdr b).size)
        ((b + HEADER_SIZE + r) :: w2) HEAP_SIZE
      rw [e1]
      refine ⟨rfl, ?_⟩
      rw [e2]
      have e3 : b + HEADER_SIZE + r + HEADER_SIZE + ((s.hdr b).size - r - HEADER_SIZE)
          = b + HEADER_SIZE + (s.hdr b).size := by
        simp only [HEADER_SIZE, MIN_BLOCK_SIZE] at *; omega
      rw [e3]
      refine (walk_congr ?_).2 hw2
      intro o ho
      have hge := (walk_mem hw2 ho).1
      rw [hsize, if_neg (by simp only [HEADER_SIZE] at *; omega),
        if_neg (by simp only [HEADER_SIZE, MIN_BLOCK_SIZE] at *; omega)]
  · -- chain
    rw [hhead]
    refine (seg_congr ?_).2 hseg2
    intro o _
    rw [hhdr]
    split
    · subst o; exact ⟨rfl, rfl⟩
    · exact ⟨rfl, rfl⟩
  · exact List.nodup_cons.2 ⟨hnb_erase, hC.nodup.erase b⟩
  · intro o
    rw [List.mem_cons, hC.nodup.mem_erase_iff, hC.mem_fl, hfree]
    by_cases hob : o = b
    · subst hob
      simp [hnbb, Ne.symm hnbb]
    · by_cases hon : o = b + HEADER_SIZE + r
      · subst hon
        simp [hob]
      · simp [hob, hon]
  · rw [hhdr, if_pos rfl]
    show ((add_to_free_list s1b (b + HEADER_SIZE + r)).hdr b).next = none
    rw [add_next, if_neg (Ne.symm hnbb), h1b, if_pos rfl]
    show (s1.hdr b).next = none
    rw [hs1]; exact (remove_links_self s b).1
  · rw [hhdr, if_pos rfl]
    show ((add_to_free_list s1b (b + HEADER_SIZE + r)).hdr b).prev = none
    rw [add_prev, if_neg hhead1, if_neg (Ne.symm hnbb), h1b, if_pos rfl]
    show (s1.hdr b).prev = none
    rw [hs1]; exact (remove_links_self s b).2
  · intro o ho hon
    have hob : o ≠ b := fun e => ho (e ▸ hb)
    rw [hhdr, if_neg hob, add_hdr_other s1b _ o hon, h1b, if_neg hob, if_neg hon, hs1]
    · exact remove_hdr_not_mem hC.chain hb ho
    · intro h
      exact ho (List.mem_of_mem_erase (seg_head_mem hseg1b h))
  · have e : (my_malloc_take s b r).1.total_allocated =
        size_add (split_block s1 b r).1.total_allocated
          ((my_malloc_take s b r).1.hdr b).size := by rw [hs1]; rfl
    rw [e, hsp2, hszb, hother.2.2.1]
  · have e : (my_malloc_take s b r).1.total_free =
        size_sub (split_block s1 b r).1.total_free
          ((my_malloc_take s b r).1.hdr b).size := by rw [hs1]; rfl
    rw [e, hsp2, hszb, hother.2.2.2]
  · have e : (my_malloc_take s b r).1.data = (split_block s1 b r).1.data := by rw [hs1]; rfl
    rw [e, hsp2, hother.1]
  · have e : (my_malloc_take s b r).1.allocator_initialized =
        (split_block s1 b r).1.allocator_initialized := by rw [hs1]; rfl
    rw [e, hsp2, hother.2.1]

/-! ### `find_free_block` and `get_fragmentation_count` -/

theorem find_loop_spec {hdr : Nat → block_header_t} {l : List Nat} {p c : Option Nat}
    (r : Nat) (h : IsSeg hdr p c l none) (fuel : Nat) (hf : l.length < fuel) :
    find_free_block_loop hdr r fuel c =
      some (l.find? (fun o => (hdr o).is_free && decide (r ≤ (hdr o).size))) := by
  induction l generalizing p c fuel with
  | nil =>
    have hc : c = none := h
    subst hc
    cases fuel with
    | zero => simp at hf
    | succ fuel => simp [find_free_block_loop]
  | cons a l ih =>
    obtain ⟨hc, -, h2⟩ := h
    subst hc
    cases fuel with
    | zero => simp at hf
    | succ fuel =>
      simp only [find_free_block_loop, List.find?_cons]
      by_cases hfit : (hdr a).is_free = true ∧ (hdr a).size ≥ r
      · rw [if_pos hfit]
        simp [hfit.1, hfit.2]
      · rw [if_neg hfit, ih h2 fuel (by simpa using hf)]
        have : ((hdr a).is_free && decide (r ≤ (hdr a).size)) = false := by
          rcases hb : (hdr a).is_free with _ | _
          · simp
          · simp only [hb, true_and, ge_iff_le] at hfit
            simp [hfit]
        rw [this]

theorem find_spec {s : State} {fl : List Nat}
    (r : Nat) (h : IsSeg s.hdr none s.free_list_head fl none) (fuel : Nat)
    (hf : fl.length < fuel) :
    find_free_block fuel s r =
      some (fl.find? (fun o => (s.hdr o).is_free && decide (r ≤ (s.hdr o).size))) := by
  unfold find_free_block
  cases hh : s.free_list_head with
  | none =>
    rw [hh] at h
    cases fl with
    | nil => simp
    | cons a l => cases h.1
  | some head =>
    simp only []
    rw [← hh]
    exact find_loop_spec r h fuel hf

theorem frag_loop_spec {hdr : Nat → block_header_t} {l : List Nat} {p c : Option Nat}
    (h : IsSeg hdr p c l none) (fuel : Nat) (hf : l.length < fuel) (cnt : Nat) :
    fragmentation_loop hdr fuel c cnt =
      some (cnt + (l.filter (fun o => (hdr o).is_free)).length) := by
  induction l generalizing p c fuel cnt with
  | nil =>
    have hc : c = none := h
    subst hc
    cases fuel with
    | zero => simp at hf
    | succ fuel => simp [fragmentation_loop]
  | cons a l ih =>
    obtain ⟨hc, -, h2⟩ := h
    subst hc
    cases fuel with
    | zero => simp at hf
    | succ fuel =>
      simp only [fragmentation_loop]
      rw [ih h2 fuel (by simpa using hf)]
      rcases hb : (hdr a).is_free with _ | _
      · simp [hb]
      · simp [hb]; omega

/-! ### Length bounds -/

theorem core_walk_length {s : State} {w fl : List Nat} (hC : Core s w fl) :
    HEADER_SIZE * w.length ≤ HEAP_SIZE := by
  have := walk_length hC.walk
  omega

theorem core_fl_length {s : State} {w fl : List Nat} (hC : Core s w fl) :
    fl.length ≤ w.length := by
  apply List.Subperm.length_le
  apply List.subperm_of_subset hC.nodup
  intro o ho
  exact core_mem_walk hC ho

theorem core_fl_fuel {s : State} {w fl : List Nat} (hC : Core s w fl) {fuel : Nat}
    (hf : HEAP_SIZE ≤ fuel) : fl.length < fuel := by
  have h1 := core_walk_length hC
  have h2 := core_fl_length hC
  simp only [HEADER_SIZE, HEAP_SIZE] at *
  omega

theorem core_w_fuel {s : State} {w fl : List Nat} (hC : Core s w fl) {fuel : Nat}
    (hf : HEAP_SIZE ≤ fuel) : w.length + 2 ≤ fuel := by
  have h1 := core_walk_length hC
  simp only [HEADER_SIZE, HEAP_SIZE] at *
  omega

theorem core_registry {s : State} {w fl : List Nat} (hC : Core s w fl) :
    registry s = fl :=
  chain_from_eq hC.chain _ (core_fl_fuel hC le_rfl)

theorem core_arena_walk {s : State} {w fl : List Nat} (hC : Core s w fl) :
    arena_walk s = w := arena_walk_eq hC.walk

/-! ### One merge of `merge_free_blocks` -/

/-- The state after absorbing block `n` into its predecessor `c`. -/
theorem merge_step {s : State} {w1 w2 fl : List Nat} {c n : Nat}
    (hC : Core s (w1 ++ c :: n :: w2) fl)
    (hc : (s.hdr c).is_free = true) (hn : (s.hdr n).is_free = true) :
    ∃ s2, s2 = (remove_from_free_list s n).setHdr c
        { (remove_from_free_list s n).hdr c with
          size := size_add ((remove_from_free_list s n).hdr c).size
            (size_add HEADER_SIZE ((remove_from_free_list s n).hdr n).size) } ∧
      Core s2 (w1 ++ c :: w2) (fl.erase n) ∧
      (∀ o, (s2.hdr o).size =
        if o = c then (s.hdr c).size + HEADER_SIZE + (s.hdr n).size else (s.hdr o).size) ∧
      (∀ o, (s2.hdr o).is_free = (s.hdr o).is_free) ∧
      (∀ o, o ∉ fl → s2.hdr o = s.hdr o) ∧
      s2.data = s.data ∧ s2.allocator_initialized = s.allocator_initialized ∧
      s2.total_allocated = s.total_allocated ∧ s2.total_free = s.total_free ∧
      n = c + HEADER_SIZE + (s.hdr c).size := by
  refine ⟨_, rfl, ?_⟩
  have hcw : c ∈ w1 ++ c :: n :: w2 := by simp
  have hnw : n ∈ w1 ++ c :: n :: w2 := by simp
  have hcfl : c ∈ fl := (hC.mem_fl c).2 ⟨hcw, hc⟩
  have hnfl : n ∈ fl := (hC.mem_fl n).2 ⟨hnw, hn⟩
  obtain ⟨m, hw1, hcm, hnm, hw2⟩ := walk_append.1 hC.walk
  subst hcm
  rw [← hnm] at hw2
  have hnle := core_size_le hC hnw
  have hsum : size_add ((remove_from_free_list s n).hdr c).size
      (size_add HEADER_SIZE ((remove_from_free_list s n).hdr n).size)
      = (s.hdr c).size + HEADER_SIZE + (s.hdr n).size := by
    rw [remove_size, remove_size]
    unfold size_add
    simp only [HEADER_SIZE, HEAP_SIZE, SIZE_MOD_eq] at *
    omega
  rw [hsum]
  have hsrt := walk_sorted hC.walk
  have hnd := walk_nodup hC.walk
  have hcn : c ≠ n := by simp only [HEADER_SIZE] at hnm; omega
  have hsize : ∀ o, (((remove_from_free_list s n).setHdr c
      { (remove_from_free_list s n).hdr c with
        size := (s.hdr c).size + HEADER_SIZE + (s.hdr n).size }).hdr o).size =
      if o = c then (s.hdr c).size + HEADER_SIZE + (s.hdr n).size else (s.hdr o).size := by
    intro o
    simp only [setHdr_hdr, ite_size, remove_size]
  have hfree : ∀ o, (((remove_from_free_list s n).setHdr c
      { (remove_from_free_list s n).hdr c with
        size := (s.hdr c).size + HEADER_SIZE + (s.hdr n).size }).hdr o).is_free =
      (s.hdr o).is_free := by
    intro o
    simp only [setHdr_hdr, ite_is_free, remove_is_free]
    split
    · subst o; rfl
    · rfl
  refine ⟨⟨?_, ?_, hC.nodup.erase n, ?_⟩, hsize, hfree, ?_, ?_, ?_, ?_, ?_, hnm⟩
  · -- walk
    rw [List.pairwise_append] at hsrt
    refine walk_append.2 ⟨c, ?_, rfl, ?_⟩
    · refine (walk_congr ?_).2 hw1
      intro o ho
      have hlt := hsrt.2.2 o ho c (List.mem_cons_self _ _)
      rw [hsize, if_neg (by omega)]
    · rw [hsize, if_pos rfl]
      have e : c + HEADER_SIZE + ((s.hdr c).size + HEADER_SIZE + (s.hdr n).size)
          = n + HEADER_SIZE + (s.hdr n).size := by
        simp only [HEADER_SIZE] at *; omega
      rw [e]
      refine (walk_congr ?_).2 hw2
      intro o ho
      have hge := (walk_mem hw2 ho).1
      rw [hsize, if_neg (by simp only [HEADER_SIZE] at *; omega)]
  · -- chain
    refine (seg_congr ?_).2 (remove_seg_erase hC.chain hC.nodup hnfl)
    intro o _
    simp only [setHdr_hdr]
    split
    · subst o; exact ⟨rfl, rfl⟩
    · exact ⟨rfl, rfl⟩
  · intro o
    rw [hC.nodup.mem_erase_iff, hC.mem_fl, hfree]
    have hnd2 := List.nodup_append.1 hnd
    have hnd3 := List.nodup_cons.1 hnd2.2.1
    have hnd4 := List.nodup_cons.1 hnd3.2
    constructor
    · rintro ⟨hne, hmem, hf⟩
      refine ⟨?_, hf⟩
      simp only [List.mem_append, List.mem_cons] at hmem ⊢
      tauto
    · rintro ⟨hmem, hf⟩
      refine ⟨?_, ?_, hf⟩
      · rintro rfl
        simp only [List.mem_append, List.mem_cons] at hmem
        rcases hmem with h | h | h
        · exact hnd2.2.2 h (by simp)
        · exact hcn h.symm
        · exact hnd4.1 h
      · simp only [List.mem_append, List.mem_cons] at hmem ⊢
        tauto
  · intro o ho
    have hoc : o ≠ c := fun e => ho (e ▸ hcfl)
    simp only [setHdr_hdr, if_neg hoc]
    exact remove_hdr_not_mem hC.chain hnfl ho
  · exact (remove_other s n).1
  · exact (remove_other s n).2.1
  · exact (remove_other s n).2.2.1
  · exact (remove_other s n).2.2.2

/-! ### The loop of `merge_free_blocks` -/

theorem covers_refl (h : Nat → block_header_t) (w : List Nat) : Covers h h w w :=
  fun o ho hf => ⟨o, ho, hf, le_rfl, le_rfl⟩

theorem covers_trans {h1 h2 h3 : Nat → block_header_t} {w1 w2 w3 : List Nat}
    (a : Covers h1 h2 w1 w2) (b : Covers h2 h3 w2 w3) : Covers h1 h3 w1 w3 := by
  intro o ho hf
  obtain ⟨o2, ho2, hf2, hle2, hend2⟩ := a o ho hf
  obtain ⟨o3, ho3, hf3, hle3, hend3⟩ := b o2 ho2 hf2
  exact ⟨o3, ho3, hf3, le_trans hle3 hle2, le_trans hend2 hend3⟩

theorem merge_loop_end (fuel : Nat) (s : State) :
    merge_loop (fuel + 1) s HEAP_SIZE = some s := by
  simp [merge_loop]

theorem merge_loop_advance (fuel : Nat) (s : State) (c : Nat) (hc : c < HEAP_SIZE)
    (hno : ¬ ((s.hdr c).is_free = true ∧ c + HEADER_SIZE + (s.hdr c).size < HEAP_SIZE ∧
      (s.hdr (c + HEADER_SIZE + (s.hdr c).size)).is_free = true))
    (hsz : c + HEADER_SIZE + (s.hdr c).size ≤ HEAP_SIZE) :
    merge_loop (fuel + 1) s c = merge_loop fuel s (c + HEADER_SIZE + (s.hdr c).size) := by
  have e : size_add HEADER_SIZE (s.hdr c).size = HEADER_SIZE + (s.hdr c).size := by
    unfold size_add
    simp only [HEADER_SIZE, HEAP_SIZE, SIZE_MOD_eq] at *
    omega
  rw [merge_loop]
  simp only [hc, if_true, if_neg hno, e, ← Nat.add_assoc]

theorem merge_loop_merge (fuel : Nat) (s : State) (c : Nat) (hc : c < HEAP_SIZE)
    (hyes : (s.hdr c).is_free = true ∧ c + HEADER_SIZE + (s.hdr c).size < HEAP_SIZE ∧
      (s.hdr (c + HEADER_SIZE + (s.hdr c).size)).is_free = true) :
    merge_loop (fuel + 1) s c =
      merge_loop fuel
        ((remove_from_free_list s (c + HEADER_SIZE + (s.hdr c).size)).setHdr c
          { (remove_from_free_list s (c + HEADER_SIZE + (s.hdr c).size)).hdr c with
            size := size_add
              ((remove_from_free_list s (c + HEADER_SIZE + (s.hdr c).size)).hdr c).size
              (size_add HEADER_SIZE
                ((remove_from_free_list s (c + HEADER_SIZE + (s.hdr c).size)).hdr
                  (c + HEADER_SIZE + (s.hdr c).size)).size) }) c := by
  rw [merge_loop]
  simp only [hc, if_true, if_pos hyes]

theorem surv_aux_congr {f g : Nat → Bool} (h : ∀ o, f o = g o) (pf : Bool) (l : List Nat) :
    surv_aux f pf l = surv_aux g pf l := by
  have : f = g := funext h
  rw [this]

theorem mergeRel_refl (s : State) (w fl : List Nat) : MergeRel s s w w fl fl :=
  { sub := List.Sublist.refl _
    subset := fun _ h => h
    free_eq := fun _ => rfl
    size_le := fun _ => le_rfl
    untouched := fun _ _ => rfl
    data_eq := rfl
    init_eq := rfl
    talloc_eq := rfl
    tfree_eq := rfl
    covers := covers_refl _ _
    aligned := fun _ _ => rfl }

theorem mergeRel_trans {s1 s2 s3 : State} {w1 w2 w3 fl1 fl2 fl3 : List Nat}
    (a : MergeRel s1 s2 w1 w2 fl1 fl2) (b : MergeRel s2 s3 w2 w3 fl2 fl3) :
    MergeRel s1 s3 w1 w3 fl1 fl3 :=
  { sub := b.sub.trans a.sub
    subset := fun o h => a.subset o (b.subset o h)
    free_eq := fun o => (b.free_eq o).trans (a.free_eq o)
    size_le := fun o => le_trans (a.size_le o) (b.size_le o)
    untouched := fun o h => by
      rw [b.untouched o (fun h2 => h (a.sub.subset h2)), a.untouched o h]
    data_eq := b.data_eq.trans a.data_eq
    init_eq := b.init_eq.trans a.init_eq
    talloc_eq := b.talloc_eq.trans a.talloc_eq
    tfree_eq := b.tfree_eq.trans a.tfree_eq
    covers := covers_trans a.covers b.covers
    aligned := fun h o => by
      rw [b.aligned (fun x hx => by rw [a.aligned h x]; exact h x (a.subset x hx)) o,
        a.aligned h o] }

theorem merge_step_rel {s : State} {w1 w2 fl : List Nat} {c n : Nat}
    (hC : Core s (w1 ++ c :: n :: w2) fl)
    (hc : (s.hdr c).is_free = true) (hn : (s.hdr n).is_free = true) :
    ∃ s2, s2 = (remove_from_free_list s n).setHdr c
        { (remove_from_free_list s n).hdr c with
          size := size_add ((remove_from_free_list s n).hdr c).size
            (size_add HEADER_SIZE ((remove_from_free_list s n).hdr n).size) } ∧
      Core s2 (w1 ++ c :: w2) (fl.erase n) ∧
      MergeRel s s2 (w1 ++ c :: n :: w2) (w1 ++ c :: w2) fl (fl.erase n) := by
  obtain ⟨s2, hs2, hC2, hsz2, hfr2, hun2, hd2, hi2, hta2, htf2, hnm⟩ := merge_step hC hc hn
  refine ⟨s2, hs2, hC2, ?_⟩
  have hsz : ∀ o, (s.hdr o).size ≤ (s2.hdr o).size := by
    intro o
    rw [hsz2]
    by_cases hoc : o = c
    · subst hoc; rw [if_pos rfl]; omega
    · rw [if_neg hoc]
  refine
    { sub := List.erase_sublist _ _
      subset := ?_
      free_eq := hfr2
      size_le := hsz
      untouched := hun2
      data_eq := hd2
      init_eq := hi2
      talloc_eq := hta2
      tfree_eq := htf2
      covers := ?_
      aligned := ?_ }
  · intro o ho
    simp only [List.mem_append, List.mem_cons] at ho ⊢
    tauto
  · intro o ho hfo
    by_cases hon : o = n
    · subst hon
      refine ⟨c, by simp, by rw [hfr2]; exact hc, ?_, ?_⟩
      · simp only [HEADER_SIZE] at *; omega
      · rw [hsz2, if_pos rfl]
        simp only [HEADER_SIZE] at *; omega
    · refine ⟨o, ?_, by rw [hfr2]; exact hfo, le_rfl, ?_⟩
      · simp only [List.mem_append, List.mem_cons] at ho ⊢
        tauto
      · have := hsz o
        omega
  · intro hal o
    rw [hsz2]
    by_cases hoc : o = c
    · subst hoc
      rw [if_pos rfl]
      have h1 := hal n (by simp)
      simp only [HEADER_SIZE, ALIGNMENT] at *
      omega
    · rw [if_neg hoc]

theorem merge_loop_spec (w2 : List Nat) :
    ∀ (s : State) (w1 : List Nat) (c : Nat) (fl : List Nat) (fuel : Nat),
      Core s (w1 ++ c :: w2) fl → w2.length + 2 ≤ fuel →
      ∃ s2 fl2, merge_loop fuel s c = some s2 ∧
        Core s2 (w1 ++ c :: surv_aux (fun o => (s.hdr o).is_free) (s.hdr c).is_free w2) fl2 ∧
        MergeRel s s2 (w1 ++ c :: w2)
          (w1 ++ c :: surv_aux (fun o => (s.hdr o).is_free) (s.hdr c).is_free w2) fl fl2 ∧
        (NoAdjFree s.hdr (c :: w2) → s2 = s) := by
  induction w2 with
  | nil =>
    intro s w1 c fl fuel hC hf
    obtain ⟨m, -, hcm, hend⟩ := walk_append.1 hC.walk
    subst hcm
    have hend2 : c + HEADER_SIZE + (s.hdr c).size = HEAP_SIZE := hend
    obtain ⟨f, rfl⟩ : ∃ f, fuel = f + 2 := ⟨fuel - 2, by simp at hf; omega⟩
    refine ⟨s, fl, ?_, hC, mergeRel_refl _ _ _, fun _ => rfl⟩
    rw [merge_loop_advance (f + 1) s c (by simp only [HEADER_SIZE] at *; omega)
      (by rw [hend2]; simp) (le_of_eq hend2), hend2, merge_loop_end]
  | cons n w2 ih =>
    intro s w1 c fl fuel hC hf
    obtain ⟨m, hw1, hcm, hnm, hw2⟩ := walk_append.1 hC.walk
    subst hcm
    have hnw : n ∈ w1 ++ c :: n :: w2 := by simp
    have hnle := core_size_le hC hnw
    have hclt : c < HEAP_SIZE := by simp only [HEADER_SIZE] at *; omega
    have hnlt : n < HEAP_SIZE := by simp only [HEADER_SIZE] at *; omega
    obtain ⟨f, rfl⟩ : ∃ f, fuel = f + 1 := ⟨fuel - 1, by simp at hf; omega⟩
    have hf2 : w2.length + 2 ≤ f := by simp at hf; omega
    by_cases hm : (s.hdr c).is_free = true ∧ (s.hdr n).is_free = true
    · -- the two blocks are merged
      obtain ⟨s2, hs2, hC2, hrel2⟩ := merge_step_rel hC hm.1 hm.2
      have hstep : merge_loop (f + 1) s c = merge_loop f s2 c := by
        rw [merge_loop_merge f s c hclt (by rw [← hnm]; exact ⟨hm.1, hnlt, hm.2⟩), ← hnm, hs2]
      obtain ⟨s3, fl3, hrun, hC3, hrel3, -⟩ := ih s2 w1 c (fl.erase n) f hC2 hf2
      have hsurv : surv_aux (fun o => (s.hdr o).is_free) (s.hdr c).is_free (n :: w2)
          = surv_aux (fun o => (s2.hdr o).is_free) (s2.hdr c).is_free w2 := by
        rw [surv_aux_congr (fun o => hrel2.free_eq o), hrel2.free_eq c]
        simp [surv_aux, hm.1, hm.2]
      rw [hsurv]
      refine ⟨s3, fl3, hstep.trans hrun, hC3, mergeRel_trans hrel2 hrel3, ?_⟩
      intro hna
      exact absurd hm (hna c (by simp) n (by simp) hnm)
    · -- no merge: advance to the next block
      have hstep : merge_loop (f + 1) s c = merge_loop f s n := by
        rw [merge_loop_advance f s c hclt (by rw [← hnm]; tauto)
          (by rw [← hnm]; exact le_of_lt hnlt), ← hnm]
      have hC' : Core s ((w1 ++ [c]) ++ n :: w2) fl := by
        rw [List.append_assoc]; exact hC
      obtain ⟨s3, fl3, hrun, hC3, hrel3, hid3⟩ := ih s (w1 ++ [c]) n fl f hC' hf2
      have hsurv : surv_aux (fun o => (s.hdr o).is_free) (s.hdr c).is_free (n :: w2)
          = n :: surv_aux (fun o => (s.hdr o).is_free) (s.hdr n).is_free w2 := by
        have : ((s.hdr c).is_free && (s.hdr n).is_free) = false := by
          rcases h1 : (s.hdr c).is_free with _ | _ <;> rcases h2 : (s.hdr n).is_free with _ | _
            <;> simp_all
        simp [surv_aux, this]
      rw [hsurv]
      simp only [List.append_assoc, List.singleton_append] at hC3 hrel3
      refine ⟨s3, fl3, hstep.trans hrun, hC3, hrel3, ?_⟩
      intro hna
      apply hid3
      intro a ha b hb hab
      exact hna a (List.mem_cons_of_mem _ ha) b (List.mem_cons_of_mem _ hb) hab

/-! ### Survivors of coalescing -/

theorem surv_chain (f : Nat → Bool) (l : List Nat) (c : Nat) :
    (c :: surv_aux f (f c) l).Chain' (fun a b => ¬ (f a = true ∧ f b = true)) := by
  induction l generalizing c with
  | nil => simp [surv_aux]
  | cons a l ih =>
    by_cases h : f c = true ∧ f a = true
    · have e : surv_aux f (f c) (a :: l) = surv_aux f (f c) l := by
        simp [surv_aux, h.1, h.2]
      rw [e]; exact ih c
    · have e : surv_aux f (f c) (a :: l) = a :: surv_aux f (f a) l := by
        have : (f c && f a) = false := by
          rcases h1 : f c with _ | _ <;> rcases h2 : f a with _ | _ <;> simp_all
        simp [surv_aux, this]
      rw [e]
      exact List.chain'_cons.2 ⟨h, ih a⟩

theorem surv_sublist (f : Nat → Bool) (pf : Bool) (l : List Nat) :
    (surv_aux f pf l).Sublist l := by
  induction l generalizing pf with
  | nil => simp [surv_aux]
  | cons a l ih =>
    simp only [surv_aux]
    split
    · exact (ih true).trans (List.sublist_cons_self _ _)
    · exact (ih (f a)).cons₂ a

/-- A block whose predecessor in the walk is not free survives. -/
theorem surv_mem_of_pred (f : Nat → Bool) (l1 : List Nat) (x b : Nat) (l2 : List Nat)
    (pf : Bool) (hx : f x = false) : b ∈ surv_aux f pf (l1 ++ x :: b :: l2) := by
  induction l1 generalizing pf with
  | nil =>
    simp [surv_aux, hx]
  | cons a l1 ih =>
    simp only [List.cons_append, surv_aux]
    split
    · exact ih true
    · exact List.mem_cons_of_mem _ (ih (f a))

/-- A block that is not free survives. -/
theorem surv_mem_of_not_free (f : Nat → Bool) (l : List Nat) (b : Nat)
    (pf : Bool) (hb : b ∈ l) (hx : f b = false) : b ∈ surv_aux f pf l := by
  induction l generalizing pf with
  | nil => cases hb
  | cons a l ih =>
    simp only [surv_aux]
    rcases List.mem_cons.1 hb with rfl | hb
    · simp [hx]
    · split
      · exact ih true hb
      · exact List.mem_cons_of_mem _ (ih (f a) hb)

theorem surv_id (f : Nat → Bool) (l : List Nat) (c : Nat)
    (h : (c :: l).Chain' (fun a b => ¬ (f a = true ∧ f b = true))) :
    surv_aux f (f c) l = l := by
  induction l generalizing c with
  | nil => rfl
  | cons a l ih =>
    obtain ⟨h1, h2⟩ := List.chain'_cons.1 h
    have : (f c && f a) = false := by
      rcases h3 : f c with _ | _ <;> rcases h4 : f a with _ | _ <;> simp_all
    simp only [surv_aux, this]
    rw [ih a h2]
    simp

theorem chain_noadj {hdr : Nat → block_header_t} {l : List Nat} {pos e : Nat}
    (hw : IsWalk hdr pos l e)
    (hc : l.Chain' (fun a b => ¬ ((hdr a).is_free = true ∧ (hdr b).is_free = true))) :
    NoAdjFree hdr l := by
  induction l generalizing pos with
  | nil => intro a ha; cases ha
  | cons x l ih =>
    obtain ⟨hx, hw2⟩ := hw
    subst hx
    intro a ha b hb hab
    have hsrt := ih hw2 (List.Chain'.tail hc)
    rcases List.mem_cons.1 ha with hax | hal
    · subst hax
      rcases List.mem_cons.1 hb with hbx | hbl
      · simp only [HEADER_SIZE] at *; omega
      · cases l with
        | nil => cases hbl
        | cons y l =>
          have hy : y = a + HEADER_SIZE + (hdr a).size := hw2.1
          have := (List.chain'_cons.1 hc).1
          rw [hab, ← hy]
          exact this
    · rcases List.mem_cons.1 hb with hbx | hbl
      · subst hbx
        have := walk_head_lt hw2 hal
        simp only [HEADER_SIZE] at *; omega
      · exact hsrt a hal b hbl hab

theorem noadj_chain {hdr : Nat → block_header_t} {l : List Nat} {pos e : Nat}
    (hw : IsWalk hdr pos l e) (hn : NoAdjFree hdr l) :
    l.Chain' (fun a b => ¬ ((hdr a).is_free = true ∧ (hdr b).is_free = true)) := by
  induction l generalizing pos with
  | nil => exact List.chain'_nil
  | cons x l ih =>
    obtain ⟨hx, hw2⟩ := hw
    subst hx
    have htail : NoAdjFree hdr l := fun a ha b hb hab =>
      hn a (List.mem_cons_of_mem _ ha) b (List.mem_cons_of_mem _ hb) hab
    cases l with
    | nil => exact List.chain'_singleton _
    | cons y l =>
      refine List.chain'_cons.2 ⟨?_, ih hw2 htail⟩
      exact hn x (by simp) y (by simp) hw2.1

theorem core_walk_ne_nil {s : State} {w fl : List Nat} (hC : Core s w fl) :
    ∃ w2, w = 0 :: w2 := by
  cases w with
  | nil =>
    have : 0 = HEAP_SIZE := hC.walk
    simp [HEAP_SIZE] at this
  | cons a w2 =>
    have : a = 0 := hC.walk.1
    exact ⟨w2, by rw [this]⟩

/-- Specification of `merge_free_blocks` on a well-formed state. -/
theorem merge_spec {s : State} {w fl : List Nat} (hC : Core s w fl) {fuel : Nat}
    (hf : HEAP_SIZE ≤ fuel) :
    ∃ s2 fl2, merge_free_blocks fuel s = some s2 ∧
      Core s2 (surv_aux (fun o => (s.hdr o).is_free) false w) fl2 ∧
      MergeRel s s2 w (surv_aux (fun o => (s.hdr o).is_free) false w) fl fl2 ∧
      NoAdjFree s2.hdr (surv_aux (fun o => (s.hdr o).is_free) false w) ∧
      (NoAdjFree s.hdr w → s2 = s) := by
  obtain ⟨w2, rfl⟩ := core_walk_ne_nil hC
  have hfuel := core_w_fuel hC hf
  have hC0 : Core s ([] ++ 0 :: w2) fl := hC
  obtain ⟨s2, fl2, hrun, hC2, hrel, hid⟩ :=
    merge_loop_spec w2 s [] 0 fl fuel hC0 (by simp at hfuel ⊢; omega)
  have e : surv_aux (fun o => (s.hdr o).is_free) false (0 :: w2)
      = 0 :: surv_aux (fun o => (s.hdr o).is_free) (s.hdr 0).is_free w2 := by
    simp [surv_aux]
  rw [e]
  refine ⟨s2, fl2, hrun, hC2, hrel, ?_, hid⟩
  apply chain_noadj hC2.walk
  have := surv_chain (fun o => (s.hdr o).is_free) w2 0
  simp only [List.nil_append]
  refine List.Chain'.imp ?_ this
  intro a b hab
  rw [hrel.free_eq a, hrel.free_eq b]
  exact hab

/-! ### `align_size` -/

theorem land_mask (x : Nat) (hx : x < 2 ^ 64) : x &&& (2 ^ 64 - 1 - 7) = x / 8 * 8 := by
  apply Nat.eq_of_testBit_eq
  intro i
  have e1 : (2 ^ 64 - 1 - 7 : Nat) = 2 ^ 3 * (2 ^ 61 - 1) := by norm_num
  have e2 : x / 8 * 8 = 2 ^ 3 * (x / 2 ^ 3) := by norm_num [Nat.mul_comm]
  rw [Nat.testBit_and, e1, e2, Nat.testBit_mul_pow_two, Nat.testBit_mul_pow_two,
    Nat.testBit_two_pow_sub_one, ← Nat.shiftRight_eq_div_pow, Nat.testBit_shiftRight]
  by_cases h3 : 3 ≤ i
  · have e3 : 3 + (i - 3) = i := by omega
    rw [e3]
    by_cases h64 : i < 64
    · have : i - 3 < 61 := by omega
      simp [h3, this]
    · have hb : x.testBit i = false := by
        apply Nat.testBit_lt_two_pow
        exact lt_of_lt_of_le hx (Nat.pow_le_pow_right (by norm_num) (by omega))
      simp [hb]
  · simp [h3]

theorem align_size_eq (n : Nat) : align_size n = (n + 7) % SIZE_MOD / 8 * 8 := by
  unfold align_size
  have h : (n + ALIGNMENT - 1) % SIZE_MOD < 2 ^ 64 := Nat.mod_lt _ (by norm_num [SIZE_MOD])
  have e : SIZE_MOD - 1 - (ALIGNMENT - 1) = 2 ^ 64 - 1 - 7 := by norm_num [SIZE_MOD, ALIGNMENT]
  rw [e, land_mask _ h]
  rfl

theorem align_size_mod (n : Nat) : align_size n % ALIGNMENT = 0 := by
  rw [align_size_eq]
  simp [ALIGNMENT]

theorem align_size_lt (n : Nat) : align_size n < SIZE_MOD := by
  rw [align_size_eq]
  have : (n + 7) % SIZE_MOD < SIZE_MOD := Nat.mod_lt _ (by norm_num [SIZE_MOD])
  have h2 := Nat.div_mul_le_self ((n + 7) % SIZE_MOD) 8
  omega

theorem request_size_ge (n : Nat) : MIN_BLOCK_SIZE ≤ request_size n := by
  unfold request_size
  split <;> omega

theorem request_size_mod (n : Nat) : request_size n % ALIGNMENT = 0 := by
  unfold request_size
  split
  · simp [MIN_BLOCK_SIZE, ALIGNMENT]
  · exact align_size_mod n

/-! ### `my_free` on a live block -/

theorem free_pre {s : State} {w fl : List Nat} {b : Nat} (hC : Core s w fl)
    (hbw : b ∈ w) (hbf : (s.hdr b).is_free = false) (fuel : Nat) :
    ∃ s1, Core s1 w (b :: fl) ∧
      (∀ o, (s1.hdr o).size = (s.hdr o).size) ∧
      (∀ o, (s1.hdr o).is_free = if o = b then true else (s.hdr o).is_free) ∧
      (∀ o, o ∉ fl → o ≠ b → s1.hdr o = s.hdr o) ∧
      s1.total_allocated = size_sub s.total_allocated (s.hdr b).size ∧
      s1.total_free = size_add s.total_free (s.hdr b).size ∧
      s1.data = s.data ∧ s1.allocator_initialized = s.allocator_initialized ∧
      my_free fuel s (some (b + HEADER_SIZE)) = merge_free_blocks fuel s1 := by
  have hble := core_size_le hC hbw
  have hbfl : b ∉ fl := fun h => by
    have := core_mem_free hC h
    rw [hbf] at this; cases this
  obtain ⟨s3, hs3⟩ : ∃ s3 : State, s3 =
      { (s.setHdr b { s.hdr b with is_free := true }) with
        total_allocated := size_sub s.total_allocated (s.hdr b).size
        total_free := size_add s.total_free (s.hdr b).size } := ⟨_, rfl⟩
  have h3hdr : ∀ o, s3.hdr o = if o = b then { s.hdr b with is_free := true } else s.hdr o := by
    intro o; rw [hs3]; rfl
  have h3head : s3.free_list_head = s.free_list_head := by rw [hs3]; rfl
  have hrun : my_free fuel s (some (b + HEADER_SIZE))
      = merge_free_blocks fuel (add_to_free_list s3 b) := by
    unfold my_free
    have h1 : ¬ (b + HEADER_SIZE < HEADER_SIZE ∨ b ≥ HEAP_SIZE) := by
      simp only [HEADER_SIZE] at *; omega
    simp only [Nat.add_sub_cancel]
    rw [if_neg h1, hbf, hs3]
    simp only [Bool.false_eq_true, if_false, setHdr_hdr, if_true, setHdr_talloc, setHdr_tfree]
  have hseg3 : IsSeg s3.hdr none s3.free_list_head fl none := by
    rw [h3head]
    refine (seg_congr ?_).2 hC.chain
    intro o _
    rw [h3hdr]
    split
    · subst o; exact ⟨rfl, rfl⟩
    · exact ⟨rfl, rfl⟩
  have hsize : ∀ o, ((add_to_free_list s3 b).hdr o).size = (s.hdr o).size := by
    intro o
    rw [add_size, h3hdr]
    split
    · subst o; rfl
    · rfl
  have hfree : ∀ o, ((add_to_free_list s3 b).hdr o).is_free =
      if o = b then true else (s.hdr o).is_free := by
    intro o
    rw [add_is_free, h3hdr]
    split <;> rfl
  refine ⟨add_to_free_list s3 b, ⟨?_, ?_, ?_, ?_⟩, hsize, hfree, ?_, ?_, ?_, ?_, ?_, hrun⟩
  · exact (walk_congr (fun o _ => hsize o)).2 hC.walk
  · exact add_seg s3 b fl hseg3 hbfl hC.nodup
  · exact List.nodup_cons.2 ⟨hbfl, hC.nodup⟩
  · intro o
    rw [List.mem_cons, hC.mem_fl, hfree]
    by_cases hob : o = b
    · subst hob; simp [hbw]
    · simp [hob]
  · intro o ho hob
    rw [add_hdr_other s3 b o hob, h3hdr, if_neg hob]
    rw [h3head]
    intro h
    exact ho (seg_head_mem hC.chain h)
  · rw [(add_other s3 b).2.2.1, hs3]
  · rw [(add_other s3 b).2.2.2, hs3]
  · rw [(add_other s3 b).1, hs3]; rfl
  · rw [(add_other s3 b).2.1, hs3]; rfl

/-! ### Unfolding `my_malloc` on an initialised state -/

theorem malloc_zero (fuel : Nat) (s : State) (hi : s.allocator_initialized = true) :
    my_malloc fuel s 0 = some (s, none) := by
  simp [my_malloc, hi]

theorem malloc_unfold (fuel : Nat) (s : State) (n : Nat)
    (hi : s.allocator_initialized = true) (hn : n ≠ 0) :
    my_malloc fuel s n =
      match find_free_block fuel s (request_size n) with
      | none => none
      | some (some block) => some (my_malloc_take s block (request_size n))
      | some none =>
        match merge_free_blocks fuel s with
        | none => none
        | some sm =>
          match find_free_block fuel sm (request_size n) with
          | none => none
          | some none => some (sm, none)
          | some (some block) => some (my_malloc_take sm block (request_size n)) := by
  unfold my_malloc
  simp only [hi, if_true, if_neg hn]
  rfl

theorem find_fits {s : State} {fl : List Nat}
    (r : Nat) (h : IsSeg s.hdr none s.free_list_head fl none) (fuel : Nat)
    (hf : fl.length < fuel) :
    find_free_block fuel s r = some (fl.find? (fits s r)) :=
  find_spec r h fuel hf

theorem malloc_hit {s : State} {fl : List Nat} {fuel n b : Nat}
    (hi : s.allocator_initialized = true) (hn : n ≠ 0)
    (hc : IsSeg s.hdr none s.free_list_head fl none) (hf : fl.length < fuel)
    (hb : fl.find? (fits s (request_size n)) = some b) :
    my_malloc fuel s n = some (my_malloc_take s b (request_size n)) := by
  rw [malloc_unfold fuel s n hi hn, find_fits _ hc fuel hf, hb]

theorem malloc_miss {s sm : State} {fl fl2 : List Nat} {fuel n : Nat}
    (hi : s.allocator_initialized = true) (hn : n ≠ 0)
    (hc : IsSeg s.hdr none s.free_list_head fl none) (hf : fl.length < fuel)
    (hb : fl.find? (fits s (request_size n)) = none)
    (hm : merge_free_blocks fuel s = some sm)
    (hc2 : IsSeg sm.hdr none sm.free_list_head fl2 none) (hf2 : fl2.length < fuel) :
    my_malloc fuel s n =
      match fl2.find? (fits sm (request_size n)) with
      | none => some (sm, none)
      | some b => some (my_malloc_take sm b (request_size n)) := by
  rw [malloc_unfold fuel s n hi hn, find_fits _ hc fuel hf, hb]
  simp only [hm, find_fits _ hc2 fuel hf2]
  cases fl2.find? (fits sm (request_size n)) <;> rfl

/-! ### More fuel never changes a result -/

theorem find_loop_mono {hdr : Nat → block_header_t} {r : Nat} {fuel fuel2 : Nat}
    {c : Option Nat} {x : Option Nat}
    (h : find_free_block_loop hdr r fuel c = some x) (hle : fuel ≤ fuel2) :
    find_free_block_loop hdr r fuel2 c = some x := by
  induction fuel generalizing c fuel2 with
  | zero => simp [find_free_block_loop] at h
  | succ f ih =>
    obtain ⟨g, rfl⟩ : ∃ g, fuel2 = g + 1 := ⟨fuel2 - 1, by omega⟩
    cases c with
    | none => simpa [find_free_block_loop] using h
    | some cur =>
      simp only [find_free_block_loop] at h ⊢
      split
      · rename_i hfit
        rw [if_pos hfit] at h
        exact h
      · rename_i hfit
        rw [if_neg hfit] at h
        exact ih h (by omega)

theorem find_mono {s : State} {r fuel fuel2 : Nat} {x : Option Nat}
    (h : find_free_block fuel s r = some x) (hle : fuel ≤ fuel2) :
    find_free_block fuel2 s r = some x := by
  unfold find_free_block at h ⊢
  cases hh : s.free_list_head with
  | none => rw [hh] at h; exact h
  | some head =>
    rw [hh] at h
    exact find_loop_mono h hle

theorem merge_loop_mono {fuel fuel2 : Nat} {s x : State} {c : Nat}
    (h : merge_loop fuel s c = some x) (hle : fuel ≤ fuel2) :
    merge_loop fuel2 s c = some x := by
  induction fuel generalizing s c fuel2 with
  | zero => simp [merge_loop] at h
  | succ f ih =>
    obtain ⟨g, rfl⟩ : ∃ g, fuel2 = g + 1 := ⟨fuel2 - 1, by omega⟩
    rw [merge_loop] at h ⊢
    by_cases hc : c < HEAP_SIZE
    · simp only [hc, if_true] at h ⊢
      split
      · rename_i hm
        rw [if_pos hm] at h
        exact ih h (by omega)
      · rename_i hm
        rw [if_neg hm] at h
        exact ih h (by omega)
    · simp only [hc, if_false] at h ⊢
      exact h

theorem merge_mono {fuel fuel2 : Nat} {s x : State}
    (h : merge_free_blocks fuel s = some x) (hle : fuel ≤ fuel2) :
    merge_free_blocks fuel2 s = some x :=
  merge_loop_mono h hle

theorem malloc_mono {fuel fuel2 : Nat} {s : State} {n : Nat} {x : State × Option Nat}
    (h : my_malloc fuel s n = some x) (hle : fuel ≤ fuel2) :
    my_malloc fuel2 s n = some x := by
  unfold my_malloc at h ⊢
  simp only [] at h ⊢
  by_cases hn : n = 0
  · simp only [hn, if_true] at h ⊢
    exact h
  · simp only [hn, if_false] at h ⊢
    generalize hs0 : (if s.allocator_initialized = true then s else allocator_init s) = s0 at h ⊢
    generalize hr : (if align_size n < MIN_BLOCK_SIZE then MIN_BLOCK_SIZE else align_size n)
      = r at h ⊢
    cases h1 : find_free_block fuel s0 r with
    | none => rw [h1] at h; cases h
    | some y =>
      rw [h1] at h
      rw [find_mono h1 hle]
      cases y with
      | some b => exact h
      | none =>
        simp only [] at h ⊢
        cases h2 : merge_free_blocks fuel s0 with
        | none => rw [h2] at h; cases h
        | some sm =>
          rw [h2] at h
          rw [merge_mono h2 hle]
          simp only [] at h ⊢
          cases h3 : find_free_block fuel sm r with
          | none => rw [h3] at h; cases h
          | some z =>
            rw [h3] at h
            rw [find_mono h3 hle]
            exact h

theorem free_mono {fuel fuel2 : Nat} {s x : State} {ptr : Option Nat}
    (h : my_free fuel s ptr = some x) (hle : fuel ≤ fuel2) :
    my_free fuel2 s ptr = some x := by
  unfold my_free at h ⊢
  cases ptr with
  | none => exact h
  | some p =>
    simp only [] at h ⊢
    split
    · rename_i hc
      rw [if_pos hc] at h; exact h
    · rename_i hc
      rw [if_neg hc] at h
      split
      · rename_i hf
        rw [if_pos hf] at h; exact h
      · rename_i hf
        rw [if_neg hf] at h
        exact merge_mono h hle

theorem realloc_mono {fuel fuel2 : Nat} {s : State} {ptr : Option Nat} {n : Nat}
    {x : State × Option Nat}
    (h : my_realloc fuel s ptr n = some x) (hle : fuel ≤ fuel2) :
    my_realloc fuel2 s ptr n = some x := by
  unfold my_realloc at h ⊢
  cases ptr with
  | none => exact malloc_mono h hle
  | some p =>
    simp only [] at h ⊢
    by_cases hn : n = 0
    · simp only [hn, if_true] at h ⊢
      cases h1 : my_free fuel s (some p) with
      | none => rw [h1] at h; cases h
      | some s1 =>
        rw [h1] at h
        rw [free_mono h1 hle]
        exact h
    · simp only [hn, if_false] at h ⊢
      split
      · rename_i hfit
        rw [if_pos hfit] at h; exact h
      · rename_i hfit
        rw [if_neg hfit] at h
        cases h1 : my_malloc fuel s n with
        | none => rw [h1] at h; cases h
        | some y =>
          rw [h1] at h
          rw [malloc_mono h1 hle]
          obtain ⟨s1, q⟩ := y
          cases q with
          | none => exact h
          | some q =>
            simp only [] at h ⊢
            cases hc : memcpy s1 q p (s.hdr (p - HEADER_SIZE)).size with
            | none => rw [hc] at h; cases h
            | some s2 =>
              rw [hc] at h
              simp only [] at h ⊢
              cases h2 : my_free fuel s2 (some p) with
              | none => rw [h2] at h; cases h
              | some s3 =>
                rw [h2] at h
                rw [free_mono h2 hle]
                exact h

theorem calloc_mono {fuel fuel2 : Nat} {s : State} {num n : Nat}
    {x : State × Option Nat}
    (h : my_calloc fuel s num n = some x) (hle : fuel ≤ fuel2) :
    my_calloc fuel2 s num n = some x := by
  unfold my_calloc at h ⊢
  simp only [] at h ⊢
  split
  · rename_i hc
    rw [if_pos hc] at h; exact h
  · rename_i hc
    rw [if_neg hc] at h
    cases h1 : my_malloc fuel s (num * n % SIZE_MOD) with
    | none => rw [h1] at h; cases h
    | some y =>
      rw [h1] at h
      rw [malloc_mono h1 hle]
      exact h

/-! ### Sums over the walk -/

@[simp] theorem alloc_sum_nil (hdr : Nat → block_header_t) : alloc_sum hdr [] = 0 := rfl

theorem alloc_sum_cons (hdr : Nat → block_header_t) (a : Nat) (l : List Nat) :
    alloc_sum hdr (a :: l) =
      (if (hdr a).is_free = true then 0 else (hdr a).size) + alloc_sum hdr l := by
  unfold alloc_sum
  rcases h : (hdr a).is_free with _ | _ <;> simp [List.filter_cons, h]

theorem alloc_sum_append (hdr : Nat → block_header_t) (l1 l2 : List Nat) :
    alloc_sum hdr (l1 ++ l2) = alloc_sum hdr l1 + alloc_sum hdr l2 := by
  simp [alloc_sum, List.filter_append, List.map_append, List.sum_append]

theorem alloc_sum_congr {h1 h2 : Nat → block_header_t} {l : List Nat}
    (h : ∀ o ∈ l, (h2 o).is_free = (h1 o).is_free ∧
      ((h1 o).is_free = false → (h2 o).size = (h1 o).size)) :
    alloc_sum h2 l = alloc_sum h1 l := by
  induction l with
  | nil => rfl
  | cons a l ih =>
    rw [alloc_sum_cons, alloc_sum_cons, ih (fun o ho => h o (List.mem_cons_of_mem _ ho))]
    obtain ⟨e1, e2⟩ := h a (List.mem_cons_self _ _)
    rw [e1]
    rcases hf : (h1 a).is_free with _ | _
    · simp [e2 hf]
    · simp

theorem alloc_sum_surv (hdr : Nat → block_header_t) (pf : Bool) (l : List Nat) :
    alloc_sum hdr (surv_aux (fun o => (hdr o).is_free) pf l) = alloc_sum hdr l := by
  induction l generalizing pf with
  | nil => rfl
  | cons a l ih =>
    simp only [surv_aux]
    split
    · rename_i h
      have ha : (hdr a).is_free = true := by
        simp only [Bool.and_eq_true] at h; exact h.2
      rw [ih true, alloc_sum_cons, if_pos ha, Nat.zero_add]
    · rw [alloc_sum_cons, alloc_sum_cons, ih]

theorem walk_alloc_bound {hdr : Nat → block_header_t} {l : List Nat} {pos e : Nat}
    (h : IsWalk hdr pos l e) : pos + alloc_sum hdr l + HEADER_SIZE * l.length ≤ e := by
  induction l generalizing pos with
  | nil => simpa using le_of_eq h
  | cons a l ih =>
    obtain ⟨ha, h2⟩ := h
    subst ha
    have := ih h2
    rw [alloc_sum_cons]
    simp only [List.length_cons, HEADER_SIZE] at *
    split <;> omega

theorem alloc_sum_mem_le (hdr : Nat → block_header_t) {l : List Nat} {b : Nat}
    (hb : b ∈ l) (hf : (hdr b).is_free = false) : (hdr b).size ≤ alloc_sum hdr l := by
  induction l with
  | nil => cases hb
  | cons a l ih =>
    rw [alloc_sum_cons]
    rcases List.mem_cons.1 hb with rfl | hb
    · simp [hf]
    · have := ih hb
      omega

/-- Total payload that the walk marks allocated, after block `b` of the walk
changed from free to allocated with size `x`. -/
theorem alloc_sum_take (h1 h2 : Nat → block_header_t) (l1 l2 m : List Nat) (b x : Nat)
    (hb1 : (h1 b).is_free = true) (hb2 : (h2 b).is_free = false) (hx : (h2 b).size = x)
    (hm : ∀ o ∈ m, (h2 o).is_free = true)
    (h : ∀ o ∈ l1 ++ l2, (h2 o).is_free = (h1 o).is_free ∧ (h2 o).size = (h1 o).size) :
    alloc_sum h2 (l1 ++ b :: (m ++ l2)) = alloc_sum h1 (l1 ++ b :: l2) + x := by
  have hm0 : alloc_sum h2 m = 0 := by
    induction m with
    | nil => rfl
    | cons a m ih =>
      rw [alloc_sum_cons, if_pos (hm a (List.mem_cons_self _ _)),
        ih (fun o ho => hm o (List.mem_cons_of_mem _ ho))]
  rw [alloc_sum_append, alloc_sum_cons, alloc_sum_append, alloc_sum_append, alloc_sum_cons,
    hm0, if_pos hb1, hb2, hx]
  have e1 : alloc_sum h2 l1 = alloc_sum h1 l1 := alloc_sum_congr
      (fun o ho => ⟨(h o (by simp [ho])).1, fun _ => (h o (by simp [ho])).2⟩)
  have e2 : alloc_sum h2 l2 = alloc_sum h1 l2 := alloc_sum_congr
      (fun o ho => ⟨(h o (by simp [ho])).1, fun _ => (h o (by simp [ho])).2⟩)
  rw [e1, e2]
  simp
  omega

/-- Total payload that the walk marks allocated, after block `b` changed from
allocated to free. -/
theorem alloc_sum_release {h1 h2 : Nat → block_header_t} {l : List Nat} {b : Nat}
    (hnd : l.Nodup) (hb : b ∈ l)
    (hb1 : (h1 b).is_free = false) (hb2 : (h2 b).is_free = true)
    (h : ∀ o ∈ l, o ≠ b → (h2 o).is_free = (h1 o).is_free ∧ (h2 o).size = (h1 o).size) :
    alloc_sum h2 l + (h1 b).size = alloc_sum h1 l := by
  induction l with
  | nil => cases hb
  | cons a l ih =>
    obtain ⟨ha, hnd2⟩ := List.nodup_cons.1 hnd
    rw [alloc_sum_cons, alloc_sum_cons]
    rcases List.mem_cons.1 hb with hba | hbl
    · subst hba
      rw [if_pos hb2, hb1]
      have : alloc_sum h2 l = alloc_sum h1 l := by
        apply alloc_sum_congr
        intro o ho
        have hne : o ≠ b := fun e => ha (e ▸ ho)
        exact ⟨(h o (List.mem_cons_of_mem _ ho) hne).1,
          fun _ => (h o (List.mem_cons_of_mem _ ho) hne).2⟩
      simp [this]
      omega
    · have hne : a ≠ b := fun e => ha (e ▸ hbl)
      obtain ⟨e1, e2⟩ := h a (List.mem_cons_self _ _) hne
      have := ih hnd2 hbl (fun o ho hob => h o (List.mem_cons_of_mem _ ho) hob)
      rw [e1, e2]
      omega

/-! ### The invariant -/

theorem inv_data {s : State} {live w fl : List Nat} (hI : Inv s live w fl) (d : Nat → Nat) :
    Inv { s with data := d } live w fl :=
  { core := ⟨hI.core.walk, hI.core.chain, hI.core.nodup, hI.core.mem_fl⟩
    links := hI.links
    sizes := hI.sizes
    talloc := hI.talloc
    tsum := hI.tsum
    noadj := hI.noadj
    init := hI.init
    live_iff := hI.live_iff
    live_nodup := hI.live_nodup }

theorem memcpy_some {s s2 : State} {dst src n : Nat} (h : memcpy s dst src n = some s2) :
    n ≤ (s.hdr (dst - HEADER_SIZE)).size ∧
    s2 = { s with
      data := fun a => if dst ≤ a ∧ a < dst + n then s.data (src + (a - dst)) else s.data a } := by
  unfold memcpy at h
  split at h
  · rename_i hle
    cases h
    exact ⟨hle, rfl⟩
  · cases h

theorem memset_some {s s2 : State} {dst c n : Nat} (h : memset s dst c n = some s2) :
    n ≤ (s.hdr (dst - HEADER_SIZE)).size ∧
    s2 = { s with data := fun a => if dst ≤ a ∧ a < dst + n then c else s.data a } := by
  unfold memset at h
  split at h
  · rename_i hle
    cases h
    exact ⟨hle, rfl⟩
  · cases h

theorem inv_init (s0 : State) (h0 : s0.allocator_initialized = false) :
    Inv (allocator_init s0) [] [0] [0] := by
  have hh : ∀ o, (allocator_init s0).hdr o =
      if o = 0 then { size := HEAP_SIZE - HEADER_SIZE, is_free := true,
                      next := none, prev := none } else s0.hdr o := by
    intro o
    simp [allocator_init, h0]
  have h00 := hh 0
  simp only [if_true] at h00
  refine
    { core := ⟨?_, ?_, by simp, ?_⟩
      links := ?_
      sizes := ?_
      talloc := ?_
      tsum := ?_
      noadj := ?_
      init := by simp [allocator_init, h0]
      live_iff := ?_
      live_nodup := List.nodup_nil }
  · show 0 = 0 ∧ 0 + HEADER_SIZE + ((allocator_init s0).hdr 0).size = HEAP_SIZE
    rw [h00]
    simp [HEADER_SIZE, HEAP_SIZE]
  · show (allocator_init s0).free_list_head = some 0 ∧
      ((allocator_init s0).hdr 0).prev = none ∧ ((allocator_init s0).hdr 0).next = none
    rw [h00]
    simp [allocator_init, h0]
  · intro o
    simp only [List.mem_singleton]
    constructor
    · rintro rfl; rw [h00]; simp
    · rintro ⟨rfl, -⟩; rfl
  · intro o ho
    simp only [List.mem_singleton] at ho
    subst ho
    rw [h00]; simp
  · intro o ho
    simp only [List.mem_singleton] at ho
    subst ho
    rw [h00]; simp [HEADER_SIZE, HEAP_SIZE, MIN_BLOCK_SIZE, ALIGNMENT]
  · rw [alloc_sum_cons, h00]
    simp [allocator_init, h0]
  · simp [allocator_init, h0]
  · intro a ha b hb hab
    simp only [List.mem_singleton] at ha hb
    subst ha; subst hb
    simp only [HEADER_SIZE] at hab
    omega
  · intro p
    simp only [List.not_mem_nil, List.mem_singleton, false_iff]
    rintro ⟨b, rfl, hb, -⟩
    rw [h00] at hb
    cases hb

/-! ### `my_malloc` keeps the invariant -/

theorem inv_walk_pos {s : State} {live w fl : List Nat} (hI : Inv s live w fl) :
    1 ≤ w.length := by
  obtain ⟨w2, rfl⟩ := core_walk_ne_nil hI.core
  simp

theorem inv_free_not_live {s : State} {live w fl : List Nat} (hI : Inv s live w fl)
    {b : Nat} (hb : (s.hdr b).is_free = true) : (b + HEADER_SIZE) ∉ live := by
  intro h
  obtain ⟨c, -, hc, he⟩ := (hI.live_iff _).1 h
  have : c = b := by omega
  subst this
  rw [hb] at hc; cases hc

theorem inv_take_nosplit {s : State} {live w fl : List Nat} {b r : Nat}
    (hI : Inv s live w fl) (hb : b ∈ fl) (hfit : r ≤ (s.hdr b).size)
    (hns : (s.hdr b).size ≤ r + HEADER_SIZE + MIN_BLOCK_SIZE) :
    Inv (my_malloc_take s b r).1 ((b + HEADER_SIZE) :: live) w (fl.erase b) ∧
    (my_malloc_take s b r).1.total_allocated = s.total_allocated + (s.hdr b).size ∧
    (my_malloc_take s b r).1.total_free + (s.hdr b).size = s.total_free := by
  obtain ⟨hC2, hsz, hfr, hnx, hpv, hun, hta, htf, -, hi⟩ :=
    take_nosplit hI.core hb hfit hns
  have hbw := core_mem_walk hI.core hb
  have hbf := core_mem_free hI.core hb
  have hnd := walk_nodup hI.core.walk
  have hsum : alloc_sum (my_malloc_take s b r).1.hdr w
      = alloc_sum s.hdr w + (s.hdr b).size := by
    obtain ⟨w1, w2, rfl⟩ := List.append_of_mem hbw
    have hnd1 := List.nodup_append.1 hnd
    have hnd2 := List.nodup_cons.1 hnd1.2.1
    have := alloc_sum_take s.hdr (my_malloc_take s b r).1.hdr w1 w2 [] b (s.hdr b).size hbf (by rw [hfr]; simp) (hsz b)
      (by simp) (by
        intro o ho
        have hob : o ≠ b := by
          rintro rfl
          rcases List.mem_append.1 ho with h | h
          · exact hnd1.2.2 h (List.mem_cons_self _ _)
          · exact hnd2.1 h
        rw [hfr, if_neg hob, hsz]
        exact ⟨rfl, rfl⟩)
    simpa using this
  have hbound := walk_alloc_bound hC2.walk
  have hlen := inv_walk_pos hI
  have htsum := hI.tsum
  have htalloc := hI.talloc
  have hta2 : (my_malloc_take s b r).1.total_allocated = s.total_allocated + (s.hdr b).size := by
    rw [hta]
    apply size_add_eq
    simp only [HEADER_SIZE, HEAP_SIZE, SIZE_MOD_eq] at *
    omega
  have htf2 : (my_malloc_take s b r).1.total_free = s.total_free - (s.hdr b).size := by
    rw [htf]
    apply size_sub_eq
    · simp only [HEADER_SIZE, HEAP_SIZE] at *
      omega
    · simp only [HEADER_SIZE, HEAP_SIZE, SIZE_MOD_eq] at *
      omega
  have hble2 : (s.hdr b).size ≤ s.total_free := by
    simp only [HEADER_SIZE, HEAP_SIZE] at *
    omega
  refine ⟨?_, hta2, by rw [htf2]; omega⟩
  refine
    { core := hC2
      links := ?_
      sizes := fun o ho => by rw [hsz]; exact hI.sizes o ho
      talloc := by rw [hta2, hsum, htalloc]
      tsum := ?_
      noadj := ?_
      init := by rw [hi]; exact hI.init
      live_iff := ?_
      live_nodup := List.nodup_cons.2 ⟨inv_free_not_live hI hbf, hI.live_nodup⟩ }
  · intro o ho hfo
    by_cases hob : o = b
    · subst hob; exact ⟨hnx, hpv⟩
    · rw [hfr, if_neg hob] at hfo
      have hofl : o ∉ fl := fun h => by
        have := core_mem_free hI.core h
        rw [hfo] at this; cases this
      rw [hun o hofl]
      exact hI.links o ho hfo
  · rw [hta2, htf2]
    simp only [HEADER_SIZE, HEAP_SIZE] at *
    have : (s.hdr b).size ≤ s.total_free := by omega
    omega
  · intro a ha c hc hac hboth
    rw [hfr, hfr] at hboth
    rw [hsz] at hac
    by_cases hab : a = b
    · simp [hab] at hboth
    · by_cases hcb : c = b
      · simp [hcb] at hboth
      · rw [if_neg hab, if_neg hcb] at hboth
        exact hI.noadj a ha c hc hac hboth
  · intro p
    rw [List.mem_cons, hI.live_iff]
    constructor
    · rintro (rfl | ⟨c, hc, hcf, rfl⟩)
      · exact ⟨b, hbw, by rw [hfr]; simp, rfl⟩
      · refine ⟨c, hc, ?_, rfl⟩
        rw [hfr]
        split
        · rfl
        · exact hcf
    · rintro ⟨c, hc, hcf, rfl⟩
      by_cases hcb : c = b
      · left; rw [hcb]
      · right
        rw [hfr, if_neg hcb] at hcf
        exact ⟨c, hc, hcf, rfl⟩

theorem inv_take_split {s : State} {live w1 w2 fl : List Nat} {b r : Nat}
    (hI : Inv s live (w1 ++ b :: w2) fl) (hb : b ∈ fl)
    (hr1 : MIN_BLOCK_SIZE ≤ r) (hr2 : r % ALIGNMENT = 0)
    (hsp : r + HEADER_SIZE + MIN_BLOCK_SIZE < (s.hdr b).size) :
    Inv (my_malloc_take s b r).1 ((b + HEADER_SIZE) :: live)
      (w1 ++ b :: (b + HEADER_SIZE + r) :: w2) ((b + HEADER_SIZE + r) :: fl.erase b) ∧
    (my_malloc_take s b r).1.total_allocated = s.total_allocated + r ∧
    (my_malloc_take s b r).1.total_free + r = s.total_free := by
  obtain ⟨hC2, hsz, hfr, hnx, hpv, hun, hta, htf, -, hi, hnbw⟩ :=
    take_split hI.core hb hsp
  have hbw := core_mem_walk hI.core hb
  have hbf := core_mem_free hI.core hb
  have hble := core_size_le hI.core hbw
  have hnd := walk_nodup hI.core.walk
  have hnbb : b + HEADER_SIZE + r ≠ b := by simp only [HEADER_SIZE]; omega
  have hmem : ∀ o, o ∈ w1 ++ b :: (b + HEADER_SIZE + r) :: w2 ↔
      o ∈ w1 ++ b :: w2 ∨ o = b + HEADER_SIZE + r := by
    intro o
    simp only [List.mem_append, List.mem_cons]
    tauto
  have hold : ∀ o ∈ w1 ++ b :: w2, o ≠ b →
      ((my_malloc_take s b r).1.hdr o).is_free = (s.hdr o).is_free ∧
      ((my_malloc_take s b r).1.hdr o).size = (s.hdr o).size := by
    intro o ho hob
    have hon : o ≠ b + HEADER_SIZE + r := fun e => hnbw (e ▸ ho)
    rw [hfr, hsz, if_neg hob, if_neg hon, if_neg hob, if_neg hon]
    exact ⟨rfl, rfl⟩
  have hsum : alloc_sum (my_malloc_take s b r).1.hdr (w1 ++ b :: (b + HEADER_SIZE + r) :: w2)
      = alloc_sum s.hdr (w1 ++ b :: w2) + r := by
    have hnd1 := List.nodup_append.1 hnd
    have hnd2 := List.nodup_cons.1 hnd1.2.1
    have := alloc_sum_take s.hdr (my_malloc_take s b r).1.hdr w1 w2 [b + HEADER_SIZE + r] b r hbf (by rw [hfr]; simp)
      (by rw [hsz]; simp) (by
        intro o ho
        simp only [List.mem_singleton] at ho
        subst ho
        rw [hfr]; simp [hnbb]) (by
        intro o ho
        have hob : o ≠ b := by
          rintro rfl
          rcases List.mem_append.1 ho with h | h
          · exact hnd1.2.2 h (List.mem_cons_self _ _)
          · exact hnd2.1 h
        exact hold o (by
          simp only [List.mem_append, List.mem_cons] at ho ⊢
          tauto) hob)
    simpa using this
  have hbound := walk_alloc_bound hC2.walk
  have htsum := hI.tsum
  have htalloc := hI.talloc
  have hta2 : (my_malloc_take s b r).1.total_allocated = s.total_allocated + r := by
    rw [hta]
    apply size_add_eq
    simp only [List.length_append, List.length_cons, HEADER_SIZE, HEAP_SIZE, SIZE_MOD_eq] at *
    omega
  have hrle : r ≤ s.total_free := by
    simp only [List.length_append, List.length_cons, HEADER_SIZE, HEAP_SIZE] at *
    omega
  have htf2 : (my_malloc_take s b r).1.total_free = s.total_free - r := by
    rw [htf]
    apply size_sub_eq hrle
    simp only [HEADER_SIZE, HEAP_SIZE, SIZE_MOD_eq] at *
    omega
  refine ⟨?_, hta2, by rw [htf2]; omega⟩
  refine
    { core := hC2
      links := ?_
      sizes := ?_
      talloc := by rw [hta2, hsum, htalloc]
      tsum := by rw [hta2, htf2]; omega
      noadj := ?_
      init := by rw [hi]; exact hI.init
      live_iff := ?_
      live_nodup := List.nodup_cons.2 ⟨inv_free_not_live hI hbf, hI.live_nodup⟩ }
  · intro o ho hfo
    by_cases hob : o = b
    · subst hob; exact ⟨hnx, hpv⟩
    · by_cases hon : o = b + HEADER_SIZE + r
      · rw [hfr, if_neg hob, if_pos hon] at hfo; cases hfo
      · rw [hfr, if_neg hob, if_neg hon] at hfo
        have how : o ∈ w1 ++ b :: w2 := by
          rcases (hmem o).1 ho with h | h
          · exact h
          · exact absurd h hon
        have hofl : o ∉ fl := fun h => by
          have := core_mem_free hI.core h
          rw [hfo] at this; cases this
        rw [hun o hofl hon]
        exact hI.links o how hfo
  · intro o ho
    rw [hsz]
    by_cases hob : o = b
    · rw [if_pos hob]; exact ⟨hr1, hr2⟩
    · by_cases hon : o = b + HEADER_SIZE + r
      · rw [if_neg hob, if_pos hon]
        have := hI.sizes b hbw
        simp only [HEADER_SIZE, MIN_BLOCK_SIZE, ALIGNMENT] at *
        omega
      · rw [if_neg hob, if_neg hon]
        rcases (hmem o).1 ho with h | h
        · exact hI.sizes o h
        · exact absurd h hon
  · intro a ha c hc hac hboth
    rw [hfr, hfr] at hboth
    by_cases hab : a = b
    · simp [hab] at hboth
    · by_cases hcb : c = b
      · simp [hcb] at hboth
      · rw [if_neg hab, if_neg hcb] at hboth
        rw [hsz, if_neg hab] at hac
        by_cases han : a = b + HEADER_SIZE + r
        · -- the remainder is followed by the old successor of `b`
          rw [if_pos han] at hac
          have hcn : c ≠ b + HEADER_SIZE + r := by
            simp only [HEADER_SIZE, MIN_BLOCK_SIZE] at *; omega
          have hcw : c ∈ w1 ++ b :: w2 := by
            rcases (hmem c).1 hc with h | h
            · exact h
            · exact absurd h hcn
          rw [if_neg hcn] at hboth
          refine hI.noadj b hbw c hcw ?_ ⟨hbf, hboth.2⟩
          simp only [HEADER_SIZE, MIN_BLOCK_SIZE] at *; omega
        · rw [if_neg han] at hac hboth
          have haw : a ∈ w1 ++ b :: w2 := by
            rcases (hmem a).1 ha with h | h
            · exact h
            · exact absurd h han
          by_cases hcn : c = b + HEADER_SIZE + r
          · -- nothing in the old walk ends where the remainder starts
            exfalso
            rcases Nat.lt_or_gt_of_ne hab with hlt | hgt
            · have := walk_disjoint hI.core.walk haw hbw hlt
              simp only [HEADER_SIZE, MIN_BLOCK_SIZE] at *; omega
            · have := walk_disjoint hI.core.walk hbw haw hgt
              simp only [HEADER_SIZE, MIN_BLOCK_SIZE] at *; omega
          · rw [if_neg hcn] at hboth
            have hcw : c ∈ w1 ++ b :: w2 := by
              rcases (hmem c).1 hc with h | h
              · exact h
              · exact absurd h hcn
            exact hI.noadj a haw c hcw hac hboth
  · intro p
    rw [List.mem_cons, hI.live_iff]
    constructor
    · rintro (rfl | ⟨c, hc, hcf, rfl⟩)
      · exact ⟨b, (hmem b).2 (Or.inl hbw), by rw [hfr]; simp, rfl⟩
      · have hcb : c ≠ b := by
          rintro rfl; rw [hbf] at hcf; cases hcf
        exact ⟨c, (hmem c).2 (Or.inl hc), by rw [(hold c hc hcb).1]; exact hcf, rfl⟩
    · rintro ⟨c, hc, hcf, rfl⟩
      by_cases hcb : c = b
      · left; rw [hcb]
      · right
        by_cases hcn : c = b + HEADER_SIZE + r
        · rw [hfr, if_neg hcb, if_pos hcn] at hcf; cases hcf
        · have hcw : c ∈ w1 ++ b :: w2 := by
            rcases (hmem c).1 hc with h | h
            · exact h
            · exact absurd h hcn
          rw [(hold c hcw hcb).1] at hcf
          exact ⟨c, hcw, hcf, rfl⟩

/-! ### `my_free` keeps the invariant -/

theorem inv_free {s : State} {live w fl : List Nat} {b fuel : Nat}
    (hI : Inv s live w fl) (hbw : b ∈ w) (hbf : (s.hdr b).is_free = false)
    (hf : HEAP_SIZE ≤ fuel) :
    ∃ s1 s2 fl2,
      Core s1 w (b :: fl) ∧
      (∀ o, (s1.hdr o).size = (s.hdr o).size) ∧
      (∀ o, (s1.hdr o).is_free = if o = b then true else (s.hdr o).is_free) ∧
      Core s2 (surv_aux (fun o => (s1.hdr o).is_free) false w) fl2 ∧
      MergeRel s1 s2 w (surv_aux (fun o => (s1.hdr o).is_free) false w) (b :: fl) fl2 ∧
      my_free fuel s (some (b + HEADER_SIZE)) = some s2 ∧
      Inv s2 (live.erase (b + HEADER_SIZE))
        (surv_aux (fun o => (s1.hdr o).is_free) false w) fl2 := by
  obtain ⟨s1, hC1, hsz1, hfr1, hun1, hta1, htf1, -, hi1, hrun⟩ :=
    free_pre hI.core hbw hbf fuel
  obtain ⟨s2, fl2, hm, hC2, hrel, hna2, -⟩ := merge_spec hC1 hf
  refine ⟨s1, s2, fl2, hC1, hsz1, hfr1, hC2, hrel, hrun.trans hm, ?_⟩
  have hnd := walk_nodup hI.core.walk
  have hble := alloc_sum_mem_le s.hdr hbw hbf
  have hsum1 : alloc_sum s1.hdr w + (s.hdr b).size = alloc_sum s.hdr w :=
    alloc_sum_release hnd hbw hbf (by rw [hfr1]; simp) (by
      intro o _ hob
      rw [hfr1, if_neg hob, hsz1]
      exact ⟨rfl, rfl⟩)
  have hsum2 : alloc_sum s2.hdr (surv_aux (fun o => (s1.hdr o).is_free) false w)
      = alloc_sum s1.hdr w := by
    rw [← alloc_sum_surv s1.hdr false w]
    apply alloc_sum_congr
    intro o ho
    refine ⟨hrel.free_eq o, fun hfo => ?_⟩
    have hofl : o ∉ b :: fl := fun h => by
      have := core_mem_free hC1 h
      rw [hfo] at this; cases this
    rw [hrel.untouched o hofl]
  have htsum := hI.tsum
  have htalloc := hI.talloc
  have hta2 : s2.total_allocated = s.total_allocated - (s.hdr b).size := by
    rw [hrel.talloc_eq, hta1]
    apply size_sub_eq (by omega)
    simp only [HEADER_SIZE, HEAP_SIZE, SIZE_MOD_eq] at *
    omega
  have htf2 : s2.total_free = s.total_free + (s.hdr b).size := by
    rw [hrel.tfree_eq, htf1]
    apply size_add_eq
    simp only [HEADER_SIZE, HEAP_SIZE, SIZE_MOD_eq] at *
    omega
  have hkeep : ∀ o ∈ w, (s.hdr o).is_free = false → o ≠ b → s2.hdr o = s.hdr o := by
    intro o _ hfo hob
    have hofl : o ∉ fl := fun h => by
      have := core_mem_free hI.core h
      rw [hfo] at this; cases this
    have hofl1 : o ∉ b :: fl := by
      simp only [List.mem_cons, not_or]
      exact ⟨hob, hofl⟩
    rw [hrel.untouched o hofl1, hun1 o hofl hob]
  have hflag : ∀ o, (s2.hdr o).is_free = false → o ≠ b ∧ (s.hdr o).is_free = false := by
    intro o hfo
    rw [hrel.free_eq, hfr1] at hfo
    by_cases hob : o = b
    · rw [if_pos hob] at hfo; cases hfo
    · rw [if_neg hob] at hfo; exact ⟨hob, hfo⟩
  refine
    { core := hC2
      links := ?_
      sizes := ?_
      talloc := by rw [hta2, hsum2, htalloc]; omega
      tsum := by rw [hta2, htf2]; omega
      noadj := hna2
      init := by rw [hrel.init_eq, hi1]; exact hI.init
      live_iff := ?_
      live_nodup := hI.live_nodup.erase _ }
  · intro o ho hfo
    obtain ⟨hob, hfo2⟩ := hflag o hfo
    have how := hrel.subset o ho
    rw [hkeep o how hfo2 hob]
    exact hI.links o how hfo2
  · intro o ho
    have how := hrel.subset o ho
    have h1 := hrel.size_le o
    have h2 := hrel.aligned (fun x hx => by rw [hsz1]; exact (hI.sizes x hx).2) o
    rw [hsz1] at h1 h2
    have := hI.sizes o how
    exact ⟨le_trans this.1 h1, h2.trans this.2⟩
  · intro p
    rw [hI.live_nodup.mem_erase_iff, hI.live_iff]
    constructor
    · rintro ⟨hne, c, hc, hcf, rfl⟩
      have hcb : c ≠ b := fun e => hne (by rw [e])
      have hc1 : (s1.hdr c).is_free = false := by rw [hfr1, if_neg hcb]; exact hcf
      refine ⟨c, surv_mem_of_not_free _ w c false hc hc1, ?_, rfl⟩
      rw [hrel.free_eq]; exact hc1
    · rintro ⟨c, hc, hcf, rfl⟩
      obtain ⟨hcb, hcf2⟩ := hflag c hcf
      refine ⟨fun e => hcb (by omega), c, hrel.subset c hc, hcf2, rfl⟩

/-! ### Every reachable state satisfies the invariant -/

theorem take_snd (s : State) (b r : Nat) :
    (my_malloc_take s b r).2 = some (b + HEADER_SIZE) := rfl

theorem inv_take {s : State} {live w fl : List Nat} {b r : Nat}
    (hI : Inv s live w fl) (hb : b ∈ fl)
    (hr1 : MIN_BLOCK_SIZE ≤ r) (hr2 : r % ALIGNMENT = 0) (hfit : r ≤ (s.hdr b).size) :
    ∃ w2 fl2, Inv (my_malloc_take s b r).1 ((b + HEADER_SIZE) :: live) w2 fl2 ∧
      TakeRel s (my_malloc_take s b r).1 w w2 fl fl2 b r := by
  have hbw := core_mem_walk hI.core hb
  have hbf := core_mem_free hI.core hb
  have hnotfl : ∀ o, (s.hdr o).is_free = false → o ∉ fl := fun o ho h => by
    have := core_mem_free hI.core h
    rw [ho] at this; cases this
  by_cases hns : (s.hdr b).size ≤ r + HEADER_SIZE + MIN_BLOCK_SIZE
  · obtain ⟨hInv, hta, htf⟩ := inv_take_nosplit hI hb hfit hns
    obtain ⟨-, hsz, hfr, hnx, hpv, hun, -, -, hd, -⟩ := take_nosplit hI.core hb hfit hns
    refine ⟨_, _, hInv, ?_⟩
    exact
      { keep := fun _ h => h
        fresh := fun _ h => Or.inl h
        same := fun o _ hob => ⟨hsz o, by rw [hfr, if_neg hob]⟩
        untouched := fun o _ hfo => hun o (hnotfl o hfo)
        taken := ⟨by rw [hfr]; simp, hnx, hpv⟩
        size_ge := by rw [hsz]; exact hfit
        size_le := by rw [hsz]
        reg := Or.inl rfl
        talloc := by rw [hsz]; exact hta
        tfree := by rw [hsz]; exact htf
        data := hd }
  · obtain ⟨w1, w2, rfl⟩ := List.append_of_mem hbw
    have hsp : r + HEADER_SIZE + MIN_BLOCK_SIZE < (s.hdr b).size := by omega
    obtain ⟨hInv, hta, htf⟩ := inv_take_split hI hb hr1 hr2 hsp
    obtain ⟨-, hsz, hfr, hnx, hpv, hun, -, -, hd, -, hnbw⟩ := take_split hI.core hb hsp
    have hnbb : b + HEADER_SIZE + r ≠ b := by simp only [HEADER_SIZE]; omega
    have hszb : ((my_malloc_take s b r).1.hdr b).size = r := by rw [hsz]; simp
    refine ⟨_, _, hInv, ?_⟩
    exact
      { keep := fun o h => by
          simp only [List.mem_append, List.mem_cons] at h ⊢
          tauto
        fresh := fun o h => by
          by_cases hon : o = b + HEADER_SIZE + r
          · right
            subst hon
            refine ⟨rfl, hnbw, hszb, by rw [hfr]; simp [hnbb], ?_⟩
            rw [hsz, if_neg hnbb, if_pos rfl]
            simp only [HEADER_SIZE, MIN_BLOCK_SIZE] at *
            omega
          · left
            simp only [List.mem_append, List.mem_cons] at h ⊢
            tauto
        same := fun o ho hob => by
          have hon : o ≠ b + HEADER_SIZE + r := fun e => hnbw (e ▸ ho)
          rw [hsz, hfr, if_neg hob, if_neg hon, if_neg hob, if_neg hon]
          exact ⟨rfl, rfl⟩
        untouched := fun o ho hfo =>
          hun o (hnotfl o hfo) (fun e => hnbw (e ▸ ho))
        taken := ⟨by rw [hfr]; simp, hnx, hpv⟩
        size_ge := by rw [hszb]
        size_le := by rw [hszb]; omega
        reg := Or.inr rfl
        talloc := by rw [hszb]; exact hta
        tfree := by rw [hszb]; exact htf
        data := hd }

theorem fits_iff (s : State) (r o : Nat) :
    fits s r o = true ↔ (s.hdr o).is_free = true ∧ r ≤ (s.hdr o).size := by
  simp [fits]

theorem inv_malloc {s : State} {live w fl : List Nat} {n fuel : Nat}
    (hI : Inv s live w fl) (hf : HEAP_SIZE ≤ fuel) :
    (my_malloc fuel s n = some (s, none) ∧
      (n = 0 ∨ fl.find? (fits s (request_size n)) = none)) ∨
    (∃ b, n ≠ 0 ∧ fl.find? (fits s (request_size n)) = some b ∧
      my_malloc fuel s n = some (my_malloc_take s b (request_size n)) ∧
      ∃ w2 fl2, Inv (my_malloc_take s b (request_size n)).1 ((b + HEADER_SIZE) :: live) w2 fl2 ∧
        TakeRel s (my_malloc_take s b (request_size n)).1 w w2 fl fl2 b (request_size n)) := by
  by_cases hn : n = 0
  · left
    subst hn
    exact ⟨malloc_zero fuel s hI.init, Or.inl rfl⟩
  · have hlen := core_fl_fuel hI.core hf
    cases hfind : fl.find? (fits s (request_size n)) with
    | some b =>
      right
      have hbfl : b ∈ fl := List.mem_of_find?_eq_some hfind
      have hfit := (fits_iff s _ b).1 (List.find?_some hfind)
      exact ⟨b, hn, rfl, malloc_hit hI.init hn hI.core.chain hlen hfind,
        inv_take hI hbfl (request_size_ge n) (request_size_mod n) hfit.2⟩
    | none =>
      left
      obtain ⟨s2, fl2, hm, -, -, -, hid⟩ := merge_spec hI.core hf
      have hs2 : s2 = s := hid hI.noadj
      subst hs2
      refine ⟨?_, Or.inr rfl⟩
      rw [malloc_miss hI.init hn hI.core.chain hlen hfind hm hI.core.chain hlen, hfind]

theorem malloc_result {s s1 : State} {live w fl : List Nat} {n fuel : Nat} {r : Option Nat}
    (hI : Inv s live w fl) (h : my_malloc fuel s n = some (s1, r)) :
    ∃ w2 fl2, Inv s1 (r.toList ++ live) w2 fl2 := by
  have h2 := malloc_mono h (le_max_left fuel HEAP_SIZE)
  rcases inv_malloc (n := n) hI (le_max_right fuel HEAP_SIZE) with ⟨h3, -⟩ | ⟨b, -, -, h3, w2, fl2, h4, -⟩
  · rw [h3] at h2
    cases h2
    exact ⟨w, fl, hI⟩
  · rw [h3] at h2
    have e1 : (my_malloc_take s b (request_size n)).1 = s1 := by
      have := congrArg (fun x => Option.map Prod.fst x) h2
      simpa using this
    have e2 : (my_malloc_take s b (request_size n)).2 = r := by
      have := congrArg (fun x => Option.map Prod.snd x) h2
      simpa using this
    rw [take_snd] at e2
    subst e1; subst e2
    exact ⟨w2, fl2, h4⟩

/-- A non-null result of `my_malloc` was not live before. -/
theorem malloc_result_fresh {s s1 : State} {live w fl : List Nat} {n fuel q : Nat}
    (hI : Inv s live w fl) (h : my_malloc fuel s n = some (s1, some q)) : q ∉ live := by
  have h2 := malloc_mono h (le_max_left fuel HEAP_SIZE)
  rcases inv_malloc (n := n) hI (le_max_right fuel HEAP_SIZE) with ⟨h3, -⟩ | ⟨b, -, hfind, h3, -⟩
  · rw [h3] at h2
    cases h2
  · rw [h3] at h2
    have e2 : (my_malloc_take s b (request_size n)).2 = some q := by
      have := congrArg (fun x => Option.map Prod.snd x) h2
      simpa using this
    rw [take_snd] at e2
    cases e2
    have hfit := (fits_iff s _ b).1 (List.find?_some hfind)
    exact inv_free_not_live hI hfit.1

theorem free_result {s s1 : State} {live w fl : List Nat} {p fuel : Nat}
    (hI : Inv s live w fl) (hp : p ∈ live) (h : my_free fuel s (some p) = some s1) :
    ∃ w2 fl2, Inv s1 (live.erase p) w2 fl2 := by
  obtain ⟨b, hbw, hbf, rfl⟩ := (hI.live_iff p).1 hp
  have h2 := free_mono h (le_max_left fuel HEAP_SIZE)
  obtain ⟨sa, sb, fl2, -, -, -, -, -, hrun, hInv⟩ :=
    inv_free hI hbw hbf (le_max_right fuel HEAP_SIZE)
  rw [hrun] at h2
  cases h2
  exact ⟨_, _, hInv⟩

theorem realloc_result {s s1 : State} {live w fl : List Nat} {p n fuel : Nat}
    {r : Option Nat} (hI : Inv s live w fl) (hp : p ∈ live) (hn : n ≠ 0)
    (h : my_realloc fuel s (some p) n = some (s1, r)) :
    (r = some p ∧ s1 = s) ∨
    (r = none ∧ ∃ w2 fl2, Inv s1 live w2 fl2) ∨
    (∃ q, r = some q ∧ q ≠ p ∧ ∃ w2 fl2, Inv s1 (q :: live.erase p) w2 fl2) := by
  unfold my_realloc at h
  simp only [if_neg hn] at h
  by_cases hfit : n ≤ (s.hdr (p - HEADER_SIZE)).size
  · rw [if_pos hfit] at h
    cases h
    exact Or.inl ⟨rfl, rfl⟩
  · rw [if_neg hfit] at h
    right
    cases hm : my_malloc fuel s n with
    | none => rw [hm] at h; cases h
    | some y =>
      obtain ⟨sa, q⟩ := y
      rw [hm] at h
      obtain ⟨wa, fla, hIa⟩ := malloc_result hI hm
      cases q with
      | none =>
        cases h
        exact Or.inl ⟨rfl, wa, fla, by simpa using hIa⟩
      | some q =>
        right
        have hq := malloc_result_fresh hI hm
        have hqp : q ≠ p := fun e => hq (e ▸ hp)
        simp only [] at h
        cases hcp : memcpy sa q p (s.hdr (p - HEADER_SIZE)).size with
        | none => rw [hcp] at h; cases h
        | some sc =>
          rw [hcp] at h
          simp only [] at h
          cases hfr : my_free fuel sc (some p) with
          | none => rw [hfr] at h; cases h
          | some sb =>
            rw [hfr] at h
            cases h
            have hIa2 : Inv sa (q :: live) wa fla := by simpa using hIa
            obtain ⟨-, rfl⟩ := memcpy_some hcp
            have hIb := inv_data hIa2
              (fun a => if q ≤ a ∧ a < q + (s.hdr (p - HEADER_SIZE)).size
                then sa.data (p + (a - q)) else sa.data a)
            obtain ⟨wb, flb, hIc⟩ := free_result hIb (List.mem_cons_of_mem _ hp) hfr
            refine ⟨q, rfl, hqp, wb, flb, ?_⟩
            rw [List.erase_cons_tail (by simpa using hqp)] at hIc
            exact hIc

theorem reach_inv {s : State} {live : List Nat} (h : Reach s live) :
    ∃ w fl, Inv s live w fl := by
  induction h with
  | init s0 h0 => exact ⟨_, _, inv_init s0 h0⟩
  | malloc fuel size _ hm ih =>
    obtain ⟨w, fl, hI⟩ := ih
    exact malloc_result hI hm
  | calloc fuel num size _ hm ih =>
    obtain ⟨w, fl, hI⟩ := ih
    unfold my_calloc at hm
    simp only [] at hm
    split at hm
    · cases hm
      exact ⟨w, fl, by simpa using hI⟩
    · cases hmm : my_malloc fuel _ (num * size % SIZE_MOD) with
      | none => rw [hmm] at hm; cases hm
      | some y =>
        obtain ⟨sa, q⟩ := y
        rw [hmm] at hm
        obtain ⟨wa, fla, hIa⟩ := malloc_result hI hmm
        cases q with
        | none => cases hm; exact ⟨wa, fla, hIa⟩
        | some q =>
          simp only [] at hm
          cases hms : memset sa q 0 (num * size % SIZE_MOD) with
          | none => rw [hms] at hm; cases hm
          | some sc =>
            rw [hms] at hm
            cases hm
            obtain ⟨-, rfl⟩ := memset_some hms
            exact ⟨wa, fla, inv_data hIa _⟩
  | free_null fuel _ hm ih =>
    cases hm
    exact ih
  | free fuel p _ hp hm ih =>
    obtain ⟨w, fl, hI⟩ := ih
    exact free_result hI hp hm
  | realloc_null fuel size _ hm ih =>
    obtain ⟨w, fl, hI⟩ := ih
    exact malloc_result hI hm
  | realloc_zero fuel p _ hp hm ih =>
    obtain ⟨w, fl, hI⟩ := ih
    unfold my_realloc at hm
    simp only [if_true] at hm
    cases hfr : my_free fuel _ (some p) with
    | none => rw [hfr] at hm; cases hm
    | some sa =>
      rw [hfr] at hm
      cases hm
      exact free_result hI hp hfr
  | realloc_same fuel p size _ hp hn hm ih =>
    obtain ⟨w, fl, hI⟩ := ih
    rcases realloc_result hI hp hn hm with ⟨-, rfl⟩ | ⟨h1, -⟩ | ⟨q, h1, h2, -⟩
    · exact ⟨w, fl, hI⟩
    · cases h1
    · cases h1; exact absurd rfl h2
  | realloc_moved fuel p size q _ hp hn hq hm ih =>
    obtain ⟨w, fl, hI⟩ := ih
    rcases realloc_result hI hp hn hm with ⟨h1, -⟩ | ⟨h1, -⟩ | ⟨q2, h1, -, w2, fl2, hI2⟩
    · cases h1; exact absurd rfl hq
    · cases h1
    · cases h1; exact ⟨w2, fl2, hI2⟩
  | realloc_failed fuel p size _ hp hn hm ih =>
    obtain ⟨w, fl, hI⟩ := ih
    rcases realloc_result hI hp hn hm with ⟨h1, -⟩ | ⟨-, w2, fl2, hI2⟩ | ⟨q2, h1, -⟩
    · cases h1
    · exact ⟨w2, fl2, hI2⟩
    · cases h1
  | store d _ _ ih =>
    obtain ⟨w, fl, hI⟩ := ih
    exact ⟨w, fl, inv_data hI d⟩

/-! ### Auxiliary facts for the claims -/

theorem validate_loop_true {hdr : Nat → block_header_t} {l : List Nat} {pos heap : Nat}
    (hh : heap + HEAP_SIZE < SIZE_MOD)
    (h : IsWalk hdr pos l HEAP_SIZE) (fuel : Nat) (hf : l.length < fuel) :
    validate_heap_loop hdr heap fuel (heap + pos) = some true := by
  induction l generalizing pos fuel with
  | nil =>
    have hp : pos = HEAP_SIZE := h
    obtain ⟨f, rfl⟩ : ∃ f, fuel = f + 1 := ⟨fuel - 1, by omega⟩
    simp [validate_heap_loop, hp]
  | cons a l ih =>
    obtain ⟨ha, h2⟩ := h
    subst ha
    obtain ⟨f, rfl⟩ : ∃ f, fuel = f + 1 := ⟨fuel - 1, by omega⟩
    have hle := walk_le h2
    have hM := SIZE_MOD_eq
    have hH : HEADER_SIZE = 32 := rfl
    have hS : HEAP_SIZE = 1048576 := rfl
    have e : size_add HEADER_SIZE (hdr a).size = HEADER_SIZE + (hdr a).size := by
      unfold size_add
      exact Nat.mod_eq_of_lt (by omega)
    have e1 : ptr_add (heap + a) HEADER_SIZE = heap + a + HEADER_SIZE := by
      unfold ptr_add
      exact Nat.mod_eq_of_lt (by omega)
    have e2 : ptr_add (heap + a + HEADER_SIZE) (hdr a).size
        = heap + a + HEADER_SIZE + (hdr a).size := by
      unfold ptr_add
      exact Nat.mod_eq_of_lt (by omega)
    have e3 : ptr_add (heap + a) (HEADER_SIZE + (hdr a).size)
        = heap + (a + HEADER_SIZE + (hdr a).size) := by
      unfold ptr_add
      rw [Nat.mod_eq_of_lt (by omega)]
      omega
    have h1 : heap + a < heap + HEAP_SIZE := by omega
    have h0 : ¬ heap + a < heap := by omega
    have h3 : ¬ heap + a + HEADER_SIZE > heap + HEAP_SIZE := by omega
    have h4 : ¬ heap + a + HEADER_SIZE + (hdr a).size > heap + HEAP_SIZE := by omega
    rw [validate_heap_loop]
    simp only [h1, if_true, if_neg h0, Nat.add_sub_cancel_left, e1, e2, if_neg h3, if_neg h4,
      e, e3]
    exact ih h2 f (by simpa using hf)

theorem seg_next_prev {hdr : Nat → block_header_t} {l : List Nat} {p c : Option Nat}
    {a n : Nat} (h : IsSeg hdr p c l none) (ha : a ∈ l) (hx : (hdr a).next = some n) :
    (hdr n).prev = some a := by
  induction l generalizing p c with
  | nil => cases ha
  | cons x l ih =>
    obtain ⟨-, -, h3⟩ := h
    rcases List.mem_cons.1 ha with hax | hal
    · subst hax
      cases l with
      | nil =>
        have : (hdr a).next = none := h3
        rw [this] at hx; cases hx
      | cons y l =>
        have hy : (hdr a).next = some y := h3.1
        rw [hy] at hx
        cases hx
        exact h3.2.1
    · exact ih h3 hal

theorem seg_prev_next {hdr : Nat → block_header_t} {l : List Nat} {p c : Option Nat}
    {a q : Nat} (h : IsSeg hdr p c l none) (ha : a ∈ l) (hx : (hdr a).prev = some q) :
    (p = some q ∧ c = some a) ∨ (hdr q).next = some a := by
  induction l generalizing p c with
  | nil => cases ha
  | cons x l ih =>
    obtain ⟨h1, h2, h3⟩ := h
    rcases List.mem_cons.1 ha with hax | hal
    · subst hax
      left
      exact ⟨by rw [← h2, hx], h1⟩
    · rcases ih h3 hal with ⟨h4, h5⟩ | h4
      · cases h4
        exact Or.inr h5
      · exact Or.inr h4

theorem find_first {p : Nat → Bool} {l1 l2 : List Nat} {b : Nat}
    (h1 : ∀ o ∈ l1, p o = false) (hb : p b = true) : (l1 ++ b :: l2).find? p = some b := by
  induction l1 with
  | nil => simp [List.find?_cons, hb]
  | cons a l1 ih =>
    rw [List.cons_append, List.find?_cons, h1 a (List.mem_cons_self _ _)]
    exact ih (fun o ho => h1 o (List.mem_cons_of_mem _ ho))

theorem request_size_eq_max (n : Nat) :
    request_size n = max (align_size n) MIN_BLOCK_SIZE := by
  unfold request_size
  split
  · rw [max_eq_right]; omega
  · rw [max_eq_left]; omega

theorem alloc_sum_all_free {hdr : Nat → block_header_t} {l : List Nat}
    (h : ∀ o ∈ l, (hdr o).is_free = true) : alloc_sum hdr l = 0 := by
  induction l with
  | nil => rfl
  | cons a l ih =>
    rw [alloc_sum_cons, if_pos (h a (List.mem_cons_self _ _)),
      ih (fun o ho => h o (List.mem_cons_of_mem _ ho))]

theorem inv_live_nil {s : State} {w fl : List Nat} (hI : Inv s [] w fl) :
    ∀ o ∈ w, (s.hdr o).is_free = true := by
  intro o ho
  rcases hf : (s.hdr o).is_free with _ | _
  · have := (hI.live_iff (o + HEADER_SIZE)).2 ⟨o, ho, hf, rfl⟩
    cases this
  · rfl

/-- A well-formed state without adjacent free blocks in which every block is
free is a single block. -/
theorem inv_all_free {s : State} {live w fl : List Nat} (hI : Inv s live w fl)
    (hfree : ∀ o ∈ w, (s.hdr o).is_free = true) :
    w = [0] ∧ fl = [0] ∧ (s.hdr 0).size = HEAP_SIZE - HEADER_SIZE := by
  obtain ⟨w2, rfl⟩ := core_walk_ne_nil hI.core
  have hw := hI.core.walk
  cases w2 with
  | cons y w3 =>
    exfalso
    have hy : y = 0 + HEADER_SIZE + (s.hdr 0).size := hw.2.1
    exact hI.noadj 0 (by simp) y (by simp) hy ⟨hfree 0 (by simp), hfree y (by simp)⟩
  | nil =>
    have hend : 0 + HEADER_SIZE + (s.hdr 0).size = HEAP_SIZE := hw.2
    refine ⟨rfl, ?_, by omega⟩
    have hmem : ∀ o, o ∈ fl ↔ o = 0 := by
      intro o
      rw [hI.core.mem_fl]
      simp only [List.mem_singleton]
      constructor
      · exact fun h => h.1
      · rintro rfl; exact ⟨rfl, hfree 0 (by simp)⟩
    have hnd := hI.core.nodup
    cases fl with
    | nil => exact absurd ((hmem 0).2 rfl) (by simp)
    | cons a t =>
      have ha : a = 0 := (hmem a).1 (List.mem_cons_self _ _)
      subst ha
      cases t with
      | nil => rfl
      | cons c t =>
        have hc : c = 0 := (hmem c).1 (by simp)
        subst hc
        simp at hnd

theorem inv_frag_count {s : State} {live w fl : List Nat} (hI : Inv s live w fl)
    {fuel : Nat} (hf : HEAP_SIZE ≤ fuel) :
    get_fragmentation_count fuel s = some fl.length := by
  unfold get_fragmentation_count
  rw [frag_loop_spec hI.core.chain fuel (core_fl_fuel hI.core hf) 0]
  have : fl.filter (fun o => (s.hdr o).is_free) = fl := by
    apply List.filter_eq_self.2
    intro o ho
    exact core_mem_free hI.core ho
  rw [this]
  simp

theorem reach_size_inv {s : State} {live : List Nat} (h : Reach s live) : SizeInv s := by
  obtain ⟨w, fl, hI⟩ := reach_inv h
  unfold SizeInv
  rw [core_arena_walk hI.core]
  exact hI.sizes

/-! ### A block that stays allocated -/

theorem held_take_self {s t : State} {live w w2 fl fl2 : List Nat} {b r : Nat}
    (hI : Inv s live w fl) (hb : b ∈ fl) (hT : TakeRel s t w w2 fl fl2 b r) :
    Held t w2 b r := by
  have hbw := core_mem_walk hI.core hb
  have hbf := core_mem_free hI.core hb
  refine ⟨hT.keep b hbw, hT.taken.1, hT.size_ge, ?_⟩
  intro a ha hab
  rcases hT.fresh a ha with haw | ⟨han, -⟩
  · have hne : a ≠ b := by simp only [HEADER_SIZE] at hab; omega
    obtain ⟨e1, e2⟩ := hT.same a haw hne
    rw [e1] at hab
    rw [e2]
    rcases hfa : (s.hdr a).is_free with _ | _
    · rfl
    · exact absurd ⟨hfa, hbf⟩ (hI.noadj a haw b hbw hab.symm)
  · simp only [HEADER_SIZE] at *; omega

theorem held_take_other {s t : State} {live w w2 fl fl2 : List Nat} {b r c k : Nat}
    (hI : Inv s live w fl) (hH : Held s w b r) (hc : c ∈ fl)
    (hT : TakeRel s t w w2 fl fl2 c k) : Held t w2 b r := by
  have hcw := core_mem_walk hI.core hc
  have hcf := core_mem_free hI.core hc
  have hun := hT.untouched b hH.mem hH.alloc
  refine ⟨hT.keep b hH.mem, by rw [hun]; exact hH.alloc, by rw [hun]; exact hH.big, ?_⟩
  intro a ha hab
  by_cases hac : a = c
  · rw [hac]; exact hT.taken.1
  · rcases hT.fresh a ha with haw | ⟨-, -, -, -, hend⟩
    · obtain ⟨e1, e2⟩ := hT.same a haw hac
      rw [e1] at hab
      rw [e2]
      exact hH.pred a haw hab
    · have := hH.pred c hcw (by omega)
      rw [hcf] at this; cases this

theorem held_malloc_all {fuel : Nat} (hf : HEAP_SIZE ≤ fuel) (ks : List Nat) :
    ∀ (s s2 : State) (live w fl : List Nat) (b r : Nat),
      Inv s live w fl → Held s w b r → malloc_all fuel s ks = some s2 →
      ∃ live2 w2 fl2, Inv s2 live2 w2 fl2 ∧ Held s2 w2 b r := by
  induction ks with
  | nil =>
    intro s s2 live w fl b r hI hH hrun
    cases hrun
    exact ⟨live, w, fl, hI, hH⟩
  | cons k ks ih =>
    intro s s2 live w fl b r hI hH hrun
    simp only [malloc_all] at hrun
    rcases inv_malloc (n := k) hI hf with ⟨h0, -⟩ | ⟨c, -, hfind, h0, w1, fl1, hI1, hT⟩
    · rw [h0] at hrun; cases hrun
    · rw [h0] at hrun
      have hcfl : c ∈ fl := List.mem_of_find?_eq_some hfind
      exact ih _ s2 _ w1 fl1 b r hI1 (held_take_other hI hH hcfl hT) hrun

theorem sublist_head {l t : List Nat} {b : Nat} (hs : l.Sublist (b :: t)) (hb : b ∈ l)
    (hn : b ∉ t) : ∃ l2, l = b :: l2 := by
  cases hs with
  | cons _ h => exact absurd (h.subset hb) hn
  | cons₂ _ h => exact ⟨_, rfl⟩

/-- Releasing a held block puts it at the head of the registry, still large
enough for the request it was allocated for. -/
theorem held_free {s : State} {live w fl : List Nat} {b r fuel : Nat}
    (hI : Inv s live w fl) (hH : Held s w b r) (hf : HEAP_SIZE ≤ fuel) :
    ∃ s2 live2 w2 fl2, my_free fuel s (some (b + HEADER_SIZE)) = some s2 ∧
      Inv s2 live2 w2 (b :: fl2) ∧ (s2.hdr b).is_free = true ∧ r ≤ (s2.hdr b).size := by
  obtain ⟨s1, s2, fl2, hC1, hsz1, hfr1, hC2, hrel, hrun, hI2⟩ :=
    inv_free hI hH.mem hH.alloc hf
  have hb1 : (s1.hdr b).is_free = true := by rw [hfr1]; simp
  have hb2 : (s2.hdr b).is_free = true := by rw [hrel.free_eq]; exact hb1
  have hbig : r ≤ (s2.hdr b).size := by
    have := hrel.size_le b
    rw [hsz1] at this
    exact le_trans hH.big this
  -- the block survives coalescing
  have hsurv : b ∈ surv_aux (fun o => (s1.hdr o).is_free) false w := by
    obtain ⟨l1, l2, hw⟩ := List.append_of_mem hH.mem
    rcases List.eq_nil_or_concat l1 with hl | ⟨l3, x, hl⟩
    · subst hl
      rw [hw]
      simp [surv_aux]
    · rw [List.concat_eq_append] at hl
      subst hl
      have hwalk := hI.core.walk
      rw [hw, List.append_assoc, List.singleton_append] at hwalk
      obtain ⟨m, -, hxm, hbx, -⟩ := walk_append.1 hwalk
      subst hxm
      have hxw : x ∈ w := by rw [hw]; simp
      have hxf := hH.pred x hxw hbx.symm
      have hxb : x ≠ b := by simp only [HEADER_SIZE] at hbx; omega
      have hx1 : (s1.hdr x).is_free = false := by rw [hfr1, if_neg hxb]; exact hxf
      rw [hw, List.append_assoc, List.singleton_append]
      exact surv_mem_of_pred _ l3 x b l2 false hx1
  have hbfl2 : b ∈ fl2 := (hC2.mem_fl b).2 ⟨hsurv, hb2⟩
  have hbnot : b ∉ fl := fun h => by
    have := core_mem_free hI.core h
    rw [hH.alloc] at this; cases this
  obtain ⟨t, ht⟩ := sublist_head hrel.sub hbfl2 hbnot
  subst ht
  exact ⟨s2, _, _, t, hrun, hI2, hb2, hbig⟩

/-! ### Exactness of allocation failure -/

theorem core_of_invs {s : State} (hP : PartitionInv s) (hR : RegistryInv s) :
    Core s (arena_walk s) (registry s) :=
  ⟨hP, hR.1, hR.2.1, hR.2.2.1⟩

theorem align_size_exact {n : Nat} (h : n + (ALIGNMENT - 1) < SIZE_MOD) :
    align_size n = (n + 7) / 8 * 8 := by
  rw [align_size_eq, Nat.mod_eq_of_lt (by simpa [ALIGNMENT] using h)]

/-- Two blocks of a walk whose spans both contain the position `x` are the
same block. -/
theorem walk_same_block {hdr : Nat → block_header_t} {l : List Nat} {pos e a b x : Nat}
    (h : IsWalk hdr pos l e) (ha : a ∈ l) (hb : b ∈ l)
    (ha1 : a ≤ x) (ha2 : x < a + HEADER_SIZE + (hdr a).size)
    (hb1 : b ≤ x) (hb2 : x < b + HEADER_SIZE + (hdr b).size) : a = b := by
  rcases Nat.lt_trichotomy a b with hlt | heq | hgt
  · have := walk_disjoint h ha hb hlt
    omega
  · exact heq
  · have := walk_disjoint h hb ha hgt
    omega

/-- A run of adjacent free blocks of `w` lies inside one free block of the
coalesced walk `w2`. -/
theorem run_covered {h1 h2 : Nat → block_header_t} {w w2 : List Nat}
    (hw2 : IsWalk h2 0 w2 HEAP_SIZE) (hna : NoAdjFree h2 w2) (hcov : Covers h1 h2 w w2)
    (run : List Nat) :
    ∀ (o e : Nat), IsWalk h1 o run e → run ≠ [] →
      (∀ x ∈ run, x ∈ w ∧ (h1 x).is_free = true) →
      ∀ S ∈ w2, (h2 S).is_free = true → S ≤ o → o < S + HEADER_SIZE + (h2 S).size →
        e ≤ S + HEADER_SIZE + (h2 S).size := by
  induction run with
  | nil => intro o e _ hne; exact absurd rfl hne
  | cons a rest ih =>
    intro o e hwalk _ hall S hS hSf hSo hSe
    obtain ⟨hao, hrest⟩ := hwalk
    subst hao
    obtain ⟨haw, haf⟩ := hall a (List.mem_cons_self _ _)
    obtain ⟨T, hT, hTf, hTa, hTe⟩ := hcov a haw haf
    have hST : T = S := walk_same_block hw2 hT hS hTa
      (by simp only [HEADER_SIZE] at *; omega) hSo hSe
    subst hST
    cases rest with
    | nil =>
      have : a + HEADER_SIZE + (h1 a).size = e := hrest
      omega
    | cons c rest2 =>
      have hc : c = a + HEADER_SIZE + (h1 a).size := hrest.1
      obtain ⟨hcw, hcf⟩ := hall c (by simp)
      obtain ⟨U, hU, hUf, hUc, hUe⟩ := hcov c hcw hcf
      have hUT : U = T := by
        rcases Nat.lt_trichotomy U T with hlt | heq | hgt
        · have := walk_disjoint hw2 hU hT hlt
          simp only [HEADER_SIZE] at *; omega
        · exact heq
        · exfalso
          have hd := walk_disjoint hw2 hT hU hgt
          have hadj : U = T + HEADER_SIZE + (h2 T).size := by omega
          exact hna T hT U hU hadj ⟨hTf, hUf⟩
      subst hUT
      rw [← hc] at hrest
      exact ih c e hrest (by simp) (fun x hx => hall x (List.mem_cons_of_mem _ hx)) U hU hUf
        hUc (by simp only [HEADER_SIZE] at *; omega)

theorem walk_span {hdr : Nat → block_header_t} {l : List Nat} {pos e : Nat}
    (h : IsWalk hdr pos l e) :
    pos + (l.map (fun o => (hdr o).size)).sum + l.length * HEADER_SIZE = e := by
  induction l generalizing pos with
  | nil => simpa using h
  | cons a l ih =>
    obtain ⟨ha, h2⟩ := h
    subst ha
    have := ih h2
    simp only [List.map_cons, List.sum_cons, List.length_cons]
    rw [← this]
    ring

/-- The outcome of `my_malloc` on a well-formed, initialised state. -/
theorem malloc_fail_iff {s : State} {w fl : List Nat} {n fuel : Nat} (hC : Core s w fl)
    (hi : s.allocator_initialized = true) (hn : n ≠ 0) (hf : HEAP_SIZE ≤ fuel) :
    ∃ s1 res sm w2 fl2, my_malloc fuel s n = some (s1, res) ∧
      merge_free_blocks fuel s = some sm ∧ Core sm w2 fl2 ∧ NoAdjFree sm.hdr w2 ∧
      MergeRel s sm w w2 fl fl2 ∧
      (res = none ↔
        ∀ o ∈ w2, (sm.hdr o).is_free = true → (sm.hdr o).size < request_size n) := by
  obtain ⟨sm, fl2, hm, hC2, hrel, hna, -⟩ := merge_spec hC hf
  have hlen := core_fl_fuel hC hf
  have hlen2 := core_fl_fuel hC2 hf
  cases hfind : fl.find? (fits s (request_size n)) with
  | some b =>
    refine ⟨(my_malloc_take s b (request_size n)).1, some (b + HEADER_SIZE), sm, _, fl2,
      malloc_hit hi hn hC.chain hlen hfind, hm, hC2, hna, hrel, ?_⟩
    have hbfl : b ∈ fl := List.mem_of_find?_eq_some hfind
    have hfit := (fits_iff s _ b).1 (List.find?_some hfind)
    obtain ⟨T, hT, hTf, hTb, hTe⟩ := hrel.covers b (core_mem_walk hC hbfl) hfit.1
    constructor
    · intro h; cases h
    · intro h
      have := h T hT hTf
      omega
  | none =>
    have hrun := malloc_miss hi hn hC.chain hlen hfind hm hC2.chain hlen2
    cases hfind2 : fl2.find? (fits sm (request_size n)) with
    | some b =>
      rw [hfind2] at hrun
      refine ⟨(my_malloc_take sm b (request_size n)).1, some (b + HEADER_SIZE), sm, _, fl2,
        hrun, hm, hC2, hna, hrel, ?_⟩
      have hbfl : b ∈ fl2 := List.mem_of_find?_eq_some hfind2
      have hfit := (fits_iff sm _ b).1 (List.find?_some hfind2)
      constructor
      · intro h; cases h
      · intro h
        have := h b (core_mem_walk hC2 hbfl) hfit.1
        omega
    | none =>
      rw [hfind2] at hrun
      refine ⟨sm, none, sm, _, fl2, hrun, hm, hC2, hna, hrel, ?_⟩
      refine ⟨fun _ => ?_, fun _ => rfl⟩
      intro o ho hfo
      have hofl : o ∈ fl2 := (hC2.mem_fl o).2 ⟨ho, hfo⟩
      have hnot := List.find?_eq_none.1 hfind2 o hofl
      rw [fits_iff] at hnot
      by_contra hge
      exact hnot ⟨hfo, by omega⟩

/-! ### A well-formed state with two adjacent free blocks -/

theorem two_free_walk : arena_walk two_free = [0, 1032] := by decide

theorem two_free_registry : registry two_free = [0, 1032] := by decide

theorem two_free_partition : PartitionInv two_free := by
  unfold PartitionInv
  rw [two_free_walk]
  exact ⟨rfl, rfl, rfl⟩

theorem two_free_registry_inv : RegistryInv two_free := by
  unfold RegistryInv
  rw [two_free_walk, two_free_registry]
  refine ⟨⟨rfl, rfl, rfl, rfl, rfl⟩, by decide, ?_, ?_⟩
  · intro o
    constructor
    · intro h
      refine ⟨h, ?_⟩
      simp only [List.mem_cons, List.mem_singleton, List.not_mem_nil, or_false] at h
      rcases h with rfl | rfl <;> rfl
    · exact fun h => h.1
  · intro o h hf
    simp only [List.mem_cons, List.mem_singleton, List.not_mem_nil, or_false] at h
    rcases h with rfl | rfl <;> cases hf

/-! ### A well-formed state after `allocator_cleanup` -/

theorem torn_down_walk : arena_walk torn_down = [0, 136] := by decide

theorem torn_down_registry : registry torn_down = [136] := by decide

theorem torn_down_partition : PartitionInv torn_down := by
  unfold PartitionInv
  rw [torn_down_walk]
  exact ⟨rfl, rfl, rfl⟩

theorem torn_down_registry_inv : RegistryInv torn_down := by
  unfold RegistryInv
  rw [torn_down_walk, torn_down_registry]
  refine ⟨⟨rfl, rfl, rfl⟩, by decide, ?_, ?_⟩
  · intro o
    simp only [List.mem_cons, List.mem_singleton, List.not_mem_nil, or_false]
    constructor
    · rintro rfl
      exact ⟨Or.inr rfl, rfl⟩
    · rintro ⟨rfl | rfl, hf⟩
      · cases hf
      · rfl
  · intro o h hf
    simp only [List.mem_cons, List.mem_singleton, List.not_mem_nil, or_false] at h
    rcases h with rfl | rfl
    · exact ⟨rfl, rfl⟩
    · cases hf

/-! ### Symbolic execution of the coalescing scenario -/

theorem free_live {s : State} {live w fl : List Nat} {p fuel : Nat}
    (hI : Inv s live w fl) (hp : p ∈ live) (hf : HEAP_SIZE ≤ fuel) :
    ∃ s2 w2 fl2, my_free fuel s (some p) = some s2 ∧ Inv s2 (live.erase p) w2 fl2 := by
  obtain ⟨b, hbw, hbf, rfl⟩ := (hI.live_iff p).1 hp
  obtain ⟨_, s2, fl2, -, -, -, -, -, hrun, hInv⟩ := inv_free hI hbw hbf hf
  exact ⟨s2, _, fl2, hrun, hInv⟩

/-- One allocation from a state whose only free block `b` is the last block of
the walk and is large enough to be split. -/
theorem malloc_last_block {s : State} {live w1 : List Nat} {b n fuel : Nat}
    (hI : Inv s live (w1 ++ [b]) [b]) (hn : n ≠ 0) (hf : HEAP_SIZE ≤ fuel)
    (hsp : request_size n + HEADER_SIZE + MIN_BLOCK_SIZE < (s.hdr b).size) :
    ∃ s1, my_malloc fuel s n = some (s1, some (b + HEADER_SIZE)) ∧
      Inv s1 ((b + HEADER_SIZE) :: live)
        ((w1 ++ [b]) ++ [b + HEADER_SIZE + request_size n])
        [b + HEADER_SIZE + request_size n] ∧
      (s1.hdr b).size = request_size n ∧ (s1.hdr b).is_free = false ∧
      (s1.hdr (b + HEADER_SIZE + request_size n)).size
        = (s.hdr b).size - request_size n - HEADER_SIZE ∧
      (∀ o ∈ w1, s1.hdr o = s.hdr o) := by
  have hbfl : b ∈ [b] := List.mem_singleton_self b
  have hbf := core_mem_free hI.core hbfl
  have hfit : fits s (request_size n) b = true :=
    (fits_iff s _ b).2 ⟨hbf, by omega⟩
  have hfind : [b].find? (fits s (request_size n)) = some b := by
    rw [List.find?_cons, hfit]
  have hrun := malloc_hit hI.init hn hI.core.chain (core_fl_fuel hI.core hf) hfind
  have hI' : Inv s live (w1 ++ b :: []) [b] := hI
  obtain ⟨hInv, -, -⟩ := inv_take_split hI' hbfl (request_size_ge n) (request_size_mod n) hsp
  obtain ⟨-, hsz, hfr, -, -, hun, -, -, -, -, hnbw⟩ := take_split hI'.core hbfl hsp
  have hnbb : b + HEADER_SIZE + request_size n ≠ b := by simp only [HEADER_SIZE]; omega
  refine ⟨(my_malloc_take s b (request_size n)).1, hrun, ?_, ?_, ?_, ?_, ?_⟩
  · have e : [b].erase b = [] := by simp
    rw [e] at hInv
    simpa using hInv
  · rw [hsz]; simp
  · rw [hfr]; simp
  · rw [hsz]; simp [hnbb]
  · intro o ho
    have how : o ∈ w1 ++ b :: [] := by simp [ho]
    have hob : o ≠ b := by
      rintro rfl
      have hnd := walk_nodup hI'.core.walk
      exact (List.nodup_append.1 hnd).2.2 ho (List.mem_singleton_self _)
    have hofl : o ∉ [b] := by simpa using hob
    exact hun o hofl (fun e => hnbw (e ▸ how))

theorem erase_mid {a b c : Nat} (hcb : c ≠ b) : [c, b, a].erase b = [c, a] := by
  simp [List.erase_cons, hcb]

theorem erase_last {a c : Nat} (hca : c ≠ a) : [c, a].erase a = [c] := by
  simp [List.erase_cons, hca]

/-! ### Sample reachable states -/

theorem reach_fresh : Reach fresh [] := Reach.init startState rfl

theorem reach_one_block : Reach one_block [32] :=
  Reach.malloc (r := some 32) HEAP_SIZE 100 reach_fresh rfl

theorem reach_two_blocks : Reach two_blocks [168, 32] :=
  Reach.malloc (r := some 168) HEAP_SIZE 100 reach_one_block rfl

theorem reach_first_released : Reach first_released [168] :=
  Reach.free HEAP_SIZE 32 reach_two_blocks (by decide) rfl

theorem reach_both_released : Reach both_released [] :=
  Reach.free HEAP_SIZE 168 reach_first_released (by decide) rfl

/-! ### Requests whose rounding wraps around -/

theorem request_size_wrapped {n : Nat} (h1 : SIZE_MOD - ALIGNMENT < n) (h2 : n < SIZE_MOD) :
    align_size n = 0 ∧ request_size n = MIN_BLOCK_SIZE := by
  have ha : align_size n = 0 := by
    rw [align_size_eq]
    have hM : SIZE_MOD = 2 ^ 64 := rfl
    have hA : ALIGNMENT = 8 := rfl
    have e : (n + 7) % SIZE_MOD = n + 7 - SIZE_MOD := by
      rw [Nat.mod_eq_sub_mod (by omega)]
      exact Nat.mod_eq_of_lt (by omega)
    rw [e]
    have : (n + 7 - SIZE_MOD) / 8 = 0 := by
      apply Nat.div_eq_of_lt
      omega
    rw [this]
  refine ⟨ha, ?_⟩
  unfold request_size
  rw [ha, if_pos (by decide)]

/-- In a reachable state with a non-empty registry a request whose rounding
wraps around is served with the first registry block, which is smaller than
the request. -/
theorem malloc_wrapped {s : State} {live : List Nat} (h : Reach s live) {n : Nat}
    (h1 : SIZE_MOD - ALIGNMENT < n) (h2 : n < SIZE_MOD) {b : Nat}
    (hb : s.free_list_head = some b) {fuel : Nat} (hf : HEAP_SIZE ≤ fuel) :
    ∃ s1, my_malloc fuel s n = some (s1, some (b + HEADER_SIZE)) ∧
      (s1.hdr b).is_free = false ∧ MIN_BLOCK_SIZE ≤ (s1.hdr b).size ∧ (s1.hdr b).size < n := by
  obtain ⟨w, fl, hI⟩ := reach_inv h
  obtain ⟨-, hr⟩ := request_size_wrapped h1 h2
  have hn : n ≠ 0 := by simp only [SIZE_MOD, ALIGNMENT] at h1; omega
  have hch := hI.core.chain
  cases fl with
  | nil =>
    have : s.free_list_head = none := hch
    rw [hb] at this; cases this
  | cons a rest =>
    have ha : a = b := by
      have := hch.1
      rw [hb] at this
      exact (Option.some.inj this).symm
    subst ha
    have hmem : a ∈ a :: rest := List.mem_cons_self _ _
    have haw := core_mem_walk hI.core hmem
    have haf := core_mem_free hI.core hmem
    have hsz := hI.sizes a haw
    have hfit : fits s (request_size n) a = true :=
      (fits_iff s _ a).2 ⟨haf, by rw [hr]; exact hsz.1⟩
    have hfind : (a :: rest).find? (fits s (request_size n)) = some a := by
      rw [List.find?_cons, hfit]
    have hrun := malloc_hit hI.init hn hI.core.chain (core_fl_fuel hI.core hf) hfind
    obtain ⟨w2, fl2, -, hT⟩ := inv_take hI hmem (request_size_ge n) (request_size_mod n)
      ((fits_iff s _ a).1 hfit).2
    refine ⟨(my_malloc_take s a (request_size n)).1, ?_, hT.taken.1, ?_, ?_⟩
    · rw [hrun]; rfl
    · exact le_trans (le_of_eq hr.symm) hT.size_ge
    · have h3 := hT.size_le
      have h4 := core_size_le hI.core haw
      simp only [SIZE_MOD, ALIGNMENT, HEAP_SIZE] at *
      omega

/-! ### The overflow check of `my_calloc` -/

theorem calloc_guard_iff {num size : Nat} :
    (num ≠ 0 ∧ (num * size) % SIZE_MOD / num ≠ size) ↔ SIZE_MOD ≤ num * size := by
  have hM : 0 < SIZE_MOD := by norm_num [SIZE_MOD]
  constructor
  · rintro ⟨h0, hne⟩
    by_contra hlt
    rw [Nat.mod_eq_of_lt (by omega), Nat.mul_div_cancel_left size (Nat.pos_of_ne_zero h0)] at hne
    exact hne rfl
  · intro hge
    have h0 : num ≠ 0 := by
      rintro rfl
      simp at hge
      omega
    refine ⟨h0, fun heq => ?_⟩
    have h1 := Nat.div_mul_le_self ((num * size) % SIZE_MOD) num
    rw [heq] at h1
    have h2 := Nat.mod_lt (num * size) hM
    have h3 : size * num = num * size := Nat.mul_comm _ _
    omega

theorem calloc_rejects {s : State} {fuel num size : Nat} (h : SIZE_MOD ≤ num * size) :
    my_calloc fuel s num size = some (s, none) := by
  unfold my_calloc
  simp only []
  rw [if_pos (calloc_guard_iff.2 h)]

theorem calloc_accepts {s : State} {fuel num size : Nat} (h : num * size < SIZE_MOD) :
    my_calloc fuel s num size =
      match my_malloc fuel s (num * size) with
      | none => none
      | some (s1, none) => some (s1, none)
      | some (s1, some p) =>
        match memset s1 p 0 (num * size) with
        | none => none
        | some s2 => some (s2, some p) := by
  unfold my_calloc
  simp only []
  rw [if_neg (fun hc => absurd (calloc_guard_iff.1 hc) (by omega)), Nat.mod_eq_of_lt h]

/-! ### `my_free` leaves the payload view alone -/

theorem merge_loop_data : ∀ (fuel : Nat) (s : State) (pos : Nat) (s2 : State),
    merge_loop fuel s pos = some s2 → s2.data = s.data := by
  intro fuel
  induction fuel with
  | zero => intro s pos s2 h; cases h
  | succ fuel ih =>
    intro s pos s2 h
    unfold merge_loop at h
    split at h
    · simp only [] at h
      split at h
      · have := ih _ _ _ h
        rw [this, setHdr_data, (remove_other s _).1]
      · exact ih _ _ _ h
    · cases h
      rfl

theorem free_data_eq {fuel : Nat} {s s2 : State} {ptr : Option Nat}
    (h : my_free fuel s ptr = some s2) : s2.data = s.data := by
  unfold my_free at h
  cases ptr with
  | none => cases h; rfl
  | some p =>
    simp only [] at h
    split at h
    · cases h; rfl
    · split at h
      · cases h; rfl
      · have := merge_loop_data _ _ _ _ h
        rw [this, (add_other _ _).1]
        rfl

/-! ### Requests whose rounding does not wrap -/

theorem le_request_size {n : Nat} (h : n + (ALIGNMENT - 1) < SIZE_MOD) : n ≤ request_size n := by
  have h1 : align_size n ≤ request_size n := by
    rw [request_size_eq_max]; exact le_max_left _ _
  have h2 := align_size_exact h
  omega

/-- A hit of `my_malloc` in a state with the invariant, with the block that was
taken. -/
theorem malloc_cases {s : State} {live w fl : List Nat} {n fuel : Nat}
    (hI : Inv s live w fl) (hf : HEAP_SIZE ≤ fuel) :
    my_malloc fuel s n = some (s, none) ∨
    ∃ c sa wa fla, my_malloc fuel s n = some (sa, some (c + HEADER_SIZE)) ∧
      c ∈ fl ∧ Inv sa ((c + HEADER_SIZE) :: live) wa fla ∧
      TakeRel s sa w wa fl fla c (request_size n) := by
  rcases inv_malloc (n := n) hI hf with ⟨h0, -⟩ | ⟨c, -, hfind, hrun, wa, fla, hIa, hT⟩
  · exact Or.inl h0
  · exact Or.inr ⟨c, _, wa, fla, hrun, List.mem_of_find?_eq_some hfind, hIa, hT⟩

/-! ### `my_calloc` and `my_realloc` for requests whose rounding does not wrap -/

/-- For a product `num * size` whose rounding does not wrap, `my_calloc` is
`my_malloc (num * size)` followed by the zero fill of the payload. -/
theorem calloc_as_malloc {s : State} {live : List Nat} (h : Reach s live) {num size : Nat}
    (hov : num * size + (ALIGNMENT - 1) < SIZE_MOD) {fuel : Nat} (hf : HEAP_SIZE ≤ fuel) :
    ∃ s1 r s2, my_malloc fuel s (num * size) = some (s1, r) ∧
      my_calloc fuel s num size = some (s2, r) ∧
      s2.hdr = s1.hdr ∧ s2.free_list_head = s1.free_list_head ∧
      s2.total_allocated = s1.total_allocated ∧ s2.total_free = s1.total_free ∧
      s2.allocator_initialized = s1.allocator_initialized ∧
      (r = none → s2 = s1) ∧
      ∀ p, r = some p →
        num * size ≤ (s1.hdr (p - HEADER_SIZE)).size ∧
        (∀ a, p ≤ a → a < p + num * size → s2.data a = 0) ∧
        (∀ a, ¬ (p ≤ a ∧ a < p + num * size) → s2.data a = s1.data a) := by
  obtain ⟨w, fl, hI⟩ := reach_inv h
  have hlt : num * size < SIZE_MOD := by omega
  rcases malloc_cases (n := num * size) hI hf with h0 | ⟨c, sa, wa, fla, hrun, -, -, hT⟩
  · refine ⟨s, none, s, h0, ?_, rfl, rfl, rfl, rfl, rfl, fun _ => rfl, fun p hp => by cases hp⟩
    rw [calloc_accepts hlt, h0]
  · have hfit : num * size ≤ (sa.hdr (c + HEADER_SIZE - HEADER_SIZE)).size := by
      rw [Nat.add_sub_cancel]
      exact le_trans (le_request_size hov) hT.size_ge
    have hms : memset sa (c + HEADER_SIZE) 0 (num * size) =
        some { sa with data := fun a =>
          if c + HEADER_SIZE ≤ a ∧ a < c + HEADER_SIZE + num * size then 0 else sa.data a } := by
      unfold memset
      rw [if_pos hfit]
    refine ⟨sa, some (c + HEADER_SIZE),
      { sa with data := fun a =>
          if c + HEADER_SIZE ≤ a ∧ a < c + HEADER_SIZE + num * size then 0 else sa.data a },
      hrun, ?_, rfl, rfl, rfl, rfl, rfl, (fun hr => nomatch hr), ?_⟩
    · rw [calloc_accepts hlt, hrun]
      simp only [hms]
    · intro p hp
      cases hp
      refine ⟨hfit, ?_, ?_⟩
      · intro a h1 h2
        simp only [if_pos (And.intro h1 h2)]
      · intro a hna
        simp only [if_neg hna]

/-- A growing `my_realloc` of a live block for a request whose rounding does
not wrap: it returns `NULL` and the state it was given, or it moves the
payload to a new block and releases the old one. -/
theorem realloc_grow {s : State} {live : List Nat} (h : Reach s live) {p n : Nat}
    (hp : p ∈ live) (hn : (s.hdr (p - HEADER_SIZE)).size < n)
    (hov : n + (ALIGNMENT - 1) < SIZE_MOD) {fuel : Nat} (hf : HEAP_SIZE ≤ fuel) :
    ∃ s1 r, my_realloc fuel s (some p) n = some (s1, r) ∧
      (r = none → s1 = s) ∧
      ∀ q, r = some q →
        q ≠ p ∧
        (∀ i, i < (s.hdr (p - HEADER_SIZE)).size → s1.data (q + i) = s.data (p + i)) ∧
        (q - HEADER_SIZE ∈ arena_walk s1 ∧ (s1.hdr (q - HEADER_SIZE)).is_free = false ∧
          n ≤ (s1.hdr (q - HEADER_SIZE)).size) ∧
        (∃ o ∈ arena_walk s1, (s1.hdr o).is_free = true ∧ o ≤ p - HEADER_SIZE ∧
          p + (s.hdr (p - HEADER_SIZE)).size ≤ o + HEADER_SIZE + (s1.hdr o).size) ∧
        Reach s1 (q :: live.erase p) := by
  obtain ⟨w, fl, hI⟩ := reach_inv h
  obtain ⟨b, hbw, hbf, rfl⟩ := (hI.live_iff p).1 hp
  rw [Nat.add_sub_cancel] at hn ⊢
  have hn0 : n ≠ 0 := by omega
  have hnfit : ¬ n ≤ (s.hdr b).size := by omega
  have hunf : my_realloc fuel s (some (b + HEADER_SIZE)) n =
      match my_malloc fuel s n with
      | none => none
      | some (s1, none) => some (s1, none)
      | some (s1, some new_ptr) =>
        match memcpy s1 new_ptr (b + HEADER_SIZE) (s.hdr b).size with
        | none => none
        | some s2 =>
          match my_free fuel s2 (some (b + HEADER_SIZE)) with
          | none => none
          | some s3 => some (s3, some new_ptr) := by
    unfold my_realloc
    simp only [if_neg hn0, Nat.add_sub_cancel, if_neg hnfit]
  rcases malloc_cases (n := n) hI hf with h0 | ⟨c, sa, wa, fla, hrun, hcfl, hIa, hT⟩
  · refine ⟨s, none, ?_, fun _ => rfl, fun q hq => by cases hq⟩
    rw [hunf, h0]
  · have hcb : c ≠ b := by
      rintro rfl
      have := core_mem_free hI.core hcfl
      rw [hbf] at this; cases this
    have hfit : (s.hdr b).size ≤ (sa.hdr (c + HEADER_SIZE - HEADER_SIZE)).size := by
      rw [Nat.add_sub_cancel]
      have := le_trans (le_request_size hov) hT.size_ge
      omega
    have hcp : memcpy sa (c + HEADER_SIZE) (b + HEADER_SIZE) (s.hdr b).size =
        some { sa with
          data := fun a =>
            if c + HEADER_SIZE ≤ a ∧ a < c + HEADER_SIZE + (s.hdr b).size then
              sa.data (b + HEADER_SIZE + (a - (c + HEADER_SIZE)))
            else sa.data a } := by
      unfold memcpy
      rw [if_pos hfit]
    have hIc := inv_data hIa (fun a =>
      if c + HEADER_SIZE ≤ a ∧ a < c + HEADER_SIZE + (s.hdr b).size then
        sa.data (b + HEADER_SIZE + (a - (c + HEADER_SIZE)))
      else sa.data a)
    have hbwa : b ∈ wa := hT.keep b hbw
    have hsab : sa.hdr b = s.hdr b := hT.untouched b hbw hbf
    have hbfa : (sa.hdr b).is_free = false := by rw [hsab]; exact hbf
    obtain ⟨sx, s2, fl2, -, hszx, hfrx, hC2, hrel, hfree, hI2⟩ := inv_free hIc hbwa hbfa hf
    have hw2 := core_arena_walk hC2
    have hlive : ((c + HEADER_SIZE) :: live).erase (b + HEADER_SIZE) =
        (c + HEADER_SIZE) :: live.erase (b + HEADER_SIZE) :=
      List.erase_cons_tail (by simpa using hcb)
    rw [hlive] at hI2
    have hrun2 : my_realloc fuel s (some (b + HEADER_SIZE)) n = some (s2, some (c + HEADER_SIZE)) := by
      rw [hunf, hrun]
      simp only [hcp, hfree]
    refine ⟨s2, some (c + HEADER_SIZE), hrun2, (fun hr => nomatch hr), ?_⟩
    intro q hq
    cases hq
    rw [Nat.add_sub_cancel]
    refine ⟨by simpa using hcb, ?_, ?_, ?_, ?_⟩
    · intro i hi
      rw [free_data_eq hfree]
      simp only []
      rw [if_pos ⟨by omega, by omega⟩, hT.data]
      congr 1
      omega
    · obtain ⟨c2, hc2w, hc2f, hc2⟩ :=
        (hI2.live_iff (c + HEADER_SIZE)).1 (List.mem_cons_self _ _)
      have : c = c2 := by omega
      subst this
      rw [hw2]
      refine ⟨hc2w, hc2f, ?_⟩
      have h1 := hrel.size_le c
      have h2 := hszx c
      simp only [] at h2
      have h3 := le_trans (le_request_size hov) hT.size_ge
      omega
    · have hbx : (sx.hdr b).is_free = true := by rw [hfrx b, if_pos rfl]
      obtain ⟨o, how, hof, hle, hend⟩ := hrel.covers b hbwa hbx
      rw [hw2]
      refine ⟨o, how, hof, hle, ?_⟩
      have h2 := hszx b
      simp only [] at h2
      rw [hsab] at h2
      omega
    · exact Reach.realloc_moved fuel (b + HEADER_SIZE) n (c + HEADER_SIZE) h hp hn0
        (by simpa using hcb) hrun2

/-! ### Invariants of reachable states, by name -/

theorem inv_partition {s : State} {live w fl : List Nat} (hI : Inv s live w fl) :
    PartitionInv s := by
  unfold PartitionInv
  rw [core_arena_walk hI.core]
  exact hI.core.walk

theorem inv_registry {s : State} {live w fl : List Nat} (hI : Inv s live w fl) :
    RegistryInv s := by
  unfold RegistryInv
  rw [core_arena_walk hI.core, core_registry hI.core]
  exact ⟨hI.core.chain, hI.core.nodup, hI.core.mem_fl, hI.links⟩

theorem reach_partition {s : State} {live : List Nat} (h : Reach s live) : PartitionInv s := by
  obtain ⟨w, fl, hI⟩ := reach_inv h
  exact inv_partition hI

theorem reach_registry {s : State} {live : List Nat} (h : Reach s live) : RegistryInv s := by
  obtain ⟨w, fl, hI⟩ := reach_inv h
  exact inv_registry hI

theorem reach_init {s : State} {live : List Nat} (h : Reach s live) :
    s.allocator_initialized = true := by
  obtain ⟨w, fl, hI⟩ := reach_inv h
  exact hI.init

/-! ### `merge_free_blocks` on a state without adjacent free blocks -/

theorem inv_merge_id {s : State} {live w fl : List Nat} (hI : Inv s live w fl) {fuel : Nat}
    (hf : HEAP_SIZE ≤ fuel) : merge_free_blocks fuel s = some s := by
  obtain ⟨s2, fl2, hm, -, -, -, hid⟩ := merge_spec hI.core hf
  rw [hm, hid hI.noadj]

/-! ### The totals across `my_malloc` and `my_free` -/

theorem inv_totals_lt {s : State} {live w fl : List Nat} (hI : Inv s live w fl) :
    s.total_allocated < SIZE_MOD ∧ s.total_free < SIZE_MOD := by
  have := hI.tsum
  have hM := SIZE_MOD_eq
  simp only [HEAP_SIZE, HEADER_SIZE] at this
  omega

theorem malloc_totals {s s1 : State} {live w fl : List Nat} {n fuel q : Nat}
    (hI : Inv s live w fl) (h : my_malloc fuel s n = some (s1, some q)) :
    (s1.hdr (q - HEADER_SIZE)).size ≤ s.total_free ∧
    s1.total_free = s.total_free - (s1.hdr (q - HEADER_SIZE)).size ∧
    s1.total_allocated = s.total_allocated + (s1.hdr (q - HEADER_SIZE)).size ∧
    s1.total_allocated < SIZE_MOD := by
  have h2 := malloc_mono h (le_max_left fuel HEAP_SIZE)
  rcases malloc_cases (n := n) hI (le_max_right fuel HEAP_SIZE) with h0 | ⟨c, sa, wa, fla, h0, -, hIa, hT⟩
  · rw [h0] at h2
    cases h2
  · rw [h0] at h2
    cases h2
    rw [Nat.add_sub_cancel]
    have h3 := hT.tfree
    have h4 := hT.talloc
    have h5 := (inv_totals_lt hIa).1
    omega

theorem free_totals {s s1 : State} {live w fl : List Nat} {p fuel : Nat}
    (hI : Inv s live w fl) (hp : p ∈ live) (h : my_free fuel s (some p) = some s1) :
    (s.hdr (p - HEADER_SIZE)).size ≤ s.total_allocated ∧
    s1.total_allocated = s.total_allocated - (s.hdr (p - HEADER_SIZE)).size ∧
    s1.total_free = s.total_free + (s.hdr (p - HEADER_SIZE)).size ∧
    s1.total_free < SIZE_MOD := by
  obtain ⟨b, hbw, hbf, rfl⟩ := (hI.live_iff p).1 hp
  rw [Nat.add_sub_cancel]
  have h2 := free_mono h (le_max_left fuel HEAP_SIZE)
  obtain ⟨sx, hCx, -, -, -, hta, -, -, -, hrun⟩ :=
    free_pre hI.core hbw hbf (max fuel HEAP_SIZE)
  obtain ⟨sm, flm, hm, -, hrel, -, -⟩ := merge_spec hCx (le_max_right fuel HEAP_SIZE)
  obtain ⟨_, sb, fl2, -, -, -, -, -, hrun2, hIb⟩ :=
    inv_free hI hbw hbf (le_max_right fuel HEAP_SIZE)
  have e0 : sb = s1 := by
    rw [hrun2] at h2
    exact Option.some.inj h2
  subst e0
  have e2 : sm = sb := by
    rw [hrun, hm] at hrun2
    exact Option.some.inj hrun2
  subst e2
  have hle : (s.hdr b).size ≤ s.total_allocated := by
    rw [hI.talloc]
    exact alloc_sum_mem_le s.hdr hbw hbf
  have hlt := inv_totals_lt hI
  have hlt2 := inv_totals_lt hIb
  have hs := hI.tsum
  have hs2 := hIb.tsum
  have e1 : sm.total_allocated = s.total_allocated - (s.hdr b).size := by
    rw [hrel.talloc_eq, hta, size_sub_eq hle hlt.1]
  refine ⟨hle, e1, ?_, hlt2.2⟩
  omega

/-! ### Further sample reachable states -/

theorem reach_probe_a : Reach probe_a [32] :=
  Reach.malloc (r := some 32) HEAP_SIZE 72 reach_fresh rfl

theorem reach_probe_b : Reach probe_b [136, 32] :=
  Reach.malloc (r := some 136) HEAP_SIZE 16 reach_probe_a rfl

theorem reach_split_probe : Reach split_probe [136] :=
  Reach.free HEAP_SIZE 32 reach_probe_b (by decide) rfl

/-! ### `validate_heap` on arbitrary header contents -/

/-- When no pointer sum wraps, the loop of `validate_heap` follows the arena
walk and answers whether it lands on `HEAP_SIZE`. -/
theorem validate_loop_decides (hdr : Nat → block_header_t) (heap : Nat) :
    ∀ (f k pos : Nat), pos ≤ HEAP_SIZE → HEAP_SIZE < pos + HEADER_SIZE * f →
      HEAP_SIZE < pos + HEADER_SIZE * k →
      (∀ o ∈ walk_from hdr k pos, heap + HEAP_SIZE + HEADER_SIZE + (hdr o).size < SIZE_MOD) →
      ∃ b, validate_heap_loop hdr heap f (heap + pos) = some b ∧
        (b = true ↔ IsWalk hdr pos (walk_from hdr k pos) HEAP_SIZE) := by
  have hH : HEADER_SIZE = 32 := rfl
  intro f
  induction f with
  | zero =>
    intro k pos h1 h2
    have h2a : HEAP_SIZE < pos + 32 * 0 := h2
    omega
  | succ f ih =>
    intro k pos h1 h2 h3 hsz
    have h2a : HEAP_SIZE < pos + 32 * (f + 1) := h2
    have h3a : HEAP_SIZE < pos + 32 * k := h3
    clear h2 h3
    obtain ⟨k, rfl⟩ : ∃ j, k = j + 1 := ⟨k - 1, by omega⟩
    by_cases hpos : pos < HEAP_SIZE
    · have hwf : walk_from hdr (k + 1) pos
          = pos :: walk_from hdr k (pos + HEADER_SIZE + (hdr pos).size) := by
        simp [walk_from, hpos]
      have hb := hsz pos (by rw [hwf]; exact List.mem_cons_self _ _)
      have e1 : ptr_add (heap + pos) HEADER_SIZE = heap + pos + HEADER_SIZE :=
        Nat.mod_eq_of_lt (by omega)
      have e2 : ptr_add (heap + pos + HEADER_SIZE) (hdr pos).size
          = heap + pos + HEADER_SIZE + (hdr pos).size :=
        Nat.mod_eq_of_lt (by omega)
      have e3 : size_add HEADER_SIZE (hdr pos).size = HEADER_SIZE + (hdr pos).size :=
        Nat.mod_eq_of_lt (by omega)
      have e4 : ptr_add (heap + pos) (HEADER_SIZE + (hdr pos).size)
          = heap + (pos + HEADER_SIZE + (hdr pos).size) := by
        unfold ptr_add
        rw [Nat.mod_eq_of_lt (by omega)]
        omega
      have h0 : ¬ heap + pos < heap := by omega
      have hc : heap + pos < heap + HEAP_SIZE := by omega
      rw [hwf, validate_heap_loop]
      simp only [hc, if_true, if_neg h0, Nat.add_sub_cancel_left, e1, e2, e3, e4]
      by_cases hc1 : heap + pos + HEADER_SIZE > heap + HEAP_SIZE
      · rw [if_pos hc1]
        refine ⟨false, rfl, ?_⟩
        constructor
        · intro hf; cases hf
        · intro hw
          have := walk_le hw.2
          omega
      · rw [if_neg hc1]
        by_cases hc2 : heap + pos + HEADER_SIZE + (hdr pos).size > heap + HEAP_SIZE
        · rw [if_pos hc2]
          refine ⟨false, rfl, ?_⟩
          constructor
          · intro hf; cases hf
          · intro hw
            have := walk_le hw.2
            omega
        · rw [if_neg hc2]
          have g1 : HEAP_SIZE < pos + HEADER_SIZE + (hdr pos).size + 32 * f := by omega
          have g2 : HEAP_SIZE < pos + HEADER_SIZE + (hdr pos).size + 32 * k := by omega
          obtain ⟨b, hb1, hb2⟩ := ih k (pos + HEADER_SIZE + (hdr pos).size)
            (by omega) g1 g2
            (fun o ho => hsz o (by rw [hwf]; exact List.mem_cons_of_mem _ ho))
          refine ⟨b, hb1, hb2.trans ?_⟩
          constructor
          · intro hw; exact ⟨rfl, hw⟩
          · intro hw; exact hw.2
    · have hp : pos = HEAP_SIZE := by omega
      have hwf : walk_from hdr (k + 1) pos = [] := by
        simp [walk_from, hpos]
      rw [hwf, validate_heap_loop, if_neg (by omega)]
      exact ⟨true, rfl, by simp [IsWalk, hp]⟩

/-- On every arena content in which no visited size makes a pointer sum wrap,
`validate_heap` returns, and it returns true exactly when the arena walk lands
on `HEAP_SIZE`. -/
theorem validate_decides (s : State) (heap : Nat)
    (hsz : ∀ o ∈ arena_walk s, heap + HEAP_SIZE + HEADER_SIZE + (s.hdr o).size < SIZE_MOD)
    {fuel : Nat} (hf : HEAP_SIZE ≤ fuel) :
    ∃ b, validate_heap heap fuel s = some b ∧ (b = true ↔ PartitionInv s) := by
  have h := validate_loop_decides s.hdr heap fuel HEAP_SIZE 0 (Nat.zero_le _)
    (by simp only [HEADER_SIZE, HEAP_SIZE] at *; omega)
    (by simp only [HEADER_SIZE, HEAP_SIZE]; omega) hsz
  simpa [validate_heap, PartitionInv, arena_walk] using h

/-- The loop of `validate_heap` at a header whose size makes
`HEADER_SIZE + size` wrap to 0 stays at that header. -/
theorem validate_loop_stuck (hdr : Nat → block_header_t) (heap : Nat)
    (hh : heap + HEAP_SIZE < SIZE_MOD) (h0 : (hdr 0).size = SIZE_MOD - HEADER_SIZE) :
    ∀ fuel, validate_heap_loop hdr heap fuel heap = none := by
  have hH : HEADER_SIZE = 32 := rfl
  have hS : HEAP_SIZE = 1048576 := rfl
  have hM := SIZE_MOD_eq
  intro fuel
  induction fuel with
  | zero => rfl
  | succ f ih =>
    have e1 : ptr_add heap HEADER_SIZE = heap + HEADER_SIZE :=
      Nat.mod_eq_of_lt (by omega)
    have e2 : ptr_add (heap + HEADER_SIZE) (SIZE_MOD - HEADER_SIZE) = heap := by
      unfold ptr_add
      have : heap + HEADER_SIZE + (SIZE_MOD - HEADER_SIZE) = heap + SIZE_MOD := by omega
      rw [this, Nat.add_mod_right]
      exact Nat.mod_eq_of_lt (by omega)
    have e3 : size_add HEADER_SIZE (SIZE_MOD - HEADER_SIZE) = 0 := by
      unfold size_add
      have : HEADER_SIZE + (SIZE_MOD - HEADER_SIZE) = SIZE_MOD := by omega
      rw [this, Nat.mod_self]
    have e4 : ptr_add heap 0 = heap := Nat.mod_eq_of_lt (by omega)
    rw [validate_heap_loop]
    simp only [Nat.sub_self, h0, e1, e2, e3, e4]
    rw [if_pos (by omega), if_neg (by omega), if_neg (by omega), if_neg (by omega)]
    exact ih

/-! ### `split_block` on its own -/

/-- The other case of `split_block`: nothing changes, and `my_malloc_take`
hands out the block with the size it had. -/
theorem split_no {s : State} {b r : Nat} (hr : r ≤ (s.hdr b).size)
    (hsz : (s.hdr b).size ≤ HEAP_SIZE)
    (hns : (s.hdr b).size ≤ r + HEADER_SIZE + MIN_BLOCK_SIZE) :
    split_block s b r = (s, none) ∧
    ((my_malloc_take s b r).1.hdr b).size = (s.hdr b).size ∧
    ((my_malloc_take s b r).1.hdr b).is_free = false ∧
    (my_malloc_take s b r).2 = some (b + HEADER_SIZE) := by
  have hthr := split_threshold hr hsz
  have h1 : split_block s b r = (s, none) := by
    unfold split_block
    rw [hthr, if_pos hns]
  have h2 : split_block (remove_from_free_list s b) b r = (remove_from_free_list s b, none) := by
    unfold split_block
    rw [remove_size, hthr, if_pos hns]
  refine ⟨h1, ?_, ?_, rfl⟩
  · simp only [my_malloc_take, h2, setHdr_hdr, if_true]
    exact remove_size s b b
  · simp only [my_malloc_take, h2, setHdr_hdr, if_true]

/-! ### Maximal runs of free blocks under `merge_free_blocks` -/

theorem surv_absorb (f : Nat → Bool) (rest post : List Nat)
    (h : ∀ o ∈ rest, f o = true) : surv_aux f true (rest ++ post) = surv_aux f true post := by
  induction rest with
  | nil => rfl
  | cons a rest ih =>
    have ha : f a = true := h a (List.mem_cons_self _ _)
    simp only [List.cons_append, surv_aux, ha, Bool.and_self, if_true]
    exact ih (fun o ho => h o (List.mem_cons_of_mem _ ho))

/-- A run of free blocks whose predecessor in the walk is not free leaves its
first block, and nothing else, among the survivors. -/
theorem surv_run (f : Nat → Bool) (a : Nat) (rest post : List Nat)
    (hrun : ∀ o ∈ a :: rest, f o = true) :
    ∀ (pre : List Nat) (pf : Bool), (pre = [] → pf = false) →
      (∀ p x, pre = p ++ [x] → f x = false) →
      surv_aux f pf (pre ++ (a :: rest) ++ post)
        = surv_aux f pf pre ++ a :: surv_aux f true post := by
  have ha : f a = true := hrun a (List.mem_cons_self _ _)
  intro pre
  induction pre with
  | nil =>
    intro pf hpf _
    rw [hpf rfl]
    simp only [List.nil_append, List.cons_append, surv_aux, Bool.false_and, ha]
    simp only [Bool.false_eq_true, if_false, List.cons.injEq, true_and]
    exact surv_absorb f rest post (fun o ho => hrun o (List.mem_cons_of_mem _ ho))
  | cons x pre ih =>
    intro pf _ hlast
    have hstep := ih (f x)
      (fun hnil => hlast [] x (by rw [hnil]; rfl))
      (fun p y hp => hlast (x :: p) y (by rw [hp]; rfl))
    simp only [List.cons_append, surv_aux]
    split
    · rename_i hcond
      have hfx : f x = true := by
        cases hx : f x with
        | true => rfl
        | false => rw [hx] at hcond; simp at hcond
      rw [hfx] at hstep
      simpa using hstep
    · simpa using hstep

theorem surv_after_run (f : Nat → Bool) (post : List Nat)
    (hpost : ∀ x p, post = x :: p → f x = false) :
    post = [] ∧ surv_aux f true post = [] ∨
    ∃ c p, post = c :: p ∧ surv_aux f true post = c :: surv_aux f false p := by
  cases post with
  | nil => exact Or.inl ⟨rfl, rfl⟩
  | cons c p =>
    have hc := hpost c p rfl
    exact Or.inr ⟨c, p, rfl, by simp [surv_aux, hc]⟩

/-- What `merge_free_blocks` makes of a maximal run of adjacent free blocks. -/
theorem merge_run {s sm : State} {fl2 : List Nat} {pre post rest : List Nat} {a : Nat}
    (hw : IsWalk s.hdr 0 (pre ++ (a :: rest) ++ post) HEAP_SIZE)
    (hC2 : Core sm (surv_aux (fun o => (s.hdr o).is_free) false (pre ++ (a :: rest) ++ post)) fl2)
    (hfree : ∀ o, (sm.hdr o).is_free = (s.hdr o).is_free)
    (hrun : ∀ o ∈ a :: rest, (s.hdr o).is_free = true)
    (hpre : ∀ p x, pre = p ++ [x] → (s.hdr x).is_free = false)
    (hpost : ∀ x p, post = x :: p → (s.hdr x).is_free = false) :
    a ∈ surv_aux (fun o => (s.hdr o).is_free) false (pre ++ (a :: rest) ++ post) ∧
    (sm.hdr a).is_free = true ∧
    (sm.hdr a).size
      = ((a :: rest).map (fun o => (s.hdr o).size)).sum + rest.length * HEADER_SIZE ∧
    ∀ o ∈ rest,
      o ∉ surv_aux (fun o => (s.hdr o).is_free) false (pre ++ (a :: rest) ++ post) ∧
      o ∉ fl2 := by
  have hsurv := surv_run (fun o => (s.hdr o).is_free) a rest post hrun pre false
    (fun _ => rfl) hpre
  have hwalk2 := hC2.walk
  rw [hsurv] at hwalk2 hC2 ⊢
  have hmem : a ∈ surv_aux (fun o => (s.hdr o).is_free) false pre
      ++ a :: surv_aux (fun o => (s.hdr o).is_free) true post := by simp
  -- the end of the run in the old walk
  have hw' := hw
  rw [List.append_assoc] at hw'
  obtain ⟨m1, -, hw1⟩ := walk_append.1 hw'
  obtain ⟨e, hwr, hwp⟩ := walk_append.1 hw1
  have ham : a = m1 := hwr.1
  subst ham
  have hspan := walk_span hwr
  -- the end of the merged block in the new walk
  obtain ⟨m2, -, hw2⟩ := walk_append.1 hwalk2
  have hend : a + HEADER_SIZE + (sm.hdr a).size = e := by
    have hw3 : IsWalk sm.hdr (a + HEADER_SIZE + (sm.hdr a).size)
        (surv_aux (fun o => (s.hdr o).is_free) true post) HEAP_SIZE := by
      have := hw2.1
      subst this
      exact hw2.2
    rcases surv_after_run (fun o => (s.hdr o).is_free) post hpost with
      ⟨hp, hs⟩ | ⟨c, p, hp, hs⟩
    · rw [hs] at hw3
      rw [hp] at hwp
      have h1 : a + HEADER_SIZE + (sm.hdr a).size = HEAP_SIZE := hw3
      have h2 : e = HEAP_SIZE := hwp
      omega
    · rw [hs] at hw3
      rw [hp] at hwp
      have h1 : c = a + HEADER_SIZE + (sm.hdr a).size := hw3.1
      have h2 : c = e := hwp.1
      omega
  have hnd := walk_nodup hw
  refine ⟨hmem, ?_, ?_, ?_⟩
  · rw [hfree]; exact hrun a (List.mem_cons_self _ _)
  · simp only [List.map_cons, List.sum_cons, List.length_cons] at hspan ⊢
    have e1 : (rest.length + 1) * HEADER_SIZE = rest.length * HEADER_SIZE + HEADER_SIZE := by
      ring
    rw [e1] at hspan
    omega
  · intro o ho
    have hnot : o ∉ surv_aux (fun o => (s.hdr o).is_free) false pre
        ++ a :: surv_aux (fun o => (s.hdr o).is_free) true post := by
      rw [List.append_assoc] at hnd
      have hd := List.nodup_append.1 hnd
      have hd2 := List.nodup_append.1 hd.2.1
      have hcons := List.nodup_cons.1 hd2.1
      intro hin
      rcases List.mem_append.1 hin with h1 | h1
      · have h2 := (surv_sublist _ false pre).subset h1
        exact hd.2.2 h2 (List.mem_append_left _ (List.mem_cons_of_mem _ ho))
      · rcases List.mem_cons.1 h1 with h3 | h3
        · subst h3
          exact hcons.1 ho
        · have h4 := (surv_sublist _ true post).subset h3
          exact hd2.2.2 (List.mem_cons_of_mem _ ho) h4
    exact ⟨hnot, fun hfl => hnot (core_mem_walk hC2 hfl)⟩

/-! ### Registry length and the free blocks of the walk -/

theorem core_fl_count {s : State} {w fl : List Nat} (hC : Core s w fl) :
    fl.length = (w.filter (fun o => (s.hdr o).is_free)).length := by
  apply List.Perm.length_eq
  apply (List.perm_ext_iff_of_nodup hC.nodup ((walk_nodup hC.walk).filter _)).2
  intro o
  rw [hC.mem_fl, List.mem_filter]

/-! ### Series of calls stay among the reachable states -/

theorem reach_malloc_many (fuel n : Nat) :
    ∀ (k : Nat) (s s1 : State) (live : List Nat) (ps : List (Option Nat)),
      Reach s live → malloc_many fuel n k s = some (s1, ps) →
      Reach s1 (lives_after ps live) := by
  intro k
  induction k with
  | zero =>
    intro s s1 live ps h hm
    cases hm
    exact h
  | succ k ih =>
    intro s s1 live ps h hm
    unfold malloc_many at hm
    cases h1 : my_malloc fuel s n with
    | none => rw [h1] at hm; cases hm
    | some x =>
      obtain ⟨sa, p⟩ := x
      rw [h1] at hm
      simp only [] at hm
      cases h2 : malloc_many fuel n k sa with
      | none => rw [h2] at hm; cases hm
      | some y =>
        obtain ⟨sb, qs⟩ := y
        rw [h2] at hm
        cases hm
        exact ih sa _ _ qs (Reach.malloc fuel n h h1) h2

theorem reach_free_each (fuel : Nat) :
    ∀ (ps : List (Option Nat)) (s s1 : State) (live : List Nat),
      Reach s live → all_live ps live = true → free_each fuel s ps = some s1 →
      Reach s1 (released ps live) := by
  intro ps
  induction ps with
  | nil =>
    intro s s1 live h _ hf
    cases hf
    exact h
  | cons p ps ih =>
    intro s s1 live h hl hf
    unfold free_each at hf
    cases h1 : my_free fuel s p with
    | none => rw [h1] at hf; cases hf
    | some sa =>
      rw [h1] at hf
      cases p with
      | none => exact ih sa s1 live (Reach.free_null fuel h h1) hl hf
      | some q =>
        simp only [all_live, Bool.and_eq_true, decide_eq_true_eq] at hl
        exact ih sa s1 _ (Reach.free fuel q h hl.1 h1) hl.2 hf

theorem ten_blocks_run :
    malloc_many HEAP_SIZE 50 10 fresh = some (ten_blocks,
      [some 32, some 120, some 208, some 296, some 384, some 472, some 560, some 648,
        some 736, some 824]) := rfl

theorem fragmented_run : fragmentation_scenario HEAP_SIZE = some fragmented := rfl

theorem fragmented_free :
    free_each HEAP_SIZE ten_blocks [some 120, some 296, some 472, some 648, some 824]
      = some fragmented := rfl

theorem reach_ten_blocks :
    Reach ten_blocks [824, 736, 648, 560, 472, 384, 296, 208, 120, 32] :=
  reach_malloc_many HEAP_SIZE 50 10 fresh ten_blocks [] _ reach_fresh ten_blocks_run

theorem reach_fragmented : Reach fragmented [736, 560, 384, 208, 32] :=
  reach_free_each HEAP_SIZE _ ten_blocks fragmented _ reach_ten_blocks (by decide)
    fragmented_free

/-! ### Allocation followed by release of the same block -/

theorem walk_sizes_eq {h1 h2 : Nat → block_header_t} {l : List Nat} {pos e : Nat}
    (w1 : IsWalk h1 pos l e) (w2 : IsWalk h2 pos l e) :
    ∀ o ∈ l, (h1 o).size = (h2 o).size := by
  induction l generalizing pos with
  | nil => intro o ho; cases ho
  | cons a l ih =>
    obtain ⟨ha, r1⟩ := w1
    obtain ⟨-, r2⟩ := w2
    subst ha
    have hsz : (h1 a).size = (h2 a).size := by
      cases l with
      | nil =>
        have e1 : a + HEADER_SIZE + (h1 a).size = e := r1
        have e2 : a + HEADER_SIZE + (h2 a).size = e := r2
        omega
      | cons c t =>
        have e1 : c = a + HEADER_SIZE + (h1 a).size := r1.1
        have e2 : c = a + HEADER_SIZE + (h2 a).size := r2.1
        omega
    intro o ho
    rcases List.mem_cons.1 ho with rfl | ho
    · exact hsz
    · rw [← hsz] at r2
      exact ih r1 r2 o ho

theorem surv_congr_mem {f g : Nat → Bool} (l : List Nat) (pf : Bool)
    (h : ∀ o ∈ l, f o = g o) : surv_aux f pf l = surv_aux g pf l := by
  induction l generalizing pf with
  | nil => rfl
  | cons a l ih =>
    have ha := h a (List.mem_cons_self _ _)
    have ht := fun o ho => h o (List.mem_cons_of_mem _ ho)
    simp only [surv_aux, ha]
    split
    · exact ih true ht
    · rw [ih (g a) ht]

theorem surv_id_false (f : Nat → Bool) (l : List Nat)
    (h : l.Chain' (fun a b => ¬ (f a = true ∧ f b = true))) : surv_aux f false l = l := by
  cases l with
  | nil => rfl
  | cons a t =>
    simp only [surv_aux, Bool.false_and, Bool.false_eq_true, if_false]
    rw [surv_id f t a h]

theorem surv_id_after (f : Nat → Bool) (c : Nat) (l : List Nat) (hc : f c = true)
    (h : (c :: l).Chain' (fun a b => ¬ (f a = true ∧ f b = true))) : surv_aux f true l = l := by
  have := surv_id f l c h
  rw [hc] at this
  exact this

theorem sublist_eq_filter {l1 l2 : List Nat} (h : l1.Sublist l2) (hnd : l2.Nodup) :
    l1 = l2.filter (fun x => decide (x ∈ l1)) := by
  induction h with
  | slnil => rfl
  | @cons l1 l2 a h ih =>
    obtain ⟨ha, hnd2⟩ := List.nodup_cons.1 hnd
    have hnot : a ∉ l1 := fun hin => ha (h.subset hin)
    rw [List.filter_cons_of_neg (by simpa using hnot)]
    exact ih hnd2
  | @cons₂ l1 l2 a h ih =>
    obtain ⟨ha, hnd2⟩ := List.nodup_cons.1 hnd
    rw [List.filter_cons_of_pos (by simp)]
    congr 1
    have e : l2.filter (fun x => decide (x ∈ a :: l1)) = l2.filter (fun x => decide (x ∈ l1)) := by
      apply List.filter_congr
      intro x hx
      have hxa : x ≠ a := fun e => ha (e ▸ hx)
      simp [hxa]
    rw [e]
    exact ih hnd2

/-- Coalescing after the block `b` of a state without adjacent free blocks has
been taken, possibly split into `b` and the blocks `mid`, and marked free
again: the walk is the one before the allocation. -/
theorem surv_round_trip (fx : Nat → Bool) (mid : List Nat) {s : State} {pre post : List Nat}
    {b : Nat}
    (hw : IsWalk s.hdr 0 (pre ++ b :: post) HEAP_SIZE)
    (hna : NoAdjFree s.hdr (pre ++ b :: post)) (hbf : (s.hdr b).is_free = true)
    (hsame : ∀ o ∈ pre ++ b :: post, fx o = (s.hdr o).is_free)
    (hmid : ∀ o ∈ mid, fx o = true) :
    surv_aux fx false (pre ++ (b :: mid) ++ post) = pre ++ b :: post := by
  have hch := noadj_chain hw hna
  have hsplit := List.chain'_split.1 hch
  have hpre : surv_aux fx false pre = pre := by
    rw [surv_congr_mem pre false (fun o ho => hsame o (List.mem_append_left _ ho))]
    exact surv_id_false _ pre hsplit.1.left_of_append
  have hpost : surv_aux fx true post = post := by
    rw [surv_congr_mem post true
      (fun o ho => hsame o (List.mem_append_right _ (List.mem_cons_of_mem _ ho)))]
    exact surv_id_after _ b post hbf hsplit.2
  have hrun : ∀ o ∈ b :: mid, fx o = true := by
    intro o ho
    rcases List.mem_cons.1 ho with rfl | ho
    · rw [hsame o (by simp)]; exact hbf
    · exact hmid o ho
  have hlast : ∀ p x, pre = p ++ [x] → fx x = false := by
    intro p x hp
    have hx : x ∈ pre ++ b :: post := by rw [hp]; simp
    rw [hsame x hx]
    have h2 : (p ++ x :: b :: post).Chain'
        (fun a c => ¬ ((s.hdr a).is_free = true ∧ (s.hdr c).is_free = true)) := by
      have e : pre ++ b :: post = p ++ x :: b :: post := by rw [hp]; simp
      rw [← e]; exact hch
    have h3 := (List.chain'_split.1 h2).2
    have h4 := (List.chain'_cons.1 h3).1
    cases hxf : (s.hdr x).is_free with
    | false => rfl
    | true => exact absurd ⟨hxf, hbf⟩ h4
  rw [surv_run fx b mid post hrun pre false (fun _ => rfl) hlast, hpre, hpost]

/-- Releasing the block `b` that was just taken from the state `s`, whether it
was split (`mid = [b + HEADER_SIZE + r]`) or not (`mid = []`), gives back the
walk, the sizes and the flags of `s`, with `b` at the head of the registry. -/
theorem round_trip_core (mid : List Nat) {s s1 : State} {live pre post fl : List Nat}
    {b fuel : Nat}
    (hI : Inv s live (pre ++ b :: post) fl) (hb : b ∈ fl)
    (hI1 : Inv s1 ((b + HEADER_SIZE) :: live) (pre ++ (b :: mid) ++ post) (mid ++ fl.erase b))
    (hmidw : ∀ o ∈ mid, o ∉ pre ++ b :: post)
    (hfr1 : ∀ o, (s1.hdr o).is_free =
      if o = b then false else if o ∈ mid then true else (s.hdr o).is_free)
    (hf : HEAP_SIZE ≤ fuel) :
    ∃ s2, my_free fuel s1 (some (b + HEADER_SIZE)) = some s2 ∧
      Core s2 (pre ++ b :: post) (b :: fl.erase b) ∧
      ∀ o ∈ pre ++ b :: post,
        (s2.hdr o).size = (s.hdr o).size ∧ (s2.hdr o).is_free = (s.hdr o).is_free := by
  have hbf : (s.hdr b).is_free = true := core_mem_free hI.core hb
  have hbw1 : b ∈ pre ++ (b :: mid) ++ post := by simp
  have hbf1 : (s1.hdr b).is_free = false := by rw [hfr1 b]; simp
  obtain ⟨sx, s2, fl2, hCx, -, hfrx, hC2, hrel, hrun, -⟩ := inv_free hI1 hbw1 hbf1 hf
  have hsame : ∀ o ∈ pre ++ b :: post, (sx.hdr o).is_free = (s.hdr o).is_free := by
    intro o ho
    rw [hfrx o]
    by_cases hob : o = b
    · rw [if_pos hob, hob, hbf]
    · rw [if_neg hob, hfr1 o, if_neg hob]
      have hom : o ∉ mid := fun h => hmidw o h ho
      rw [if_neg hom]
  have hmid : ∀ o ∈ mid, (sx.hdr o).is_free = true := by
    intro o ho
    rw [hfrx o]
    by_cases hob : o = b
    · rw [if_pos hob]
    · rw [if_neg hob, hfr1 o, if_neg hob, if_pos ho]
  have hsurv := surv_round_trip (fun o => (sx.hdr o).is_free) mid
    hI.core.walk hI.noadj hbf hsame hmid
  rw [hsurv] at hC2 hrel
  have hflag : ∀ o ∈ pre ++ b :: post, (s2.hdr o).is_free = (s.hdr o).is_free := by
    intro o ho
    rw [hrel.free_eq o, hsame o ho]
  have hmem : ∀ o, o ∈ fl2 ↔ o ∈ fl := by
    intro o
    rw [hC2.mem_fl o, hI.core.mem_fl o]
    constructor
    · rintro ⟨ho, h1⟩
      exact ⟨ho, by rw [← hflag o ho]; exact h1⟩
    · rintro ⟨ho, h1⟩
      exact ⟨ho, by rw [hflag o ho]; exact h1⟩
  have hnd : (b :: (mid ++ fl.erase b)).Nodup := hCx.nodup
  have hfl2 : fl2 = b :: fl.erase b := by
    rw [sublist_eq_filter hrel.sub hnd]
    have e : (b :: (mid ++ fl.erase b)).filter (fun x => decide (x ∈ fl2))
        = (b :: (mid ++ fl.erase b)).filter (fun x => decide (x ∈ fl)) := by
      apply List.filter_congr
      intro x _
      simp [hmem x]
    rw [e, List.filter_cons_of_pos (by simpa using hb), List.filter_append]
    have e1 : mid.filter (fun x => decide (x ∈ fl)) = [] := by
      rw [List.filter_eq_nil_iff]
      intro x hx
      have : x ∉ fl := fun h => hmidw x hx (core_mem_walk hI.core h)
      simpa using this
    have e2 : (fl.erase b).filter (fun x => decide (x ∈ fl)) = fl.erase b := by
      rw [List.filter_eq_self]
      intro x hx
      simpa using List.mem_of_mem_erase hx
    rw [e1, e2, List.nil_append]
  rw [hfl2] at hC2
  exact ⟨s2, hrun, hC2, fun o ho =>
    ⟨walk_sizes_eq hC2.walk hI.core.walk o ho, hflag o ho⟩⟩

/-- An allocation that returns an address, followed by the release of that
address, over the invariant. -/
theorem round_trip_inv {s s1 : State} {live w fl : List Nat} {n p fuel fuel2 : Nat}
    (hI : Inv s live w fl) (h : my_malloc fuel s n = some (s1, some p))
    (hf : HEAP_SIZE ≤ fuel2) :
    ∃ s2, my_free fuel2 s1 (some p) = some s2 ∧
      Core s2 w ((p - HEADER_SIZE) :: fl.erase (p - HEADER_SIZE)) ∧
      p - HEADER_SIZE ∈ fl ∧
      ∀ o ∈ w, (s2.hdr o).size = (s.hdr o).size ∧ (s2.hdr o).is_free = (s.hdr o).is_free := by
  have h2 := malloc_mono h (le_max_left fuel HEAP_SIZE)
  rcases inv_malloc (n := n) hI (le_max_right fuel HEAP_SIZE) with
    ⟨h3, -⟩ | ⟨b, -, hfind, h3, -⟩
  · rw [h3] at h2
    cases h2
  · rw [h3] at h2
    have e1 : (my_malloc_take s b (request_size n)).1 = s1 := by
      have := congrArg (fun x => Option.map Prod.fst x) h2
      simpa using this
    have e2 : (my_malloc_take s b (request_size n)).2 = some p := by
      have := congrArg (fun x => Option.map Prod.snd x) h2
      simpa using this
    rw [take_snd] at e2
    have e3 : p = b + HEADER_SIZE := (Option.some.inj e2).symm
    subst e3
    rw [Nat.add_sub_cancel]
    have hb : b ∈ fl := List.mem_of_find?_eq_some hfind
    have hfit := (fits_iff s _ b).1 (List.find?_some hfind)
    have hbw := core_mem_walk hI.core hb
    obtain ⟨pre, post, rfl⟩ := List.append_of_mem hbw
    by_cases hns : (s.hdr b).size ≤ request_size n + HEADER_SIZE + MIN_BLOCK_SIZE
    · obtain ⟨hI1, -, -⟩ := inv_take_nosplit hI hb hfit.2 hns
      obtain ⟨-, -, hfr, -⟩ := take_nosplit hI.core hb hfit.2 hns
      rw [e1] at hI1 hfr
      have hI1b : Inv s1 ((b + HEADER_SIZE) :: live) (pre ++ (b :: []) ++ post)
          ([] ++ fl.erase b) := by
        simpa using hI1
      obtain ⟨s2, hrun, hC2, hall⟩ := round_trip_core [] hI hb hI1b
        (fun o ho => by cases ho) (fun o => by rw [hfr o]; simp) hf
      exact ⟨s2, hrun, hC2, hb, hall⟩
    · have hsp : request_size n + HEADER_SIZE + MIN_BLOCK_SIZE < (s.hdr b).size :=
        Nat.lt_of_not_le hns
      obtain ⟨hI1, -, -⟩ :=
        inv_take_split hI hb (request_size_ge n) (request_size_mod n) hsp
      obtain ⟨-, -, hfr, -, -, -, -, -, -, -, hnbw⟩ := take_split hI.core hb hsp
      rw [e1] at hI1 hfr
      have hI1b : Inv s1 ((b + HEADER_SIZE) :: live)
          (pre ++ (b :: [b + HEADER_SIZE + request_size n]) ++ post)
          ([b + HEADER_SIZE + request_size n] ++ fl.erase b) := by
        simpa using hI1
      obtain ⟨s2, hrun, hC2, hall⟩ :=
        round_trip_core [b + HEADER_SIZE + request_size n] hI hb hI1b
          (fun o ho => by
            rw [List.mem_singleton] at ho
            rw [ho]
            exact hnbw)
          (fun o => by rw [hfr o]; simp) hf
      exact ⟨s2, hrun, hC2, hb, hall⟩

/-! ### Allocated blocks are not disturbed by the operations -/

theorem kept_refl {s : State} {w fl : List Nat} (hC : Core s w fl) {o : Nat} (ho : o ∈ w) :
    Kept s s o :=
  ⟨by rw [core_arena_walk hC]; exact ho, rfl, fun _ _ _ => rfl⟩

theorem kept_trans {s t u : State} {o : Nat} (h1 : Kept s t o) (h2 : Kept t u o) :
    Kept s u o := by
  obtain ⟨-, e1, d1⟩ := h1
  obtain ⟨m2, e2, d2⟩ := h2
  refine ⟨m2, e2.trans e1, fun a ha hb => ?_⟩
  rw [d2 a ha (by rw [e1]; exact hb), d1 a ha hb]

/-- A write of `k` bytes at the payload address of the block `c`, no longer
than that block, leaves every other block of the walk undisturbed. -/
theorem kept_write {s : State} {w fl : List Nat} (hC : Core s w fl) {c o k : Nat}
    (hc : c ∈ w) (ho : o ∈ w) (hoc : o ≠ c) (hk : k ≤ (s.hdr c).size) (d : Nat → Nat)
    (hd : ∀ a, ¬ (c + HEADER_SIZE ≤ a ∧ a < c + HEADER_SIZE + k) → d a = s.data a) :
    Kept s { s with data := d } o := by
  refine ⟨?_, rfl, fun a ha hb => ?_⟩
  · have hC2 : Core { s with data := d } w fl :=
      ⟨hC.walk, hC.chain, hC.nodup, hC.mem_fl⟩
    rw [core_arena_walk hC2]
    exact ho
  · apply hd
    rintro ⟨h1, h2⟩
    rcases Nat.lt_or_gt_of_ne hoc with hlt | hgt
    · have := walk_disjoint hC.walk ho hc hlt
      omega
    · have := walk_disjoint hC.walk hc ho hgt
      omega

theorem frame_malloc {s s1 : State} {live w fl : List Nat} {n fuel : Nat} {r : Option Nat}
    (hI : Inv s live w fl) (h : my_malloc fuel s n = some (s1, r)) :
    ∀ o ∈ w, (s.hdr o).is_free = false → Kept s s1 o := by
  intro o ho hof
  have h2 := malloc_mono h (le_max_left fuel HEAP_SIZE)
  rcases malloc_cases (n := n) hI (le_max_right fuel HEAP_SIZE) with
    h0 | ⟨c, sa, wa, fla, h0, -, hIa, hT⟩
  · rw [h0] at h2
    cases h2
    exact kept_refl hI.core ho
  · rw [h0] at h2
    cases h2
    refine ⟨?_, hT.untouched o ho hof, fun a _ _ => ?_⟩
    · rw [core_arena_walk hIa.core]
      exact hT.keep o ho
    · rw [hT.data]

/-- The block returned by a successful `my_malloc`: an allocated block of the
arena walk that ends inside the arena, is disjoint from every other block of
the walk (header and payload), and holds the rounded request; it holds the
request itself when the rounding does not wrap. -/
theorem malloc_region {s s1 : State} {live w fl : List Nat} {n fuel p : Nat}
    (hI : Inv s live w fl) (h : my_malloc fuel s n = some (s1, some p)) :
    HEADER_SIZE ≤ p ∧ p ∉ live ∧ p - HEADER_SIZE ∈ arena_walk s1 ∧
    (s1.hdr (p - HEADER_SIZE)).is_free = false ∧
    p + (s1.hdr (p - HEADER_SIZE)).size ≤ HEAP_SIZE ∧
    (∀ o ∈ arena_walk s1, o ≠ p - HEADER_SIZE →
      o + HEADER_SIZE + (s1.hdr o).size ≤ p - HEADER_SIZE ∨
      p + (s1.hdr (p - HEADER_SIZE)).size ≤ o) ∧
    request_size n ≤ (s1.hdr (p - HEADER_SIZE)).size ∧
    (n + (ALIGNMENT - 1) < SIZE_MOD → n ≤ (s1.hdr (p - HEADER_SIZE)).size) := by
  have hfresh := malloc_result_fresh hI h
  have h2 := malloc_mono h (le_max_left fuel HEAP_SIZE)
  rcases malloc_cases (n := n) hI (le_max_right fuel HEAP_SIZE) with
    h0 | ⟨c, sa, wa, fla, h0, -, hIa, hT⟩
  · rw [h0] at h2
    cases h2
  · rw [h0] at h2
    cases h2
    rw [Nat.add_sub_cancel]
    obtain ⟨b, hbw, hbf, hb⟩ := (hIa.live_iff (c + HEADER_SIZE)).1 (List.mem_cons_self _ _)
    have hbc : b = c := by omega
    subst hbc
    have hle := core_size_le hIa.core hbw
    refine ⟨Nat.le_add_left _ _, hfresh, ?_, hbf, ?_, ?_, hT.size_ge, ?_⟩
    · rw [core_arena_walk hIa.core]; exact hbw
    · omega
    · rw [core_arena_walk hIa.core]
      intro o ho hob
      rcases Nat.lt_or_gt_of_ne hob with hlt | hgt
      · exact Or.inl (walk_disjoint hIa.core.walk ho hbw hlt)
      · have := walk_disjoint hIa.core.walk hbw ho hgt
        exact Or.inr (by omega)
    · intro hn
      exact le_trans (le_request_size hn) hT.size_ge

theorem frame_free {s s1 : State} {live w fl : List Nat} {p fuel : Nat}
    (hI : Inv s live w fl) (hp : p ∈ live) (h : my_free fuel s (some p) = some s1) :
    ∀ o ∈ w, (s.hdr o).is_free = false → o ≠ p - HEADER_SIZE → Kept s s1 o := by
  intro o ho hof hop
  obtain ⟨b, hbw, hbf, rfl⟩ := (hI.live_iff p).1 hp
  rw [Nat.add_sub_cancel] at hop
  have h2 := free_mono h (le_max_left fuel HEAP_SIZE)
  obtain ⟨sx, hCx, -, hfrx, hunx, -, -, -, -, hrun⟩ :=
    free_pre hI.core hbw hbf (max fuel HEAP_SIZE)
  obtain ⟨sm, flm, hm, hCm, hrel, -, -⟩ := merge_spec hCx (le_max_right fuel HEAP_SIZE)
  rw [hrun, hm] at h2
  cases h2
  have hofl : o ∉ fl := fun hin => by
    have := core_mem_free hI.core hin
    rw [hof] at this; cases this
  have hobfl : o ∉ b :: fl := by
    intro hin
    rcases List.mem_cons.1 hin with e | e
    · exact hop e
    · exact hofl e
  refine ⟨?_, ?_, fun a _ _ => ?_⟩
  · rw [core_arena_walk hCm]
    apply surv_mem_of_not_free _ _ _ _ ho
    show (sx.hdr o).is_free = false
    rw [hfrx o, if_neg hop, hof]
  · rw [hrel.untouched o hobfl, hunx o hofl hop]
  · rw [free_data_eq h]

theorem frame_realloc {s s1 : State} {live w fl : List Nat} {p n fuel : Nat} {r : Option Nat}
    (hI : Inv s live w fl) (hp : p ∈ live)
    (h : my_realloc fuel s (some p) n = some (s1, r)) :
    ∀ o ∈ w, (s.hdr o).is_free = false → o ≠ p - HEADER_SIZE → Kept s s1 o := by
  intro o ho hof hop
  unfold my_realloc at h
  simp only [] at h
  by_cases hn : n = 0
  · rw [if_pos hn] at h
    cases hfr : my_free fuel s (some p) with
    | none => rw [hfr] at h; cases h
    | some sb =>
      rw [hfr] at h
      cases h
      exact frame_free hI hp hfr o ho hof hop
  · rw [if_neg hn] at h
    by_cases hfit : n ≤ (s.hdr (p - HEADER_SIZE)).size
    · rw [if_pos hfit] at h
      cases h
      exact kept_refl hI.core ho
    · rw [if_neg hfit] at h
      cases hm : my_malloc fuel s n with
      | none => rw [hm] at h; cases h
      | some y =>
        obtain ⟨sa, q⟩ := y
        rw [hm] at h
        have hK1 := frame_malloc hI hm o ho hof
        cases q with
        | none =>
          cases h
          exact hK1
        | some q =>
          simp only [] at h
          obtain ⟨wa, fla, hIa⟩ := malloc_result hI hm
          have hIa2 : Inv sa (q :: live) wa fla := by simpa using hIa
          obtain ⟨hq32, hqfresh, hqw, -, -, -, -, -⟩ := malloc_region hI hm
          cases hcp : memcpy sa q p (s.hdr (p - HEADER_SIZE)).size with
          | none => rw [hcp] at h; cases h
          | some sc =>
            rw [hcp] at h
            simp only [] at h
            cases hfr : my_free fuel sc (some p) with
            | none => rw [hfr] at h; cases h
            | some sb =>
              rw [hfr] at h
              cases h
              obtain ⟨hk, rfl⟩ := memcpy_some hcp
              have hIb := inv_data hIa2
                (fun a => if q ≤ a ∧ a < q + (s.hdr (p - HEADER_SIZE)).size
                  then sa.data (p + (a - q)) else sa.data a)
              have howa : o ∈ wa := by
                rw [← core_arena_walk hIa.core]; exact hK1.1
              have hqwa : q - HEADER_SIZE ∈ wa := by
                rw [← core_arena_walk hIa.core]; exact hqw
              have hoq : o ≠ q - HEADER_SIZE := by
                intro e
                apply hqfresh
                rw [hI.live_iff q]
                exact ⟨o, ho, hof, by omega⟩
              have hK2 := kept_write hIa.core hqwa howa hoq hk
                (fun a => if q ≤ a ∧ a < q + (s.hdr (p - HEADER_SIZE)).size
                  then sa.data (p + (a - q)) else sa.data a)
                (fun a ha => by
                  have e : q - HEADER_SIZE + HEADER_SIZE = q := by omega
                  rw [e] at ha
                  exact if_neg ha)
              have hofa : (sa.hdr o).is_free = false := by rw [hK1.2.1]; exact hof
              have hK3 := frame_free hIb (List.mem_cons_of_mem _ hp) hfr o howa hofa hop
              exact kept_trans hK1 (kept_trans hK2 hK3)

theorem frame_calloc {s s1 : State} {live w fl : List Nat} {num size fuel : Nat}
    {r : Option Nat} (hI : Inv s live w fl)
    (h : my_calloc fuel s num size = some (s1, r)) :
    ∀ o ∈ w, (s.hdr o).is_free = false → Kept s s1 o := by
  intro o ho hof
  unfold my_calloc at h
  simp only [] at h
  split at h
  · cases h
    exact kept_refl hI.core ho
  · cases hm : my_malloc fuel s (num * size % SIZE_MOD) with
    | none => rw [hm] at h; cases h
    | some y =>
      obtain ⟨sa, q⟩ := y
      rw [hm] at h
      have hK1 := frame_malloc hI hm o ho hof
      cases q with
      | none =>
        cases h
        exact hK1
      | some q =>
        simp only [] at h
        obtain ⟨wa, fla, hIa⟩ := malloc_result hI hm
        obtain ⟨hq32, hqfresh, hqw, -, -, -, -, -⟩ := malloc_region hI hm
        cases hms : memset sa q 0 (num * size % SIZE_MOD) with
        | none => rw [hms] at h; cases h
        | some sc =>
          rw [hms] at h
          cases h
          obtain ⟨hk, rfl⟩ := memset_some hms
          have howa : o ∈ wa := by
            rw [← core_arena_walk hIa.core]; exact hK1.1
          have hqwa : q - HEADER_SIZE ∈ wa := by
            rw [← core_arena_walk hIa.core]; exact hqw
          have hoq : o ≠ q - HEADER_SIZE := by
            intro e
            apply hqfresh
            rw [hI.live_iff q]
            exact ⟨o, ho, hof, by omega⟩
          have hK2 := kept_write hIa.core hqwa howa hoq hk
            (fun a => if q ≤ a ∧ a < q + (num * size % SIZE_MOD) then 0 else sa.data a)
            (fun a ha => by
              have e : q - HEADER_SIZE + HEADER_SIZE = q := by omega
              rw [e] at ha
              exact if_neg ha)
          exact kept_trans hK1 hK2

theorem live_block {s : State} {live w fl : List Nat} (hI : Inv s live w fl) {q : Nat}
    (hq : q ∈ live) :
    HEADER_SIZE ≤ q ∧ q - HEADER_SIZE ∈ w ∧ (s.hdr (q - HEADER_SIZE)).is_free = false := by
  obtain ⟨b, hbw, hbf, rfl⟩ := (hI.live_iff q).1 hq
  rw [Nat.add_sub_cancel]
  exact ⟨Nat.le_add_left _ _, hbw, hbf⟩

/-- In a reachable state, `my_malloc`, `my_free` of a live address, `my_realloc`
of a live address and `my_calloc` leave the block of every other live address
undisturbed, whenever the call has a result. -/
theorem live_blocks_kept {s : State} {live : List Nat} (hR : Reach s live) (fuel : Nat) :
    (∀ n s1 r, my_malloc fuel s n = some (s1, r) →
      ∀ q ∈ live, Kept s s1 (q - HEADER_SIZE)) ∧
    (∀ p s1, p ∈ live → my_free fuel s (some p) = some s1 →
      ∀ q ∈ live, q ≠ p → Kept s s1 (q - HEADER_SIZE)) ∧
    (∀ p n s1 r, p ∈ live → my_realloc fuel s (some p) n = some (s1, r) →
      ∀ q ∈ live, q ≠ p → Kept s s1 (q - HEADER_SIZE)) ∧
    (∀ num size s1 r, my_calloc fuel s num size = some (s1, r) →
      ∀ q ∈ live, Kept s s1 (q - HEADER_SIZE)) := by
  obtain ⟨w, fl, hI⟩ := reach_inv hR
  have hne : ∀ p ∈ live, ∀ q ∈ live, q ≠ p → q - HEADER_SIZE ≠ p - HEADER_SIZE := by
    intro p hp q hq hqp e
    have h1 := (live_block hI hp).1
    have h2 := (live_block hI hq).1
    omega
  refine ⟨?_, ?_, ?_, ?_⟩
  · intro n s1 r h q hq
    obtain ⟨-, hw, hfr⟩ := live_block hI hq
    exact frame_malloc hI h _ hw hfr
  · intro p s1 hp h q hq hqp
    obtain ⟨-, hw, hfr⟩ := live_block hI hq
    exact frame_free hI hp h _ hw hfr (hne p hp q hq hqp)
  · intro p n s1 r hp h q hq hqp
    obtain ⟨-, hw, hfr⟩ := live_block hI hq
    exact frame_realloc hI hp h _ hw hfr (hne p hp q hq hqp)
  · intro num size s1 r h q hq
    obtain ⟨-, hw, hfr⟩ := live_block hI hq
    exact frame_calloc hI h _ hw hfr

/-- In a reachable state, the block returned by a successful `my_malloc` lies
inside the arena and is disjoint from every other block of the arena walk. -/
theorem malloc_payload_region {s s1 : State} {live : List Nat} (hR : Reach s live)
    {fuel n p : Nat} (h : my_malloc fuel s n = some (s1, some p)) :
    HEADER_SIZE ≤ p ∧ p ∉ live ∧ p - HEADER_SIZE ∈ arena_walk s1 ∧
    (s1.hdr (p - HEADER_SIZE)).is_free = false ∧
    p + (s1.hdr (p - HEADER_SIZE)).size ≤ HEAP_SIZE ∧
    (∀ o ∈ arena_walk s1, o ≠ p - HEADER_SIZE →
      o + HEADER_SIZE + (s1.hdr o).size ≤ p - HEADER_SIZE ∨
      p + (s1.hdr (p - HEADER_SIZE)).size ≤ o) ∧
    request_size n ≤ (s1.hdr (p - HEADER_SIZE)).size ∧
    (n + (ALIGNMENT - 1) < SIZE_MOD → n ≤ (s1.hdr (p - HEADER_SIZE)).size) := by
  obtain ⟨w, fl, hI⟩ := reach_inv hR
  exact malloc_region hI h

/-! ### A small free block between two live blocks -/

theorem reach_crowded_b : Reach crowded_b [168, 32] :=
  Reach.malloc (r := some 168) HEAP_SIZE 16 reach_one_block rfl

theorem reach_crowded_c : Reach crowded_c [216, 168, 32] :=
  Reach.malloc (r := some 216) HEAP_SIZE 100 reach_crowded_b rfl

theorem reach_crowded : Reach crowded [216, 32] :=
  Reach.free HEAP_SIZE 168 reach_crowded_c (by decide) rfl

/-! ### `split_block` for sizes larger than the block -/

/-- After `allocator_init(); my_malloc(100)` the bytes of the arena give the
walk, the registry, the sizes, the flags and the totals of the state
`one_block` of the two views. -/
theorem raw_one_block_agrees :
    raw_one_block.bind (Raw.arena_walk HEAP_SIZE)
      = some ((arena_walk one_block).map
          (fun o => (o, (one_block.hdr o).size, (one_block.hdr o).is_free)), HEAP_SIZE) ∧
    raw_one_block.bind (Raw.registry HEAP_SIZE)
      = some ((registry one_block).map
          (fun o => (o, (one_block.hdr o).size, (one_block.hdr o).is_free))) ∧
    raw_one_block.map (fun s => (s.total_allocated, s.total_free))
      = some (one_block.total_allocated, one_block.total_free) :=
  ⟨rfl, rfl, rfl⟩

/-- After `allocator_init(); x = my_malloc(16); y = my_malloc(24);
p = my_malloc(100); my_free(x)` the bytes of the arena give the walk, the
registry, the sizes, the flags and the totals that the two views give, with
the same addresses returned. -/
theorem raw_three_blocks_agrees :
    ∃ s1 s2 s3 s4, my_malloc HEAP_SIZE fresh 16 = some (s1, some 32) ∧
      my_malloc HEAP_SIZE s1 24 = some (s2, some 80) ∧
      my_malloc HEAP_SIZE s2 100 = some (s3, some 136) ∧
      my_free HEAP_SIZE s3 (some 32) = some s4 ∧
      raw_three_blocks.bind (Raw.arena_walk HEAP_SIZE)
        = some ((arena_walk s4).map
            (fun o => (o, (s4.hdr o).size, (s4.hdr o).is_free)), HEAP_SIZE) ∧
      raw_three_blocks.bind (Raw.registry HEAP_SIZE)
        = some ((registry s4).map (fun o => (o, (s4.hdr o).size, (s4.hdr o).is_free))) ∧
      raw_three_blocks.map (fun s => (s.total_allocated, s.total_free))
        = some (s4.total_allocated, s4.total_free) :=
  ⟨_, _, _, _, rfl, rfl, rfl, rfl, rfl, rfl, rfl⟩

/-! ## The claims -/

/-- Partition invariant over `Reach`: in every state reached from
`allocator_init` through calls of `my_malloc`, `my_free`, `my_realloc` and
`my_calloc` whose copy or fill fits the block it is given (every non-null
address passed to `my_free` or `my_realloc` being live), walking the arena from
offset 0 in steps of `HEADER_SIZE + size` lands exactly on `HEAP_SIZE`, no
header or payload crosses the arena end, and `validate_heap` returns true,
wherever the arena lies in the address space. -/
theorem partition_invariant (s : State) (live : List Nat) (h : Reach s live) :
    PartitionInv s ∧
    (∀ o ∈ arena_walk s,
      o + HEADER_SIZE ≤ HEAP_SIZE ∧ o + HEADER_SIZE + (s.hdr o).size ≤ HEAP_SIZE) ∧
    ∀ heap, heap + HEAP_SIZE < SIZE_MOD →
      ∀ fuel, HEAP_SIZE ≤ fuel → validate_heap heap fuel s = some true := by
  obtain ⟨w, fl, hI⟩ := reach_inv h
  have hw := core_arena_walk hI.core
  refine ⟨?_, ?_, ?_⟩
  · unfold PartitionInv
    rw [hw]; exact hI.core.walk
  · intro o ho
    rw [hw] at ho
    have := core_size_le hI.core ho
    exact ⟨by omega, this⟩
  · intro heap hh fuel hf
    have := core_w_fuel hI.core hf
    exact validate_loop_true hh hI.core.walk fuel (by omega)

/-- The partition invariant in the state after `allocator_init` and `my_malloc(100)`. -/
theorem partition_invariant_witness :
    Reach one_block [32] ∧
    validate_heap 4096 HEAP_SIZE one_block
      = some true :=
  ⟨reach_one_block,
   (partition_invariant _ _
      reach_one_block).2.2
      4096 (by decide) HEAP_SIZE (le_refl _)⟩

/-- Registry invariant over `Reach`: in every state of `Reach` the blocks reached from
`free_list_head` through `next` are exactly the blocks of the arena walk whose
`is_free` flag is set, none appears twice, the head has `prev = NULL`, every
`next` link is answered by the matching `prev` link and conversely, the last
`next` is `NULL`, and every allocated block has `next = prev = NULL`. -/
theorem registry_invariant (s : State) (live : List Nat) (h : Reach s live) :
    RegistryInv s ∧
    (∀ o, o ∈ registry s ↔ o ∈ arena_walk s ∧ (s.hdr o).is_free = true) ∧
    (registry s).Nodup ∧
    (∀ hd, s.free_list_head = some hd → hd ∈ registry s ∧ (s.hdr hd).prev = none) ∧
    (∀ a ∈ registry s, ∀ n, (s.hdr a).next = some n →
      n ∈ registry s ∧ (s.hdr n).prev = some a) ∧
    (∀ a ∈ registry s, ∀ p, (s.hdr a).prev = some p →
      p ∈ registry s ∧ (s.hdr p).next = some a) ∧
    (∀ o ∈ arena_walk s, (s.hdr o).is_free = false →
      (s.hdr o).next = none ∧ (s.hdr o).prev = none) := by
  obtain ⟨w, fl, hI⟩ := reach_inv h
  have hw := core_arena_walk hI.core
  have hr := core_registry hI.core
  have hR : RegistryInv s := by
    unfold RegistryInv
    rw [hw, hr]
    exact ⟨hI.core.chain, hI.core.nodup, hI.core.mem_fl, hI.links⟩
  refine ⟨hR, hR.2.2.1, hR.2.1, ?_, ?_, ?_, hR.2.2.2⟩
  · intro hd hhd
    rw [hr]
    have hmem := seg_head_mem hI.core.chain hhd
    refine ⟨hmem, ?_⟩
    cases fl with
    | nil => cases hmem
    | cons a t =>
      have h1 : s.free_list_head = some a := hI.core.chain.1
      rw [h1] at hhd
      cases hhd
      exact hI.core.chain.2.1
  · intro a ha n hn
    rw [hr] at ha ⊢
    exact ⟨seg_next_mem hI.core.chain ha hn, seg_next_prev hI.core.chain ha hn⟩
  · intro a ha p hp
    rw [hr] at ha ⊢
    refine ⟨?_, ?_⟩
    · rcases seg_prev_mem hI.core.chain ha hp with h1 | h1
      · exact h1
      · cases h1
    · rcases seg_prev_next hI.core.chain ha hp with ⟨h1, -⟩ | h1
      · cases h1
      · exact h1

/-- The registry invariant in the state after `allocator_init` and `my_malloc(100)`. -/
theorem registry_invariant_witness :
    Reach one_block [32] ∧
    RegistryInv one_block :=
  ⟨reach_one_block,
   (registry_invariant _ _
      (reach_one_block)).1⟩

/-- Size invariant over `Reach`: in every state of `Reach` every block of the arena
walk, free or allocated, has `size ≥ MIN_BLOCK_SIZE = 16` and
`size % ALIGNMENT = 0` with `ALIGNMENT = 8`, `HEADER_SIZE = 32` and
`HEAP_SIZE = 1048576`; in particular this holds after every `my_malloc`, whose
split may have carved a remainder block, and after every `my_free` of a live
address, whose coalescing may have merged blocks. -/
theorem size_invariant (s : State) (live : List Nat) (h : Reach s live) :
    SizeInv s ∧
    (∀ o ∈ arena_walk s, 16 ≤ (s.hdr o).size ∧ (s.hdr o).size % 8 = 0) ∧
    (∀ fuel n s1 r, my_malloc fuel s n = some (s1, r) → SizeInv s1) ∧
    (∀ fuel p s1, p ∈ live → my_free fuel s (some p) = some s1 → SizeInv s1) ∧
    MIN_BLOCK_SIZE = 16 ∧ ALIGNMENT = 8 ∧ HEADER_SIZE = 32 ∧ HEAP_SIZE = 1048576 := by
  have hS := reach_size_inv h
  exact ⟨hS, hS, fun fuel n s1 r hm => reach_size_inv (Reach.malloc fuel n h hm),
    fun fuel p s1 hp hm => reach_size_inv (Reach.free fuel p h hp hm), rfl, rfl, rfl, rfl⟩

/-- The size invariant in the state after `allocator_init` and `my_malloc(100)`, in
which a split has produced a remainder block. -/
theorem size_invariant_witness :
    Reach one_block [32] ∧
    SizeInv one_block :=
  ⟨reach_one_block,
   (size_invariant _ _
      (reach_one_block)).1⟩

/-- The allocated total over `Reach`: in every state of `Reach`
`get_total_allocated` equals the sum of
`size` over the blocks of the arena walk that are marked allocated; it is 0
when no block is allocated, in particular when every returned address has been
released. -/
theorem total_allocated_agrees (s : State) (live : List Nat) (h : Reach s live) :
    get_total_allocated s = alloc_sum s.hdr (arena_walk s) ∧
    ((∀ o ∈ arena_walk s, (s.hdr o).is_free = true) → get_total_allocated s = 0) ∧
    (live = [] → get_total_allocated s = 0) := by
  obtain ⟨w, fl, hI⟩ := reach_inv h
  have hw := core_arena_walk hI.core
  have h1 : get_total_allocated s = alloc_sum s.hdr (arena_walk s) := by
    rw [hw]; exact hI.talloc
  refine ⟨h1, ?_, ?_⟩
  · intro hf
    rw [h1, alloc_sum_all_free hf]
  · intro hl
    subst hl
    rw [h1, hw, alloc_sum_all_free (inv_live_nil hI)]

/-- The allocated total in a sample state: after `allocator_init` and `my_malloc(100)` the allocated
total is the 104 bytes of the one allocated block. -/
theorem total_allocated_agrees_witness :
    Reach one_block [32] ∧
    get_total_allocated one_block
      = alloc_sum one_block.hdr
          (arena_walk one_block) :=
  ⟨reach_one_block,
   (total_allocated_agrees _ _
      (reach_one_block)).1⟩

/-- C5, evaluated at the failing input `allocator_init(); my_malloc(100)`: the
call returns address 32, afterwards `get_total_free` is 1048440 while the only
free block of the arena walk has 1048408 bytes: the header of the remainder
block carved by `split_block` is still counted as free. -/
theorem total_free_ignores_split_header :
    (my_malloc HEAP_SIZE (allocator_init startState) 100).map
      (fun r => (r.2, get_total_free r.1, arena_walk r.1,
        free_sum r.1.hdr (arena_walk r.1)))
      = some (some 32, 1048440, [0, 136], 1048408) := by
  decide

/-- First fit over `Reach`: for a state of `Reach` and `n > 0` with
`r = max (align_size n) MIN_BLOCK_SIZE`, if `F` is the first block of the
registry, in order from the head, with `size ≥ r`, then `my_malloc n` returns
`F + HEADER_SIZE`; afterwards `F` is marked allocated, is not in the registry,
has `next = prev = NULL`, `total_allocated` has grown by the final size of `F`
and `total_free` has shrunk by the same amount. -/
theorem malloc_first_fit (s : State) (live : List Nat) (h : Reach s live)
    (n : Nat) (hn : 0 < n) (l1 l2 : List Nat) (F : Nat)
    (hreg : registry s = l1 ++ F :: l2)
    (hsmall : ∀ o ∈ l1, (s.hdr o).size < max (align_size n) MIN_BLOCK_SIZE)
    (hfit : max (align_size n) MIN_BLOCK_SIZE ≤ (s.hdr F).size)
    (fuel : Nat) (hf : HEAP_SIZE ≤ fuel) :
    ∃ s1, my_malloc fuel s n = some (s1, some (F + HEADER_SIZE)) ∧
      (s1.hdr F).is_free = false ∧ F ∉ registry s1 ∧
      (s1.hdr F).next = none ∧ (s1.hdr F).prev = none ∧
      get_total_allocated s1 = get_total_allocated s + (s1.hdr F).size ∧
      get_total_free s1 + (s1.hdr F).size = get_total_free s := by
  obtain ⟨w, fl, hI⟩ := reach_inv h
  have hr := core_registry hI.core
  rw [hr] at hreg
  rw [← request_size_eq_max] at hsmall hfit
  have hFfl : F ∈ fl := by rw [hreg]; simp
  have hfind : fl.find? (fits s (request_size n)) = some F := by
    rw [hreg]
    apply find_first
    · intro o ho
      have := hsmall o ho
      simp only [fits, Bool.and_eq_false_iff, decide_eq_false_iff_not]
      right; omega
    · exact (fits_iff s _ F).2 ⟨core_mem_free hI.core hFfl, hfit⟩
  rcases inv_malloc (n := n) hI hf with ⟨-, h0 | h0⟩ | ⟨b, -, hb, hrun, w2, fl2, hI2, hT⟩
  · omega
  · rw [hfind] at h0; cases h0
  · rw [hfind] at hb
    cases hb
    refine ⟨(my_malloc_take s F (request_size n)).1, hrun, hT.taken.1, ?_, hT.taken.2.1,
      hT.taken.2.2, hT.talloc, hT.tfree⟩
    rw [core_registry hI2.core]
    have hne : F ∉ fl.erase F := fun hx => (hI.core.nodup.mem_erase_iff.1 hx).1 rfl
    rcases hT.reg with e | e
    · rw [e]; exact hne
    · rw [e]
      simp only [List.mem_cons, not_or]
      refine ⟨?_, hne⟩
      simp only [HEADER_SIZE]; omega

/-- First fit at `my_malloc(100)` on the freshly initialised arena, whose
registry is the single block at offset 0. -/
theorem malloc_first_fit_witness :
    ∃ s1, my_malloc HEAP_SIZE fresh 100 = some (s1, some (0 + HEADER_SIZE)) ∧
      (s1.hdr 0).is_free = false ∧ 0 ∉ registry s1 ∧
      (s1.hdr 0).next = none ∧ (s1.hdr 0).prev = none ∧
      get_total_allocated s1 = get_total_allocated fresh + (s1.hdr 0).size ∧
      get_total_free s1 + (s1.hdr 0).size = get_total_free fresh :=
  malloc_first_fit fresh [] reach_fresh 100 (by decide) [] [] 0 (by decide)
    (fun _ ho => absurd ho (List.not_mem_nil _)) (by decide) HEAP_SIZE (le_refl _)

/-- C7, the claim as stated fails on a state whose flag `allocator_initialized`
is clear: after `allocator_init(); my_malloc(100); allocator_cleanup()` the
arena satisfies the partition and registry invariants and, after
`merge_free_blocks`, its only free block has 1048408 bytes, fewer than the
1048504 that a request of 1048500 needs; yet `my_malloc(1048500)` returns the
address 32, because it first runs `allocator_init` again. -/
theorem malloc_after_cleanup_counterexample :
    torn_down.allocator_initialized = false ∧
    PartitionInv torn_down ∧ RegistryInv torn_down ∧
    (my_malloc HEAP_SIZE torn_down 1048500).map Prod.snd = some (some 32) ∧
    (merge_free_blocks HEAP_SIZE torn_down).map
      (fun sm => (arena_walk sm).all (fun o =>
        !(sm.hdr o).is_free ||
          decide ((sm.hdr o).size < max (align_size 1048500) MIN_BLOCK_SIZE)))
      = some true :=
  ⟨rfl, torn_down_partition, torn_down_registry_inv, by decide, by decide⟩

/-- C7 as amended (allocation failure is exact): for an initialised state that
satisfies the partition and registry invariants and every `n > 0` whose
rounding does not overflow, `my_malloc n` returns `NULL` if and only if, after
`merge_free_blocks`, no free block has `size ≥ max (align_size n) 16`; and it
returns an address whenever some run of physically adjacent free blocks, once
merged, is large enough. -/
theorem malloc_failure_exact (s : State) (hi : s.allocator_initialized = true)
    (hP : PartitionInv s) (hR : RegistryInv s)
    (n : Nat) (hn : 0 < n) (hov : n + (ALIGNMENT - 1) < SIZE_MOD)
    (fuel : Nat) (hf : HEAP_SIZE ≤ fuel) :
    ∃ s1 res sm, my_malloc fuel s n = some (s1, res) ∧
      merge_free_blocks fuel s = some sm ∧
      align_size n = (n + 7) / 8 * 8 ∧
      (res = none ↔ ∀ o ∈ arena_walk sm, (sm.hdr o).is_free = true →
        (sm.hdr o).size < max (align_size n) MIN_BLOCK_SIZE) ∧
      (∀ pre run post, arena_walk s = pre ++ run ++ post → run ≠ [] →
        (∀ o ∈ run, (s.hdr o).is_free = true) →
        max (align_size n) MIN_BLOCK_SIZE ≤
          (run.map (fun o => (s.hdr o).size)).sum + (run.length - 1) * HEADER_SIZE →
        res ≠ none) := by
  have hC := core_of_invs hP hR
  obtain ⟨s1, res, sm, w2, fl2, hrun, hm, hC2, hna, hrel, hiff⟩ :=
    malloc_fail_iff (n := n) hC hi (by omega) hf
  rw [request_size_eq_max] at hiff
  refine ⟨s1, res, sm, hrun, hm, align_size_exact hov, ?_, ?_⟩
  · rw [core_arena_walk hC2]; exact hiff
  · intro pre run post hw hne hfree hbig hres
    have hall := hiff.1 hres
    -- the sub-walk of the run
    have hwalk := hC.walk
    rw [hw, List.append_assoc] at hwalk
    obtain ⟨o, -, hsub⟩ := walk_append.1 hwalk
    obtain ⟨e, hrunwalk, -⟩ := walk_append.1 hsub
    have hspan := walk_span hrunwalk
    cases run with
    | nil => exact hne rfl
    | cons a rest =>
      have hao : a = o := hrunwalk.1
      subst hao
      have hmem : ∀ x ∈ a :: rest, x ∈ arena_walk s ∧ (s.hdr x).is_free = true := by
        intro x hx
        refine ⟨?_, hfree x hx⟩
        rw [hw]
        simp only [List.mem_append]
        exact Or.inl (Or.inr hx)
      obtain ⟨T, hT, hTf, hTa, hTe⟩ := hrel.covers a (hmem a (by simp)).1 (hfree a (by simp))
      have hend := run_covered hC2.walk hna hrel.covers (a :: rest) a e hrunwalk (by simp)
        hmem T hT hTf hTa (by simp only [HEADER_SIZE] at *; omega)
      have := hall T hT hTf
      simp only [List.length_cons, Nat.add_sub_cancel, List.map_cons, List.sum_cons] at hbig hspan
      have e1 : (rest.length + 1) * HEADER_SIZE = rest.length * HEADER_SIZE + HEADER_SIZE := by
        ring
      rw [e1] at hspan
      omega

/-- Witness of C7: a state with two adjacent free blocks, of 1000 and 1047512
bytes, and a request of 1048000 bytes that only their merge can serve. -/
theorem malloc_failure_exact_witness :
    ∃ s1 res sm, my_malloc HEAP_SIZE two_free 1048000 = some (s1, res) ∧
      merge_free_blocks HEAP_SIZE two_free = some sm ∧
      align_size 1048000 = (1048000 + 7) / 8 * 8 ∧
      (res = none ↔ ∀ o ∈ arena_walk sm, (sm.hdr o).is_free = true →
        (sm.hdr o).size < max (align_size 1048000) MIN_BLOCK_SIZE) ∧
      (∀ pre run post, arena_walk two_free = pre ++ run ++ post → run ≠ [] →
        (∀ o ∈ run, (two_free.hdr o).is_free = true) →
        max (align_size 1048000) MIN_BLOCK_SIZE ≤
          (run.map (fun o => (two_free.hdr o).size)).sum + (run.length - 1) * HEADER_SIZE →
        res ≠ none) :=
  malloc_failure_exact two_free rfl two_free_partition two_free_registry_inv
    1048000 (by decide) (by decide) HEAP_SIZE (le_refl _)

/-- Immediate reuse over `Reach`: for a state of `Reach` and `n > 0`, if `my_malloc n`
returns the address `p`, then after any number of further successful
`my_malloc` calls and no release, `my_free p` followed by `my_malloc n`
returns `p` again. -/
theorem immediate_reuse (s : State) (live : List Nat) (h : Reach s live)
    (n : Nat) (hn : 0 < n) (fuel : Nat) (hf : HEAP_SIZE ≤ fuel)
    (s1 : State) (p : Nat) (h1 : my_malloc fuel s n = some (s1, some p))
    (ks : List Nat) (s2 : State) (h2 : malloc_all fuel s1 ks = some s2) :
    ∃ s3 s4, my_free fuel s2 (some p) = some s3 ∧
      my_malloc fuel s3 n = some (s4, some p) := by
  obtain ⟨w, fl, hI⟩ := reach_inv h
  rcases inv_malloc (n := n) hI hf with ⟨h0, -⟩ | ⟨b, -, hfind, h0, w1, fl1, hI1, hT⟩
  · rw [h0] at h1; cases h1
  · rw [h0] at h1
    have e1 : (my_malloc_take s b (request_size n)).1 = s1 := by
      have := congrArg (fun x => Option.map Prod.fst x) h1
      simpa using this
    have e2 : (my_malloc_take s b (request_size n)).2 = some p := by
      have := congrArg (fun x => Option.map Prod.snd x) h1
      simpa using this
    rw [take_snd] at e2
    cases e2
    subst e1
    have hbfl : b ∈ fl := List.mem_of_find?_eq_some hfind
    have hH := held_take_self hI hbfl hT
    obtain ⟨live2, w2, fl2, hI2, hH2⟩ := held_malloc_all hf ks _ s2 _ w1 fl1 b _ hI1 hH h2
    obtain ⟨s3, live3, w3, fl3, hfree, hI3, hb3, hbig⟩ := held_free hI2 hH2 hf
    refine ⟨s3, (my_malloc_take s3 b (request_size n)).1, hfree, ?_⟩
    have hfit : fits s3 (request_size n) b = true := (fits_iff s3 _ b).2 ⟨hb3, hbig⟩
    have hfind3 : (b :: fl3).find? (fits s3 (request_size n)) = some b := by
      rw [List.find?_cons, hfit]
    rw [malloc_hit hI3.init (by omega) hI3.core.chain (core_fl_fuel hI3.core hf) hfind3]
    rfl

/-- Immediate reuse at `p = my_malloc(100)`, one further `my_malloc(100)`, then
`my_free(p)` and `my_malloc(100)`, as in `test_free_and_reuse`. -/
theorem immediate_reuse_witness :
    ∃ s3 s4, my_free HEAP_SIZE two_blocks (some 32) = some s3 ∧
      my_malloc HEAP_SIZE s3 100 = some (s4, some 32) :=
  immediate_reuse fresh [] reach_fresh 100 (by decide) HEAP_SIZE (le_refl _)
    one_block 32 rfl [100] two_blocks rfl

/-- C9, the claim as stated fails: from the freshly initialised arena, three
`my_malloc(100)` calls return the adjacent blocks at 32, 168 and 304, each of
payload 104; after releasing the second, the first and the third,
`get_fragmentation_count` is 1 but the single free block has 1048544 bytes,
not `3 * 104 + 2 * HEADER_SIZE = 376`. -/
theorem coalescing_counterexample :
    (coalesce_scenario HEAP_SIZE fresh 100).map
      (fun (r : State × State × Option Nat × Option Nat × Option Nat) =>
        (r.2.2, [(r.1.hdr 0).size, (r.1.hdr 136).size, (r.1.hdr 272).size]))
      = some ((some 32, some 168, some 304), [104, 104, 104]) ∧
    (coalesce_scenario HEAP_SIZE fresh 100).map
      (fun (r : State × State × Option Nat × Option Nat × Option Nat) =>
        (get_fragmentation_count HEAP_SIZE r.2.1,
         (registry r.2.1).map (fun o => (r.2.1.hdr o).size),
         (registry r.2.1).all
           (fun o => decide ((r.2.1.hdr o).size = 3 * 104 + 2 * HEADER_SIZE))))
      = some (some 1, [1048544], false) := by
  constructor <;> decide

/-- C9 as amended: from a freshly initialised arena, three allocations of the
same request whose rounded size `r` leaves room for a split each time return
three physically adjacent blocks of payload `r`; after releasing the second,
the first and the third, `get_fragmentation_count` is 1 and the single free
block, at offset 0, has size `HEAP_SIZE - HEADER_SIZE`, which is
`3 * r + 2 * HEADER_SIZE` plus the header and payload of the free remainder
that followed the third block. -/
theorem coalescing_restores_arena (s0 : State) (h0 : s0.allocator_initialized = false)
    (n : Nat) (hn : 0 < n)
    (hroom : 3 * max (align_size n) MIN_BLOCK_SIZE + 4 * HEADER_SIZE + MIN_BLOCK_SIZE
      < HEAP_SIZE)
    (fuel : Nat) (hf : HEAP_SIZE ≤ fuel) :
    ∃ s3 s6 r, r = max (align_size n) MIN_BLOCK_SIZE ∧
      coalesce_scenario fuel (allocator_init s0) n =
        some (s3, s6, some (0 + HEADER_SIZE), some (r + HEADER_SIZE + HEADER_SIZE),
          some (2 * (r + HEADER_SIZE) + HEADER_SIZE)) ∧
      arena_walk s3 = [0, r + HEADER_SIZE, 2 * (r + HEADER_SIZE), 3 * (r + HEADER_SIZE)] ∧
      (s3.hdr 0).size = r ∧ (s3.hdr (r + HEADER_SIZE)).size = r ∧
      (s3.hdr (2 * (r + HEADER_SIZE))).size = r ∧
      (s3.hdr 0).is_free = false ∧ (s3.hdr (r + HEADER_SIZE)).is_free = false ∧
      (s3.hdr (2 * (r + HEADER_SIZE))).is_free = false ∧
      get_fragmentation_count fuel s6 = some 1 ∧
      arena_walk s6 = [0] ∧ registry s6 = [0] ∧
      (s6.hdr 0).size = HEAP_SIZE - HEADER_SIZE ∧
      (s6.hdr 0).size = 3 * r + 2 * HEADER_SIZE +
        (HEADER_SIZE + (s3.hdr (3 * (r + HEADER_SIZE))).size) := by
  rw [← request_size_eq_max] at hroom
  have hn0 : n ≠ 0 := by omega
  have hI0 := inv_init s0 h0
  have hsz0 : ((allocator_init s0).hdr 0).size = HEAP_SIZE - HEADER_SIZE := by
    simp [allocator_init, h0]
  -- first allocation
  have hI0' : Inv (allocator_init s0) [] ([] ++ [0]) [0] := hI0
  obtain ⟨s1, hm1, hI1, hs1b, hf1b, hs1n, -⟩ := malloc_last_block (n := n) hI0' hn0 hf
    (by rw [hsz0]; simp only [HEADER_SIZE, MIN_BLOCK_SIZE, HEAP_SIZE] at *; omega)
  -- second allocation
  obtain ⟨s2, hm2, hI2, hs2b, hf2b, hs2n, hun2⟩ := malloc_last_block (n := n) hI1 hn0 hf
    (by rw [hs1n, hsz0]; simp only [HEADER_SIZE, MIN_BLOCK_SIZE, HEAP_SIZE] at *; omega)
  -- third allocation
  obtain ⟨s3, hm3, hI3, hs3b, hf3b, hs3n, hun3⟩ := malloc_last_block (n := n) hI2 hn0 hf
    (by
      rw [hs2n, hs1n, hsz0]
      simp only [HEADER_SIZE, MIN_BLOCK_SIZE, HEAP_SIZE] at *; omega)
  -- the three releases
  have hcb : 0 + HEADER_SIZE + request_size n + HEADER_SIZE + request_size n + HEADER_SIZE
      ≠ 0 + HEADER_SIZE + request_size n + HEADER_SIZE := by simp only [HEADER_SIZE]; omega
  have hca : 0 + HEADER_SIZE + request_size n + HEADER_SIZE + request_size n + HEADER_SIZE
      ≠ 0 + HEADER_SIZE := by simp only [HEADER_SIZE]; omega
  obtain ⟨s4, w4, fl4, hr4, hI4⟩ :=
    free_live (p := 0 + HEADER_SIZE + request_size n + HEADER_SIZE) hI3 (by simp) hf
  rw [erase_mid hcb] at hI4
  obtain ⟨s5, w5, fl5, hr5, hI5⟩ := free_live (p := 0 + HEADER_SIZE) hI4 (by simp) hf
  rw [erase_last hca] at hI5
  obtain ⟨s6, w6, fl6, hr6, hI6⟩ := free_live
    (p := 0 + HEADER_SIZE + request_size n + HEADER_SIZE + request_size n + HEADER_SIZE) hI5
    (by simp) hf
  rw [List.erase_cons_head] at hI6
  obtain ⟨e1, e2, e3⟩ := inv_all_free hI6 (inv_live_nil hI6)
  subst e1; subst e2
  have hA1 : 0 + HEADER_SIZE + request_size n = request_size n + HEADER_SIZE := by omega
  have hA2 : 0 + HEADER_SIZE + request_size n + HEADER_SIZE + request_size n
      = 2 * (request_size n + HEADER_SIZE) := by omega
  have hA3 : 0 + HEADER_SIZE + request_size n + HEADER_SIZE + request_size n + HEADER_SIZE
      + request_size n = 3 * (request_size n + HEADER_SIZE) := by omega
  have hw3 := core_arena_walk hI3.core
  simp only [List.nil_append, List.cons_append, List.singleton_append] at hw3 hun3 hun2 hI3
  refine ⟨s3, s6, request_size n, request_size_eq_max n, ?_, ?_, ?_, ?_, ?_, ?_, ?_, ?_,
    inv_frag_count hI6 hf, core_arena_walk hI6.core, core_registry hI6.core, e3, ?_⟩
  · simp only [coalesce_scenario, hm1, hm2, hm3, hr4, hr5, hr6]
    simp only [HEADER_SIZE]
    congr 6 <;> omega
  · rw [hw3]
    simp only [List.cons.injEq, and_true, true_and]
    refine ⟨?_, ?_, ?_⟩ <;> omega
  · rw [hun3 0 (by simp), hun2 0 (by simp)]; exact hs1b
  · rw [← hA1, hun3 _ (by simp)]; exact hs2b
  · rw [← hA2]; exact hs3b
  · rw [hun3 0 (by simp), hun2 0 (by simp)]; exact hf1b
  · rw [← hA1, hun3 _ (by simp)]; exact hf2b
  · rw [← hA2]; exact hf3b
  · rw [e3, ← hA3, hs3n, hs2n, hs1n, hsz0]
    simp only [HEADER_SIZE, MIN_BLOCK_SIZE, HEAP_SIZE] at *
    omega

/-- Witness of the amended C9: program start and requests of 100 bytes. -/
theorem coalescing_restores_arena_witness :
    ∃ s3 s6 r, r = max (align_size 100) MIN_BLOCK_SIZE ∧
      coalesce_scenario HEAP_SIZE (allocator_init startState) 100 =
        some (s3, s6, some (0 + HEADER_SIZE), some (r + HEADER_SIZE + HEADER_SIZE),
          some (2 * (r + HEADER_SIZE) + HEADER_SIZE)) ∧
      arena_walk s3 = [0, r + HEADER_SIZE, 2 * (r + HEADER_SIZE), 3 * (r + HEADER_SIZE)] ∧
      (s3.hdr 0).size = r ∧ (s3.hdr (r + HEADER_SIZE)).size = r ∧
      (s3.hdr (2 * (r + HEADER_SIZE))).size = r ∧
      (s3.hdr 0).is_free = false ∧ (s3.hdr (r + HEADER_SIZE)).is_free = false ∧
      (s3.hdr (2 * (r + HEADER_SIZE))).is_free = false ∧
      get_fragmentation_count HEAP_SIZE s6 = some 1 ∧
      arena_walk s6 = [0] ∧ registry s6 = [0] ∧
      (s6.hdr 0).size = HEAP_SIZE - HEADER_SIZE ∧
      (s6.hdr 0).size = 3 * r + 2 * HEADER_SIZE +
        (HEADER_SIZE + (s3.hdr (3 * (r + HEADER_SIZE))).size) :=
  coalescing_restores_arena startState rfl 100 (by decide) (by decide) HEAP_SIZE (le_refl _)

/-- Full release over `Reach`: in every state of `Reach` in which
no block is allocated (in particular when every returned address has been
released) the arena is one free block at offset 0 of size
`HEAP_SIZE - HEADER_SIZE`, which is the only registry entry, so
`get_fragmentation_count` is 1 and `get_total_allocated` is 0. -/
theorem full_release_restores (s : State) (live : List Nat) (h : Reach s live)
    (hnone : live = [] ∨ ∀ o ∈ arena_walk s, (s.hdr o).is_free = true) :
    arena_walk s = [0] ∧ (s.hdr 0).is_free = true ∧
    (s.hdr 0).size = HEAP_SIZE - HEADER_SIZE ∧ registry s = [0] ∧
    (∀ fuel, HEAP_SIZE ≤ fuel → get_fragmentation_count fuel s = some 1) ∧
    get_total_allocated s = 0 := by
  obtain ⟨w, fl, hI⟩ := reach_inv h
  have hw := core_arena_walk hI.core
  have hr := core_registry hI.core
  have hfree : ∀ o ∈ w, (s.hdr o).is_free = true := by
    rcases hnone with hl | hf
    · subst hl; exact inv_live_nil hI
    · rw [hw] at hf; exact hf
  obtain ⟨e1, e2, e3⟩ := inv_all_free hI hfree
  refine ⟨by rw [hw, e1], hfree 0 (by rw [e1]; simp), e3, by rw [hr, e2], ?_, ?_⟩
  · intro fuel hf
    rw [inv_frag_count hI hf, e2]; rfl
  · show s.total_allocated = 0
    rw [hI.talloc, alloc_sum_all_free hfree]

/-- Full release of two blocks allocated and then released in allocation
order. -/
theorem full_release_restores_witness :
    Reach both_released [] ∧ arena_walk both_released = [0] ∧
    (both_released.hdr 0).size = HEAP_SIZE - HEADER_SIZE ∧
    get_fragmentation_count HEAP_SIZE both_released = some 1 :=
  ⟨reach_both_released,
   (full_release_restores both_released [] reach_both_released (Or.inl rfl)).1,
   (full_release_restores both_released [] reach_both_released (Or.inl rfl)).2.2.1,
   (full_release_restores both_released [] reach_both_released (Or.inl rfl)).2.2.2.2.1
     HEAP_SIZE (le_refl _)⟩

/-- Double release over `Reach`: for a state of `Reach` and a live address `p`,
`my_free p` returns a state `s1` in which a second `my_free p` passes the range
check, finds the `is_free` flag of the header at `p - HEADER_SIZE` set (the
double-free branch) and returns `s1` itself, so that block layout, flags,
registry and both totals are those after the first release; `validate_heap`
returns true on `s1`, wherever the arena lies in the address space. -/
theorem double_release_safe (s : State) (live : List Nat) (h : Reach s live)
    (p : Nat) (hp : p ∈ live) (fuel : Nat) (hf : HEAP_SIZE ≤ fuel) :
    ∃ s1, my_free fuel s (some p) = some s1 ∧
      ¬ (p < HEADER_SIZE ∨ p - HEADER_SIZE ≥ HEAP_SIZE) ∧
      (s1.hdr (p - HEADER_SIZE)).is_free = true ∧
      (∀ fuel2, my_free fuel2 s1 (some p) = some s1) ∧
      ∀ heap, heap + HEAP_SIZE < SIZE_MOD → validate_heap heap fuel s1 = some true := by
  obtain ⟨w, fl, hI⟩ := reach_inv h
  obtain ⟨b, hbw, hbf, rfl⟩ := (hI.live_iff p).1 hp
  obtain ⟨sa, s1, fl2, -, -, hfr, -, hrel, hrun, hInv⟩ := inv_free hI hbw hbf hf
  have hrange : ¬ (b + HEADER_SIZE < HEADER_SIZE ∨ b + HEADER_SIZE - HEADER_SIZE ≥ HEAP_SIZE) := by
    have := core_size_le hI.core hbw
    simp only [HEADER_SIZE] at *
    omega
  have hfree : (s1.hdr (b + HEADER_SIZE - HEADER_SIZE)).is_free = true := by
    rw [Nat.add_sub_cancel, hrel.free_eq b, hfr b, if_pos rfl]
  refine ⟨s1, hrun, hrange, hfree, ?_, ?_⟩
  · intro fuel2
    unfold my_free
    simp only [if_neg hrange, hfree, if_true]
  · intro heap hh
    have := core_w_fuel hInv.core hf
    exact validate_loop_true hh hInv.core.walk fuel (by omega)

/-- Double release of `p = my_malloc(100)` on the fresh arena, released twice. -/
theorem double_release_safe_witness :
    ∃ s1, my_free HEAP_SIZE one_block (some 32) = some s1 ∧
      ¬ (32 < HEADER_SIZE ∨ 32 - HEADER_SIZE ≥ HEAP_SIZE) ∧
      (s1.hdr (32 - HEADER_SIZE)).is_free = true ∧
      (∀ fuel2, my_free fuel2 s1 (some 32) = some s1) ∧
      ∀ heap, heap + HEAP_SIZE < SIZE_MOD → validate_heap heap HEAP_SIZE s1 = some true :=
  double_release_safe one_block [32] reach_one_block 32 (List.mem_singleton.2 rfl)
    HEAP_SIZE (le_refl _)

/-- C12 (invalid release is a no-op): in every state `my_free` returns the
state it was given, with every header, the registry and both totals unchanged,
when the address is `NULL` or when `address - HEADER_SIZE` lies outside the
arena, below its first byte or at or after byte `HEAP_SIZE`.  Addresses are
offsets from the arena start, and `p < HEADER_SIZE` is the case of a header
pointer below the arena. -/
theorem invalid_release_noop (s : State) (fuel : Nat) (ptr : Option Nat)
    (h : ∀ p, ptr = some p → p < HEADER_SIZE ∨ HEAP_SIZE ≤ p - HEADER_SIZE) :
    my_free fuel s ptr = some s := by
  cases ptr with
  | none => rfl
  | some p =>
    unfold my_free
    simp only [ge_iff_le, if_pos (h p rfl)]

/-- Witness of C12: the address one header past the arena end, and an address
inside the first header, in a state with a live block. -/
theorem invalid_release_noop_witness :
    my_free 0 one_block (some (HEAP_SIZE + HEADER_SIZE)) = some one_block ∧
    my_free 0 one_block (some 31) = some one_block ∧
    my_free 0 one_block none = some one_block :=
  ⟨invalid_release_noop one_block 0 (some (HEAP_SIZE + HEADER_SIZE))
      (fun p hp => Or.inr (by cases hp; simp)),
   invalid_release_noop one_block 0 (some 31)
      (fun p hp => Or.inl (by cases hp; decide)),
   invalid_release_noop one_block 0 none (fun p hp => by cases hp)⟩

/-- C13 (zero-size request): in every initialised state `my_malloc 0` returns
`NULL` and the state it was given: totals, headers and registry are
unchanged. -/
theorem malloc_zero_noop (s : State) (hi : s.allocator_initialized = true) (fuel : Nat) :
    my_malloc fuel s 0 = some (s, none) :=
  malloc_zero fuel s hi

/-- Witness of C13: a state with one live block. -/
theorem malloc_zero_noop_witness :
    one_block.allocator_initialized = true ∧ my_malloc 0 one_block 0 = some (one_block, none) :=
  ⟨rfl, malloc_zero_noop one_block rfl 0⟩

/-- Oversize requests over `Reach`: for a state of `Reach` and a size larger than
`HEAP_SIZE` whose rounding does not overflow, `my_malloc` returns `NULL` and
the state it was given, so both totals are unchanged; no block of the arena
walk has more than `HEAP_SIZE - HEADER_SIZE` bytes. -/
theorem oversize_request_fails (s : State) (live : List Nat) (h : Reach s live)
    (n : Nat) (hn : HEAP_SIZE < n) (hov : n + (ALIGNMENT - 1) < SIZE_MOD)
    (fuel : Nat) (hf : HEAP_SIZE ≤ fuel) :
    (∃ s1, my_malloc fuel s n = some (s1, none) ∧ s1 = s ∧
      get_total_allocated s1 = get_total_allocated s ∧
      get_total_free s1 = get_total_free s) ∧
    ∀ o ∈ arena_walk s, (s.hdr o).size ≤ HEAP_SIZE - HEADER_SIZE := by
  obtain ⟨w, fl, hI⟩ := reach_inv h
  have hsz : ∀ o ∈ w, (s.hdr o).size ≤ HEAP_SIZE - HEADER_SIZE := by
    intro o ho
    have := core_size_le hI.core ho
    omega
  refine ⟨?_, ?_⟩
  · rcases inv_malloc (n := n) hI hf with ⟨h0, -⟩ | ⟨b, -, hfind, -⟩
    · exact ⟨s, h0, rfl, rfl, rfl⟩
    · exfalso
      have hfit := (fits_iff s _ b).1 (List.find?_some hfind)
      have hb := hsz b (core_mem_walk hI.core (List.mem_of_find?_eq_some hfind))
      have h1 : align_size n ≤ request_size n := by
        rw [request_size_eq_max]; exact le_max_left _ _
      have h2 := align_size_exact hov
      have h3 : n ≤ (n + 7) / 8 * 8 := by omega
      omega
  · rw [core_arena_walk hI.core]
    exact hsz

/-- The oversize request `my_malloc(HEAP_SIZE + 1)`, the request of
`test_edge_cases`, in a state with one live block. -/
theorem oversize_request_fails_witness :
    ∃ s1, my_malloc HEAP_SIZE one_block (HEAP_SIZE + 1) = some (s1, none) ∧ s1 = one_block ∧
      get_total_allocated s1 = get_total_allocated one_block ∧
      get_total_free s1 = get_total_free one_block :=
  (oversize_request_fails one_block [32] reach_one_block (HEAP_SIZE + 1)
    (by decide) (by decide) HEAP_SIZE (le_refl _)).1

/-- C15 evaluated on the code (rounding overflow): for a request `n` with
`SIZE_MAX - 7 < n ≤ SIZE_MAX` the sum `n + ALIGNMENT - 1` wraps around,
`align_size n` is 0 and the request is raised to `MIN_BLOCK_SIZE`; in every
reachable state whose registry is not empty `my_malloc n` then returns the
payload address of the first registry block, marked allocated, of fewer bytes
than were requested.  The call does not fail. -/
theorem rounding_overflow_allocates (s : State) (live : List Nat) (h : Reach s live)
    (n : Nat) (h1 : SIZE_MOD - 1 - 7 < n) (h2 : n < SIZE_MOD)
    (b : Nat) (hb : s.free_list_head = some b) (fuel : Nat) (hf : HEAP_SIZE ≤ fuel) :
    align_size n = 0 ∧
    ∃ s1, my_malloc fuel s n = some (s1, some (b + HEADER_SIZE)) ∧
      (s1.hdr b).is_free = false ∧ MIN_BLOCK_SIZE ≤ (s1.hdr b).size ∧ (s1.hdr b).size < n := by
  have h1a : SIZE_MOD - ALIGNMENT < n := by
    simp only [ALIGNMENT, SIZE_MOD] at *
    omega
  exact ⟨(request_size_wrapped h1a h2).1, malloc_wrapped h h1a h2 hb hf⟩

/-- C15 at `my_malloc(SIZE_MAX)` on the fresh arena: the call returns the
address 32 of a block of 16 bytes. -/
theorem rounding_overflow_allocates_witness :
    align_size (SIZE_MOD - 1) = 0 ∧
    ∃ s1, my_malloc HEAP_SIZE fresh (SIZE_MOD - 1) = some (s1, some (0 + HEADER_SIZE)) ∧
      (s1.hdr 0).is_free = false ∧ MIN_BLOCK_SIZE ≤ (s1.hdr 0).size ∧
      (s1.hdr 0).size < SIZE_MOD - 1 :=
  rounding_overflow_allocates fresh [] reach_fresh (SIZE_MOD - 1) (by decide) (by decide)
    0 rfl HEAP_SIZE (le_refl _)

/-- C16 (overflow guard): for every count `num` and element size `size` the
division check of `my_calloc` rejects exactly when the product `num * size`
exceeds `SIZE_MAX`.  In that case `my_calloc` returns `NULL` and the state it
was given, without running `my_malloc` (an uninitialised state stays
uninitialised); otherwise it goes on to `my_malloc (num * size)` and the
`memset`. -/
theorem calloc_overflow_guard (s : State) (fuel num size : Nat) :
    ((num ≠ 0 ∧ (num * size) % SIZE_MOD / num ≠ size) ↔ SIZE_MOD - 1 < num * size) ∧
    my_calloc fuel s num size =
      if SIZE_MOD - 1 < num * size then some (s, none)
      else
        match my_malloc fuel s (num * size) with
        | none => none
        | some (s1, none) => some (s1, none)
        | some (s1, some p) =>
          match memset s1 p 0 (num * size) with
          | none => none
          | some s2 => some (s2, some p) := by
  have hM : 0 < SIZE_MOD := by norm_num [SIZE_MOD]
  have e : SIZE_MOD - 1 < num * size ↔ SIZE_MOD ≤ num * size := by omega
  refine ⟨calloc_guard_iff.trans e.symm, ?_⟩
  by_cases hov : SIZE_MOD ≤ num * size
  · rw [if_pos (e.2 hov)]
    exact calloc_rejects hov
  · rw [if_neg (fun hc => hov (e.1 hc))]
    exact calloc_accepts (by omega)

/-- C17 evaluated on the code: `my_calloc(1, SIZE_MAX)` on the fresh arena.
The product does not overflow, so the division check passes;
`my_malloc(SIZE_MAX)` returns the address 32 of a block of 16 bytes (the
rounding of the request wraps around), and the `memset` of `SIZE_MAX` bytes
from address 32 runs past the end of that block and of the arena, so that no
result is assigned to the call. -/
theorem calloc_wrapped_request_overruns :
    1 * (SIZE_MOD - 1) < SIZE_MOD ∧
    (my_malloc HEAP_SIZE fresh (1 * (SIZE_MOD - 1))).map
      (fun (x : State × Option Nat) => (x.2, (x.1.hdr 0).size)) = some (some 32, 16) ∧
    HEAP_SIZE < 32 + 1 * (SIZE_MOD - 1) ∧
    my_calloc HEAP_SIZE fresh 1 (SIZE_MOD - 1) = none :=
  ⟨by decide, by decide, by decide, rfl⟩

/-- C18 (resize that fits does not move): for a reachable state, a live
address `p` and `0 < n ≤ size` of the block of `p`, `my_realloc p n` returns
`p` and the state it was given: the block, which is an allocated block of the
arena walk, keeps its size, and registry, totals and payload are unchanged. -/
theorem resize_fits_in_place (s : State) (live : List Nat) (h : Reach s live)
    (p : Nat) (hp : p ∈ live) (n : Nat) (hn : 0 < n)
    (hfit : n ≤ (s.hdr (p - HEADER_SIZE)).size) (fuel : Nat) :
    ∃ s1, my_realloc fuel s (some p) n = some (s1, some p) ∧ s1 = s ∧
      p - HEADER_SIZE ∈ arena_walk s1 ∧
      (s1.hdr (p - HEADER_SIZE)).is_free = false ∧
      (s1.hdr (p - HEADER_SIZE)).size = (s.hdr (p - HEADER_SIZE)).size := by
  obtain ⟨w, fl, hI⟩ := reach_inv h
  obtain ⟨b, hbw, hbf, rfl⟩ := (hI.live_iff p).1 hp
  refine ⟨s, ?_, rfl, ?_, ?_, rfl⟩
  · unfold my_realloc
    simp only [if_neg (Nat.pos_iff_ne_zero.1 hn), if_pos hfit]
  · rw [Nat.add_sub_cancel, core_arena_walk hI.core]
    exact hbw
  · rw [Nat.add_sub_cancel]
    exact hbf

/-- Witness of C18: the block of 104 bytes at address 32 resized to 30 bytes,
as in `test_realloc`. -/
theorem resize_fits_in_place_witness :
    ∃ s1, my_realloc 0 one_block (some 32) 30 = some (s1, some 32) ∧ s1 = one_block ∧
      32 - HEADER_SIZE ∈ arena_walk s1 ∧
      (s1.hdr (32 - HEADER_SIZE)).is_free = false ∧
      (s1.hdr (32 - HEADER_SIZE)).size = (one_block.hdr (32 - HEADER_SIZE)).size :=
  resize_fits_in_place one_block [32] reach_one_block 32 (List.mem_singleton.2 rfl) 30
    (by decide) (by decide) 0

/-- C19 evaluated on the code: `p = my_malloc(100)` on the fresh arena, then
`my_realloc(p, SIZE_MAX)`.  The block of `p` has 104 bytes; the inner
`my_malloc(SIZE_MAX)` returns the address 168 of a block of 16 bytes, followed
by a block whose header is at offset 184; the `memcpy` of 104 bytes to address
168 runs past the end of the 16-byte block and over that header, so that no
result is assigned to the call. -/
theorem realloc_wrapped_request_overruns :
    (one_block.hdr (32 - HEADER_SIZE)).size = 104 ∧
    (my_malloc HEAP_SIZE one_block (SIZE_MOD - 1)).map
      (fun (x : State × Option Nat) => (x.2, (x.1.hdr 136).size, arena_walk x.1))
      = some (some 168, 16, [0, 136, 184]) ∧
    (168 + 16 ≤ 184 ∧ 184 < 168 + 104) ∧
    my_realloc HEAP_SIZE one_block (some 32) (SIZE_MOD - 1) = none :=
  ⟨by decide, by decide, by decide, rfl⟩

/-- Failed resize over `Reach`: for a state of `Reach`, a live address `p`
and `n` larger than the size of the block of `p`, if the inner `my_malloc n`
returns `NULL` then `my_realloc p n` returns `NULL`, and the state after the
call is the state before it: the block of `p` is still an allocated block of
the arena walk with the same size and payload, and both totals are
unchanged. -/
theorem failed_resize_atomic (s : State) (live : List Nat) (h : Reach s live)
    (p : Nat) (hp : p ∈ live) (n : Nat) (hn : (s.hdr (p - HEADER_SIZE)).size < n)
    (fuel : Nat) (sm : State) (hm : my_malloc fuel s n = some (sm, none)) :
    ∃ s1, my_realloc fuel s (some p) n = some (s1, none) ∧ s1 = s ∧
      p - HEADER_SIZE ∈ arena_walk s1 ∧
      (s1.hdr (p - HEADER_SIZE)).is_free = false ∧
      (s1.hdr (p - HEADER_SIZE)).size = (s.hdr (p - HEADER_SIZE)).size ∧
      (∀ a, s1.data a = s.data a) ∧
      get_total_allocated s1 = get_total_allocated s ∧
      get_total_free s1 = get_total_free s := by
  obtain ⟨w, fl, hI⟩ := reach_inv h
  have hsm : sm = s := by
    have h2 := malloc_mono hm (le_max_left fuel HEAP_SIZE)
    rcases malloc_cases (n := n) hI (le_max_right fuel HEAP_SIZE) with h0 | ⟨c, sa, _, _, h0, -⟩
    · rw [h0] at h2
      cases h2
      rfl
    · rw [h0] at h2
      cases h2
  subst hsm
  obtain ⟨b, hbw, hbf, rfl⟩ := (hI.live_iff p).1 hp
  rw [Nat.add_sub_cancel] at hn
  refine ⟨sm, ?_, rfl, ?_, ?_, rfl, fun _ => rfl, rfl, rfl⟩
  · unfold my_realloc
    simp only [if_neg (by omega : ¬ n = 0), Nat.add_sub_cancel, if_neg (by omega : ¬ n ≤ (sm.hdr b).size),
      hm]
  · rw [Nat.add_sub_cancel, core_arena_walk hI.core]
    exact hbw
  · rw [Nat.add_sub_cancel]
    exact hbf

/-- A failed resize: the block of 104 bytes at address 32 resized to
`HEAP_SIZE + 1` bytes, which no block can hold. -/
theorem failed_resize_atomic_witness :
    ∃ s1, my_realloc HEAP_SIZE one_block (some 32) (HEAP_SIZE + 1) = some (s1, none) ∧
      s1 = one_block ∧
      32 - HEADER_SIZE ∈ arena_walk s1 ∧
      (s1.hdr (32 - HEADER_SIZE)).is_free = false ∧
      (s1.hdr (32 - HEADER_SIZE)).size = (one_block.hdr (32 - HEADER_SIZE)).size ∧
      (∀ a, s1.data a = one_block.data a) ∧
      get_total_allocated s1 = get_total_allocated one_block ∧
      get_total_free s1 = get_total_free one_block :=
  failed_resize_atomic one_block [32] reach_one_block 32 (List.mem_singleton.2 rfl)
    (HEAP_SIZE + 1) (by decide) HEAP_SIZE one_block rfl

/-- C23 (`allocator_init` is idempotent): on a state whose flag is clear it
produces an arena of exactly one block, at offset 0, free, of
`HEAP_SIZE - HEADER_SIZE` bytes, with `next = prev = NULL`, which is the only
registry entry, and totals 0 and `HEAP_SIZE - HEADER_SIZE`; on a state whose
flag is set, as every reachable state is, it changes nothing; so a second call
changes nothing. -/
theorem init_idempotent (s0 : State) :
    (s0.allocator_initialized = false →
      arena_walk (allocator_init s0) = [0] ∧
      (allocator_init s0).hdr 0 =
        { size := HEAP_SIZE - HEADER_SIZE, is_free := true, next := none, prev := none } ∧
      (allocator_init s0).free_list_head = some 0 ∧
      registry (allocator_init s0) = [0] ∧
      get_total_allocated (allocator_init s0) = 0 ∧
      get_total_free (allocator_init s0) = HEAP_SIZE - HEADER_SIZE ∧
      (allocator_init s0).allocator_initialized = true) ∧
    (s0.allocator_initialized = true → allocator_init s0 = s0) ∧
    (∀ live, Reach s0 live → allocator_init s0 = s0) ∧
    allocator_init (allocator_init s0) = allocator_init s0 := by
  have hset : ∀ s : State, s.allocator_initialized = true → allocator_init s = s := by
    intro s h
    unfold allocator_init
    rw [if_pos h]
  refine ⟨?_, hset s0, fun live h => hset s0 (reach_init h), ?_⟩
  · intro h0
    have hI := inv_init s0 h0
    refine ⟨core_arena_walk hI.core, ?_, ?_, core_registry hI.core, ?_, ?_, hI.init⟩
    · simp [allocator_init, h0]
    · simp [allocator_init, h0]
    · simp [allocator_init, h0, get_total_allocated]
    · simp [allocator_init, h0, get_total_free]
  · cases h0 : s0.allocator_initialized with
    | true => rw [hset s0 h0, hset s0 h0]
    | false => exact hset _ (inv_init s0 h0).init

/-- Witness of C23: the first call at program start, and a call on the state
with one live block. -/
theorem init_idempotent_witness :
    arena_walk (allocator_init startState) = [0] ∧
    get_total_free (allocator_init startState) = HEAP_SIZE - HEADER_SIZE ∧
    allocator_init one_block = one_block :=
  ⟨((init_idempotent startState).1 rfl).1,
   ((init_idempotent startState).1 rfl).2.2.2.2.2.1,
   (init_idempotent one_block).2.2.1 [32] reach_one_block⟩

/-- C27 (`align_size`): for every size up to `SIZE_MAX - 7`, `align_size` is
`(size + 7) & ~7`; it is a multiple of 8, at least `size` and below
`size + 8`, no larger than any other multiple of 8 that is at least `size`,
and `align_size` maps it to itself. -/
theorem align_size_least_multiple (n : Nat) (h : n ≤ SIZE_MOD - 1 - 7) :
    align_size n = (n + 7) &&& (SIZE_MOD - 1 - 7) ∧
    align_size n % 8 = 0 ∧ n ≤ align_size n ∧ align_size n < n + 8 ∧
    (∀ m, m % 8 = 0 → n ≤ m → align_size n ≤ m) ∧
    align_size (align_size n) = align_size n := by
  have hM := SIZE_MOD_eq
  have hov : n + (ALIGNMENT - 1) < SIZE_MOD := by
    simp only [ALIGNMENT]
    omega
  have he := align_size_exact hov
  have hov2 : align_size n + (ALIGNMENT - 1) < SIZE_MOD := by
    simp only [ALIGNMENT]
    omega
  have he2 := align_size_exact hov2
  refine ⟨?_, ?_, ?_, ?_, ?_, ?_⟩
  · unfold align_size
    have e : n + ALIGNMENT - 1 = n + 7 := by simp [ALIGNMENT]
    rw [e, Nat.mod_eq_of_lt (by omega)]
    rfl
  · omega
  · omega
  · omega
  · intro m hm hnm
    omega
  · omega

/-- Witness of C27: `align_size 100 = 104`. -/
theorem align_size_least_multiple_witness :
    align_size 100 = (100 + 7) &&& (SIZE_MOD - 1 - 7) ∧
    align_size 100 % 8 = 0 ∧ 100 ≤ align_size 100 ∧ align_size 100 < 100 + 8 ∧
    (∀ m, m % 8 = 0 → 100 ≤ m → align_size 100 ≤ m) ∧
    align_size (align_size 100) = align_size 100 :=
  align_size_least_multiple 100 (by decide)

/-- No adjacent free blocks over `Reach`: in every state of `Reach` no
two physically adjacent blocks of the arena walk are both free; so
`merge_free_blocks` returns the state it was given, the search that
`my_malloc` repeats after it gives the answer of the first search, and a
`my_malloc` whose first search misses returns `NULL` and the state it was
given. -/
theorem no_adjacent_free (s : State) (live : List Nat) (h : Reach s live) :
    NoAdjFree s.hdr (arena_walk s) ∧
    (∀ a ∈ arena_walk s, a + HEADER_SIZE + (s.hdr a).size ∈ arena_walk s →
      (s.hdr a).is_free = true →
      (s.hdr (a + HEADER_SIZE + (s.hdr a).size)).is_free = false) ∧
    ∀ fuel, HEAP_SIZE ≤ fuel →
      merge_free_blocks fuel s = some s ∧
      (∀ sm, merge_free_blocks fuel s = some sm →
        ∀ r, find_free_block fuel sm r = find_free_block fuel s r) ∧
      (∀ n, n ≠ 0 → find_free_block fuel s (request_size n) = some none →
        my_malloc fuel s n = some (s, none)) := by
  obtain ⟨w, fl, hI⟩ := reach_inv h
  have hw := core_arena_walk hI.core
  have hna : NoAdjFree s.hdr (arena_walk s) := by rw [hw]; exact hI.noadj
  refine ⟨hna, ?_, ?_⟩
  · intro a ha hb haf
    cases hbf : (s.hdr (a + HEADER_SIZE + (s.hdr a).size)).is_free with
    | false => rfl
    | true => exact absurd ⟨haf, hbf⟩ (hna a ha _ hb rfl)
  · intro fuel hf
    have hm := inv_merge_id hI hf
    refine ⟨hm, ?_, ?_⟩
    · intro sm hsm r
      rw [hm] at hsm
      cases hsm
      rfl
    · intro n hn hfind
      rw [malloc_unfold fuel s n hI.init hn, hfind]
      simp only [hm, hfind]

/-- No adjacent free blocks in the state after two allocations and one release. -/
theorem no_adjacent_free_witness :
    NoAdjFree first_released.hdr (arena_walk first_released) ∧
    merge_free_blocks HEAP_SIZE first_released = some first_released :=
  ⟨(no_adjacent_free first_released [168] reach_first_released).1,
   ((no_adjacent_free first_released [168] reach_first_released).2.2
      HEAP_SIZE (le_refl _)).1⟩

/-- Conservation of the totals over `Reach`: in every state of `Reach`
`total_allocated + total_free = HEAP_SIZE - HEADER_SIZE` and both counters are
below `2 ^ 64`; the subtraction `total_free -= block->size` of a `my_malloc`
that returns an address and the subtraction `total_allocated -= block->size`
of a `my_free` of a live address do not go below zero, and the additions next
to them do not wrap. -/
theorem totals_conserved (s : State) (live : List Nat) (h : Reach s live) :
    get_total_allocated s + get_total_free s = HEAP_SIZE - HEADER_SIZE ∧
    get_total_allocated s < SIZE_MOD ∧ get_total_free s < SIZE_MOD ∧
    (∀ fuel n s1 q, my_malloc fuel s n = some (s1, some q) →
      (s1.hdr (q - HEADER_SIZE)).size ≤ s.total_free ∧
      s1.total_free = s.total_free - (s1.hdr (q - HEADER_SIZE)).size ∧
      s1.total_allocated = s.total_allocated + (s1.hdr (q - HEADER_SIZE)).size ∧
      s1.total_allocated < SIZE_MOD) ∧
    (∀ fuel p s1, p ∈ live → my_free fuel s (some p) = some s1 →
      (s.hdr (p - HEADER_SIZE)).size ≤ s.total_allocated ∧
      s1.total_allocated = s.total_allocated - (s.hdr (p - HEADER_SIZE)).size ∧
      s1.total_free = s.total_free + (s.hdr (p - HEADER_SIZE)).size ∧
      s1.total_free < SIZE_MOD) := by
  obtain ⟨w, fl, hI⟩ := reach_inv h
  have hlt := inv_totals_lt hI
  exact ⟨hI.tsum, hlt.1, hlt.2, fun fuel n s1 q hm => malloc_totals hI hm,
    fun fuel p s1 hp hfr => free_totals hI hp hfr⟩

/-- The totals in the state after two allocations and one release. -/
theorem totals_conserved_witness :
    get_total_allocated first_released + get_total_free first_released
      = HEAP_SIZE - HEADER_SIZE :=
  (totals_conserved first_released [168] reach_first_released).1

/-- C22, the claim as stated fails: in the reachable state after
`a = my_malloc(72); my_malloc(16); my_free(a)` the registry head is the free
block at offset 0, of `23 + HEADER_SIZE + MIN_BLOCK_SIZE + 1 = 72` bytes.
`my_malloc(23)` chooses it and, since 72 is not more than
`24 + HEADER_SIZE + MIN_BLOCK_SIZE`, does not split: the allocated block keeps
its 72 bytes, not `align_size 23 = 24`, and the arena walk has no new block. -/
theorem split_size_counterexample :
    Reach split_probe [136] ∧
    split_probe.free_list_head = some 0 ∧
    (split_probe.hdr 0).size = 23 + HEADER_SIZE + MIN_BLOCK_SIZE + 1 ∧
    align_size 23 = 24 ∧
    arena_walk split_probe = [0, 104, 152] ∧
    (my_malloc HEAP_SIZE split_probe 23).map
      (fun (x : State × Option Nat) =>
        (x.2, (x.1.hdr 0).size, (x.1.hdr 0).is_free, arena_walk x.1))
      = some (some 32, 72, false, [0, 104, 152]) :=
  ⟨reach_split_probe, by decide, by decide, by decide, by decide, by decide⟩

/-- C22 as amended (split correctness): in an initialised state that satisfies
the partition and registry invariants, let `r = max (align_size n) 16` be the
size `my_malloc n` searches for and `F` the block it chooses, the first
registry block of at least `r` bytes.  `my_malloc n` returns the payload
address of `F`, marked allocated.  If `F` has at least
`r + HEADER_SIZE + MIN_BLOCK_SIZE + 1` bytes, the allocated block has exactly
`r` bytes and a new free block at `F + HEADER_SIZE + r` holds the remainder,
`old size - r - HEADER_SIZE`, so that allocated size, `HEADER_SIZE` and
remainder add up to the old size; otherwise `F` is allocated whole and the
arena walk is unchanged. -/
theorem split_on_allocate (s : State) (hi : s.allocator_initialized = true)
    (hP : PartitionInv s) (hR : RegistryInv s) (n : Nat) (hn : 0 < n) (F : Nat)
    (hF : (registry s).find? (fits s (request_size n)) = some F)
    (fuel : Nat) (hf : HEAP_SIZE ≤ fuel) :
    request_size n = max (align_size n) MIN_BLOCK_SIZE ∧
    ∃ s1, my_malloc fuel s n = some (s1, some (F + HEADER_SIZE)) ∧
      (s1.hdr F).is_free = false ∧
      (request_size n + HEADER_SIZE + MIN_BLOCK_SIZE + 1 ≤ (s.hdr F).size →
        (s1.hdr F).size = request_size n ∧
        F + HEADER_SIZE + request_size n ∈ arena_walk s1 ∧
        F + HEADER_SIZE + request_size n ∉ arena_walk s ∧
        (s1.hdr (F + HEADER_SIZE + request_size n)).is_free = true ∧
        (s1.hdr (F + HEADER_SIZE + request_size n)).size
          = (s.hdr F).size - request_size n - HEADER_SIZE ∧
        (s1.hdr F).size + HEADER_SIZE + (s1.hdr (F + HEADER_SIZE + request_size n)).size
          = (s.hdr F).size) ∧
      ((s.hdr F).size ≤ request_size n + HEADER_SIZE + MIN_BLOCK_SIZE →
        (s1.hdr F).size = (s.hdr F).size ∧ arena_walk s1 = arena_walk s) := by
  have hC := core_of_invs hP hR
  have hFfl : F ∈ registry s := List.mem_of_find?_eq_some hF
  have hfit := (fits_iff s _ F).1 (List.find?_some hF)
  have hrun := malloc_hit hi (by omega) hC.chain (core_fl_fuel hC hf) hF
  refine ⟨request_size_eq_max n, (my_malloc_take s F (request_size n)).1, ?_, ?_, ?_, ?_⟩
  · rw [hrun]; rfl
  · by_cases hsp : request_size n + HEADER_SIZE + MIN_BLOCK_SIZE < (s.hdr F).size
    · obtain ⟨w1, w2, hw⟩ := List.append_of_mem (core_mem_walk hC hFfl)
      rw [hw] at hC
      exact ((take_split hC hFfl hsp).2.2.1 F).trans (if_pos rfl)
    · have hns : (s.hdr F).size ≤ request_size n + HEADER_SIZE + MIN_BLOCK_SIZE := by omega
      exact ((take_nosplit hC hFfl hfit.2 hns).2.2.1 F).trans (if_pos rfl)
  · intro hsp
    obtain ⟨w1, w2, hw⟩ := List.append_of_mem (core_mem_walk hC hFfl)
    have hC2 := hC
    rw [hw] at hC2
    have hsp2 : request_size n + HEADER_SIZE + MIN_BLOCK_SIZE < (s.hdr F).size := by omega
    obtain ⟨hCt, hsz, hfr, -, -, -, -, -, -, -, hnot⟩ := take_split hC2 hFfl hsp2
    have hne : F + HEADER_SIZE + request_size n ≠ F := by simp only [HEADER_SIZE]; omega
    have e1 : ((my_malloc_take s F (request_size n)).1.hdr F).size = request_size n := by
      rw [hsz, if_pos rfl]
    have e2 : ((my_malloc_take s F (request_size n)).1.hdr
        (F + HEADER_SIZE + request_size n)).size
        = (s.hdr F).size - request_size n - HEADER_SIZE := by
      rw [hsz, if_neg hne, if_pos rfl]
    refine ⟨e1, ?_, ?_, ?_, e2, ?_⟩
    · rw [core_arena_walk hCt]
      simp
    · rw [hw]; exact hnot
    · rw [hfr, if_neg hne, if_pos rfl]
    · rw [e1, e2]
      simp only [HEADER_SIZE, MIN_BLOCK_SIZE] at *
      omega
  · intro hns
    obtain ⟨hCt, hsz, -⟩ := take_nosplit hC hFfl hfit.2 hns
    exact ⟨hsz F, (core_arena_walk hCt).trans (core_arena_walk hC).symm⟩

/-- Witness of C22: `my_malloc(100)` in the state with one live block, where
the chosen block at offset 136 is split. -/
theorem split_on_allocate_witness :
    request_size 100 = max (align_size 100) MIN_BLOCK_SIZE ∧
    ∃ s1, my_malloc HEAP_SIZE one_block 100 = some (s1, some (136 + HEADER_SIZE)) ∧
      (s1.hdr 136).is_free = false ∧
      (request_size 100 + HEADER_SIZE + MIN_BLOCK_SIZE + 1 ≤ (one_block.hdr 136).size →
        (s1.hdr 136).size = request_size 100 ∧
        136 + HEADER_SIZE + request_size 100 ∈ arena_walk s1 ∧
        136 + HEADER_SIZE + request_size 100 ∉ arena_walk one_block ∧
        (s1.hdr (136 + HEADER_SIZE + request_size 100)).is_free = true ∧
        (s1.hdr (136 + HEADER_SIZE + request_size 100)).size
          = (one_block.hdr 136).size - request_size 100 - HEADER_SIZE ∧
        (s1.hdr 136).size + HEADER_SIZE + (s1.hdr (136 + HEADER_SIZE + request_size 100)).size
          = (one_block.hdr 136).size) ∧
      ((one_block.hdr 136).size ≤ request_size 100 + HEADER_SIZE + MIN_BLOCK_SIZE →
        (s1.hdr 136).size = (one_block.hdr 136).size ∧ arena_walk s1 = arena_walk one_block) :=
  split_on_allocate one_block rfl (reach_partition reach_one_block)
    (reach_registry reach_one_block) 100 (by decide) 136 (by decide) HEAP_SIZE (le_refl _)

/-- C28 evaluated on the code: an arena whose header at offset 0 carries the
size `SIZE_MAX - 31`.  The arena walk from offset 0 does not land on
`HEAP_SIZE`.  In `validate_heap` the sum `block + HEADER_SIZE + block->size`
wraps around to `block`, so the bounds check passes, and
`HEADER_SIZE + block->size` is 0 in `size_t`, so `current_pos` does not
advance: whatever the iteration budget, the loop has not returned. -/
theorem validate_heap_wraps (heap : Nat) (hh : heap + HEAP_SIZE < SIZE_MOD) (fuel : Nat) :
    (wrapping_header.hdr 0).size = SIZE_MOD - 1 - 31 ∧
    ptr_add (ptr_add heap HEADER_SIZE) (wrapping_header.hdr 0).size = heap ∧
    size_add HEADER_SIZE (wrapping_header.hdr 0).size = 0 ∧
    ¬ PartitionInv wrapping_header ∧
    validate_heap heap fuel wrapping_header = none := by
  have hM := SIZE_MOD_eq
  have hS : HEAP_SIZE = 1048576 := rfl
  have h0 : (wrapping_header.hdr 0).size = SIZE_MOD - HEADER_SIZE := rfl
  have hw : arena_walk wrapping_header = [0] := by decide
  refine ⟨by decide, ?_, by decide, ?_, validate_loop_stuck _ heap hh h0 fuel⟩
  · rw [h0]
    unfold ptr_add
    have e : (heap + HEADER_SIZE) % SIZE_MOD = heap + HEADER_SIZE :=
      Nat.mod_eq_of_lt (by simp only [HEADER_SIZE]; omega)
    have e2 : heap + HEADER_SIZE + (SIZE_MOD - HEADER_SIZE) = heap + SIZE_MOD := by
      simp only [HEADER_SIZE]; omega
    rw [e, e2, Nat.add_mod_right]
    exact Nat.mod_eq_of_lt (by omega)
  · unfold PartitionInv
    rw [hw]
    intro hwalk
    have h2 : 0 + HEADER_SIZE + (wrapping_header.hdr 0).size = HEAP_SIZE := hwalk.2
    rw [h0] at h2
    simp only [HEADER_SIZE] at h2
    omega

/-- Witness of C28: the arena at the address 4096 and a budget of `HEAP_SIZE`
iterations. -/
theorem validate_heap_wraps_witness :
    ¬ PartitionInv wrapping_header ∧
    validate_heap 4096 HEAP_SIZE wrapping_header = none :=
  ⟨(validate_heap_wraps 4096 (by decide) HEAP_SIZE).2.2.2.1,
   (validate_heap_wraps 4096 (by decide) HEAP_SIZE).2.2.2.2⟩

/-- C25 (postcondition of `merge_free_blocks`): for a state that satisfies the
partition and registry invariants the call returns, and in the state `sm` it
returns no two physically adjacent blocks are both free.  A maximal run
`a :: rest` of adjacent free blocks (the block before it and the block after
it, if any, are not free) has become the one free block at `a`, whose size is
the sum of the sizes of the run plus `HEADER_SIZE` for each of the absorbed
blocks `rest`; those are no longer in the arena walk nor in the registry.  The
partition and registry invariants hold in `sm`, every allocated block is
still in the walk with its header unchanged, the walk and the registry only
lose blocks, and totals, payload and flag are unchanged. -/
theorem coalesce_postcondition (s : State) (hP : PartitionInv s) (hR : RegistryInv s)
    (fuel : Nat) (hf : HEAP_SIZE ≤ fuel) :
    ∃ sm, merge_free_blocks fuel s = some sm ∧
      NoAdjFree sm.hdr (arena_walk sm) ∧
      PartitionInv sm ∧ RegistryInv sm ∧
      (∀ pre a rest post, arena_walk s = pre ++ (a :: rest) ++ post →
        (∀ o ∈ a :: rest, (s.hdr o).is_free = true) →
        (∀ p x, pre = p ++ [x] → (s.hdr x).is_free = false) →
        (∀ x p, post = x :: p → (s.hdr x).is_free = false) →
        a ∈ arena_walk sm ∧ a ∈ registry sm ∧ (sm.hdr a).is_free = true ∧
        (sm.hdr a).size
          = ((a :: rest).map (fun o => (s.hdr o).size)).sum + rest.length * HEADER_SIZE ∧
        ∀ o ∈ rest, o ∉ arena_walk sm ∧ o ∉ registry sm) ∧
      (∀ o ∈ arena_walk s, (s.hdr o).is_free = false →
        o ∈ arena_walk sm ∧ sm.hdr o = s.hdr o) ∧
      (∀ o ∈ arena_walk sm, o ∈ arena_walk s) ∧
      (registry sm).Sublist (registry s) ∧
      get_total_allocated sm = get_total_allocated s ∧
      get_total_free sm = get_total_free s ∧
      sm.data = s.data ∧ sm.allocator_initialized = s.allocator_initialized := by
  have hC := core_of_invs hP hR
  obtain ⟨sm, fl2, hm, hC2, hrel, hna, -⟩ := merge_spec hC hf
  have hw2 := core_arena_walk hC2
  have hr2 := core_registry hC2
  have hnotfl : ∀ o, (s.hdr o).is_free = false → o ∉ registry s := fun o ho h => by
    have := core_mem_free hC h
    rw [ho] at this; cases this
  refine ⟨sm, hm, ?_, ?_, ?_, ?_, ?_, ?_, ?_, hrel.talloc_eq, hrel.tfree_eq, hrel.data_eq,
    hrel.init_eq⟩
  · rw [hw2]; exact hna
  · unfold PartitionInv
    rw [hw2]; exact hC2.walk
  · unfold RegistryInv
    rw [hw2, hr2]
    refine ⟨hC2.chain, hC2.nodup, hC2.mem_fl, ?_⟩
    intro o ho hfo
    have hos : (s.hdr o).is_free = false := by rw [← hrel.free_eq o]; exact hfo
    rw [hrel.untouched o (hnotfl o hos)]
    exact hR.2.2.2 o (hrel.subset o ho) hos
  · intro pre a rest post hw hrun hpre hpost
    have hwalk : IsWalk s.hdr 0 (pre ++ (a :: rest) ++ post) HEAP_SIZE := by
      rw [← hw]; exact hP
    have hC2' := hC2
    rw [hw] at hC2'
    obtain ⟨h1, h2, h3, h4⟩ := merge_run hwalk hC2' hrel.free_eq hrun hpre hpost
    rw [hw2, hr2, hw]
    exact ⟨h1, (hC2'.mem_fl a).2 ⟨h1, h2⟩, h2, h3, h4⟩
  · intro o ho hfo
    rw [hw2]
    exact ⟨surv_mem_of_not_free _ _ o false ho hfo, hrel.untouched o (hnotfl o hfo)⟩
  · intro o ho
    rw [hw2] at ho
    exact hrel.subset o ho
  · rw [hr2]; exact hrel.sub

/-- Witness of C25: the state with two adjacent free blocks, of 1000 and
1047512 bytes. -/
theorem coalesce_postcondition_witness :
    ∃ sm, merge_free_blocks HEAP_SIZE two_free = some sm ∧
      NoAdjFree sm.hdr (arena_walk sm) ∧
      PartitionInv sm ∧ RegistryInv sm ∧
      (∀ pre a rest post, arena_walk two_free = pre ++ (a :: rest) ++ post →
        (∀ o ∈ a :: rest, (two_free.hdr o).is_free = true) →
        (∀ p x, pre = p ++ [x] → (two_free.hdr x).is_free = false) →
        (∀ x p, post = x :: p → (two_free.hdr x).is_free = false) →
        a ∈ arena_walk sm ∧ a ∈ registry sm ∧ (sm.hdr a).is_free = true ∧
        (sm.hdr a).size
          = ((a :: rest).map (fun o => (two_free.hdr o).size)).sum
            + rest.length * HEADER_SIZE ∧
        ∀ o ∈ rest, o ∉ arena_walk sm ∧ o ∉ registry sm) ∧
      (∀ o ∈ arena_walk two_free, (two_free.hdr o).is_free = false →
        o ∈ arena_walk sm ∧ sm.hdr o = two_free.hdr o) ∧
      (∀ o ∈ arena_walk sm, o ∈ arena_walk two_free) ∧
      (registry sm).Sublist (registry two_free) ∧
      get_total_allocated sm = get_total_allocated two_free ∧
      get_total_free sm = get_total_free two_free ∧
      sm.data = two_free.data ∧ sm.allocator_initialized = two_free.allocator_initialized :=
  coalesce_postcondition two_free two_free_partition two_free_registry_inv
    HEAP_SIZE (le_refl _)

/-- `get_fragmentation_count` over `Reach`: in every state of `Reach` the call
returns
the number of entries of the registry, and that is the number of blocks of the
arena walk that are marked free. -/
theorem fragmentation_count_spec (s : State) (live : List Nat) (h : Reach s live)
    (fuel : Nat) (hf : HEAP_SIZE ≤ fuel) :
    get_fragmentation_count fuel s = some (registry s).length ∧
    (registry s).length = ((arena_walk s).filter (fun o => (s.hdr o).is_free)).length := by
  obtain ⟨w, fl, hI⟩ := reach_inv h
  rw [core_registry hI.core, core_arena_walk hI.core]
  exact ⟨inv_frag_count hI hf, core_fl_count hI.core⟩

/-- The count in the scenario of `test_fragmentation` on the fresh arena:
after ten allocations of 50 bytes and the release of every other one the
count is 5, the blocks at 88, 264, 440, 616 and the block at 792 merged with
the rest of the arena. -/
theorem fragmentation_count_spec_witness :
    fragmentation_scenario HEAP_SIZE = some fragmented ∧
    get_fragmentation_count HEAP_SIZE fragmented = some (registry fragmented).length ∧
    (registry fragmented).length
      = ((arena_walk fragmented).filter (fun o => (fragmented.hdr o).is_free)).length ∧
    registry fragmented = [792, 616, 440, 264, 88] ∧
    1 < (registry fragmented).length :=
  ⟨fragmented_run,
   (fragmentation_count_spec fragmented _ reach_fragmented HEAP_SIZE (le_refl _)).1,
   (fragmentation_count_spec fragmented _ reach_fragmented HEAP_SIZE (le_refl _)).2,
   by decide, by decide⟩

/-- C31 evaluated on the code: after `allocator_init(); a = my_malloc(100);
b = my_malloc(16); c = my_malloc(100); my_free(b)` the addresses `a = 32` and
`c = 216` are live; the block of `c` is the allocated block at offset 184, of
104 bytes, and the block of `a` has 104 bytes.  `my_realloc(a, SIZE_MAX)`
passes `SIZE_MAX` to `my_malloc`, which returns the address 168 of the 16-byte
block at offset 136 (the rounding of the request wraps around).  The `memcpy`
of the 104 bytes of `a` to address 168 then covers the addresses 168 to 271:
it runs past the end of the 16-byte block, over the whole header of `c`
(184 to 215) and into the payload of `c` (from 216), so that the live block of
`c` is overwritten and no result is assigned to the call, with any amount of
fuel.  `my_calloc(1, SIZE_MAX)` gets the same block and its `memset` of
`SIZE_MAX` bytes from address 168 covers every byte of the arena that follows. -/
theorem realloc_overrun_hits_live_block :
    Reach crowded [216, 32] ∧
    (arena_walk crowded, (crowded.hdr 0).size, (crowded.hdr 184).size,
      (crowded.hdr 184).is_free) = ([0, 136, 184, 320], 104, 104, false) ∧
    (my_malloc HEAP_SIZE crowded (SIZE_MOD - 1)).map
      (fun (x : State × Option Nat) =>
        (x.2, (x.1.hdr 136).size, arena_walk x.1, (x.1.hdr 184).is_free))
      = some (some 168, 16, [0, 136, 184, 320], false) ∧
    (168 + 16 ≤ 184 ∧ 184 + HEADER_SIZE ≤ 168 + 104 ∧ 216 < 168 + 104) ∧
    (∀ fuel, my_realloc fuel crowded (some 32) (SIZE_MOD - 1) = none) ∧
    (1 * (SIZE_MOD - 1) < SIZE_MOD ∧ HEAP_SIZE < 168 + 1 * (SIZE_MOD - 1)) ∧
    (∀ fuel, my_calloc fuel crowded 1 (SIZE_MOD - 1) = none) := by
  have hm : my_malloc HEAP_SIZE crowded (SIZE_MOD - 1)
      = some ((my_malloc_take crowded 136 16).1, some 168) := rfl
  have hmf : ∀ fuel y, my_malloc fuel crowded (SIZE_MOD - 1) = some y →
      y = ((my_malloc_take crowded 136 16).1, some 168) := by
    intro fuel y hy
    have h1 := malloc_mono hy (le_max_left fuel HEAP_SIZE)
    have h2 := malloc_mono hm (le_max_right fuel HEAP_SIZE)
    rw [h1] at h2
    exact Option.some.inj h2
  refine ⟨reach_crowded, by decide, by decide, by decide, ?_, by decide, ?_⟩
  · intro fuel
    cases hr : my_realloc fuel crowded (some 32) (SIZE_MOD - 1) with
    | none => rfl
    | some z =>
      exfalso
      unfold my_realloc at hr
      simp only [] at hr
      rw [if_neg (by decide), if_neg (by decide)] at hr
      cases hy : my_malloc fuel crowded (SIZE_MOD - 1) with
      | none => rw [hy] at hr; cases hr
      | some y =>
        rw [hy, hmf fuel y hy] at hr
        simp only [] at hr
        have hcp : memcpy (my_malloc_take crowded 136 16).1 168 32
            (crowded.hdr (32 - HEADER_SIZE)).size = none := rfl
        rw [hcp] at hr
        cases hr
  · intro fuel
    cases hr : my_calloc fuel crowded 1 (SIZE_MOD - 1) with
    | none => rfl
    | some z =>
      exfalso
      unfold my_calloc at hr
      simp only [] at hr
      rw [if_neg (by decide)] at hr
      cases hy : my_malloc fuel crowded (1 * (SIZE_MOD - 1) % SIZE_MOD) with
      | none => rw [hy] at hr; cases hr
      | some y =>
        have e : 1 * (SIZE_MOD - 1) % SIZE_MOD = SIZE_MOD - 1 := by decide
        rw [hy] at hr
        rw [e] at hy
        rw [hmf fuel y hy] at hr
        simp only [] at hr
        have hms : memset (my_malloc_take crowded 136 16).1 168 0
            (1 * (SIZE_MOD - 1) % SIZE_MOD) = none := rfl
        rw [hms] at hr
        cases hr

/-- Allocate/release round trip over `Reach`: in a state `s` of `Reach`, when
`my_malloc` returns an address `p` (which it only does for a request
`n > 0`), `my_free` of `p` returns, with at least `HEAP_SIZE` units of fuel,
a state whose arena walk has the same offsets, sizes and `is_free` flags as
that of `s` and whose `total_allocated` and `total_free` are those of `s`.
The registry holds the same blocks as in `s`, with the restored block
`p - HEADER_SIZE` moved to the head. -/
theorem malloc_free_round_trip (s s1 : State) (live : List Nat) (fuel fuel2 n p : Nat)
    (hR : Reach s live) (_hn : 0 < n) (h : my_malloc fuel s n = some (s1, some p))
    (hf : HEAP_SIZE ≤ fuel2) :
    ∃ s2, my_free fuel2 s1 (some p) = some s2 ∧
      (arena_walk s2).map (fun o => (o, (s2.hdr o).size, (s2.hdr o).is_free))
        = (arena_walk s).map (fun o => (o, (s.hdr o).size, (s.hdr o).is_free)) ∧
      get_total_allocated s2 = get_total_allocated s ∧
      get_total_free s2 = get_total_free s ∧
      registry s2 = (p - HEADER_SIZE) :: (registry s).erase (p - HEADER_SIZE) ∧
      (registry s2).Perm (registry s) := by
  obtain ⟨w, fl, hI⟩ := reach_inv hR
  obtain ⟨s2, hrun, hC2, hpfl, hall⟩ := round_trip_inv hI h hf
  obtain ⟨w1, fl1, hI1⟩ := malloc_result hI h
  have hp1 : p ∈ (some p).toList ++ live := by simp
  obtain ⟨hle, hta1, htf1, -⟩ := malloc_totals hI h
  obtain ⟨hle2, hta2, htf2, -⟩ := free_totals hI1 hp1 hrun
  refine ⟨s2, hrun, ?_, ?_, ?_, ?_, ?_⟩
  · rw [core_arena_walk hC2, core_arena_walk hI.core]
    apply List.map_congr_left
    intro o ho
    obtain ⟨e1, e2⟩ := hall o ho
    rw [e1, e2]
  · show s2.total_allocated = s.total_allocated
    omega
  · show s2.total_free = s.total_free
    omega
  · rw [core_registry hC2, core_registry hI.core]
  · rw [core_registry hC2, core_registry hI.core]
    exact (List.perm_cons_erase hpfl).symm

theorem malloc_free_round_trip_witness :
    Reach one_block [32] ∧ 0 < 100 ∧
    my_malloc HEAP_SIZE one_block 100 = some (two_blocks, some 168) ∧
    HEAP_SIZE ≤ HEAP_SIZE ∧
    ∃ s2, my_free HEAP_SIZE two_blocks (some 168) = some s2 ∧
      (arena_walk s2).map (fun o => (o, (s2.hdr o).size, (s2.hdr o).is_free))
        = (arena_walk one_block).map
            (fun o => (o, (one_block.hdr o).size, (one_block.hdr o).is_free)) ∧
      get_total_allocated s2 = get_total_allocated one_block ∧
      get_total_free s2 = get_total_free one_block ∧
      registry s2 = (168 - HEADER_SIZE) :: (registry one_block).erase (168 - HEADER_SIZE) ∧
      (registry s2).Perm (registry one_block) :=
  ⟨reach_one_block, by decide, rfl, le_refl _,
    malloc_free_round_trip one_block two_blocks [32] HEAP_SIZE HEAP_SIZE 100 168
      reach_one_block (by decide) rfl (le_refl _)⟩

/-- C33, the claim as stated fails for an allocate call that is served: after
`allocator_init(); my_malloc(100); allocator_cleanup()` a further
`my_malloc(100)` returns the address 32 and leaves an arena of two blocks, the
first one allocated, with `total_allocated = 104`, not a single free block
with `total_allocated = 0`. -/
theorem teardown_malloc_counterexample :
    Reach one_block [32] ∧ torn_down = allocator_cleanup one_block ∧
    (my_malloc HEAP_SIZE torn_down 100).map
      (fun (x : State × Option Nat) =>
        (x.2, arena_walk x.1, (x.1.hdr 0).is_free, get_total_allocated x.1))
      = some (some 32, [0, 136], false, 104) :=
  ⟨reach_one_block, rfl, by decide⟩

/-- C33 as amended (teardown then re-initialisation): `allocator_cleanup` only
clears the flag, leaving headers, payload, registry head and totals as they
were, and a second call changes nothing.  After it, `allocator_init` resets
the arena to the single free block at offset 0 of `HEAP_SIZE - HEADER_SIZE`
bytes, the only registry entry, with totals 0 and `HEAP_SIZE - HEADER_SIZE`
and no live address, whatever blocks were allocated before; and `my_malloc`
is `my_malloc` on that reset arena: the arena is reset first and the request
is served from the single free block, so `my_malloc 0` returns `NULL` and the
reset arena. -/
theorem teardown_then_reinit (s : State) (fuel n : Nat) :
    ((allocator_cleanup s).hdr = s.hdr ∧ (allocator_cleanup s).data = s.data ∧
      (allocator_cleanup s).free_list_head = s.free_list_head ∧
      get_total_allocated (allocator_cleanup s) = get_total_allocated s ∧
      get_total_free (allocator_cleanup s) = get_total_free s ∧
      (allocator_cleanup s).allocator_initialized = false) ∧
    allocator_cleanup (allocator_cleanup s) = allocator_cleanup s ∧
    (arena_walk (allocator_init (allocator_cleanup s)) = [0] ∧
      (allocator_init (allocator_cleanup s)).hdr 0 =
        { size := HEAP_SIZE - HEADER_SIZE, is_free := true, next := none, prev := none } ∧
      registry (allocator_init (allocator_cleanup s)) = [0] ∧
      get_total_allocated (allocator_init (allocator_cleanup s)) = 0 ∧
      get_total_free (allocator_init (allocator_cleanup s)) = HEAP_SIZE - HEADER_SIZE ∧
      Reach (allocator_init (allocator_cleanup s)) []) ∧
    my_malloc fuel (allocator_cleanup s) n
      = my_malloc fuel (allocator_init (allocator_cleanup s)) n ∧
    my_malloc fuel (allocator_cleanup s) 0
      = some (allocator_init (allocator_cleanup s), none) := by
  have hflag : (allocator_cleanup s).allocator_initialized = false := by
    unfold allocator_cleanup
    cases h : s.allocator_initialized <;> simp [h]
  have hI := inv_init (allocator_cleanup s) hflag
  have hinit : (allocator_init (allocator_cleanup s)).allocator_initialized = true := hI.init
  have hmal : ∀ m, my_malloc fuel (allocator_cleanup s) m
      = my_malloc fuel (allocator_init (allocator_cleanup s)) m := by
    intro m
    unfold my_malloc
    simp only [hflag, hinit, Bool.false_eq_true, if_false, if_true]
  refine ⟨⟨?_, ?_, ?_, ?_, ?_, hflag⟩, ?_, ⟨core_arena_walk hI.core, ?_, core_registry hI.core,
    ?_, ?_, Reach.init _ hflag⟩, hmal n, ?_⟩
  · unfold allocator_cleanup; split <;> rfl
  · unfold allocator_cleanup; split <;> rfl
  · unfold allocator_cleanup; split <;> rfl
  · unfold allocator_cleanup; split <;> rfl
  · unfold allocator_cleanup; split <;> rfl
  · have hno : ∀ t : State, t.allocator_initialized = false → allocator_cleanup t = t := by
      intro t h
      unfold allocator_cleanup
      simp [h]
    exact hno _ hflag
  · simp [allocator_init, hflag]
  · simp [allocator_init, hflag, get_total_allocated]
  · simp [allocator_init, hflag, get_total_free]
  · rw [hmal 0]
    exact malloc_zero fuel _ hinit

/-- Witness of C33: teardown of the state with one live block, followed by
`allocator_init` or by `my_malloc(0)`. -/
theorem teardown_then_reinit_witness :
    arena_walk (allocator_init (allocator_cleanup one_block)) = [0] ∧
    get_total_allocated (allocator_init (allocator_cleanup one_block)) = 0 ∧
    get_total_free (allocator_init (allocator_cleanup one_block)) = HEAP_SIZE - HEADER_SIZE ∧
    my_malloc HEAP_SIZE (allocator_cleanup one_block) 0
      = some (allocator_init (allocator_cleanup one_block), none) :=
  ⟨(teardown_then_reinit one_block HEAP_SIZE 0).2.2.1.1,
   (teardown_then_reinit one_block HEAP_SIZE 0).2.2.1.2.2.2.1,
   (teardown_then_reinit one_block HEAP_SIZE 0).2.2.1.2.2.2.2.1,
   (teardown_then_reinit one_block HEAP_SIZE 0).2.2.2.2⟩

/-! ### What the code does after a copy that runs past its block

The requests `SIZE_MAX - 7 < size` make the rounding of `align_size` wrap, so
that `my_malloc` hands out a 16-byte block and the `memcpy` of `my_realloc`
overwrites what follows it.  The theorems below run such programs on the bytes
of the arena.  Every address passed to `my_free` or `my_realloc` in them is one
that was returned before and not released since, and every store of the
caller lies in the payload of a block it holds; in the programs quoted, `p` is
used as a `char *`. -/

/-- C1 on the code, at `allocator_init(); p = my_malloc(100);
*(size_t *)(p + 16) = 1048368; *(int *)(p + 24) = 0;
q = my_realloc(p, SIZE_MAX)`: the call returns the address 168, and afterwards
the walk from offset 0 meets the blocks 0, 136 and 184 and leaves the arena at
`HEAP_SIZE + 8`, the payload of the block at 184 crossing the arena end, and
`validate_heap` returns 0. -/
theorem overrun_breaks_partition :
    (overrun_scenario 1048368 0).map Prod.snd = some (some 168) ∧
    (overrun_scenario 1048368 0).bind (fun r => Raw.arena_walk HEAP_SIZE r.1)
      = some ([(0, 104, true), (136, 16, false), (184, 1048368, false)], HEAP_SIZE + 8) ∧
    (overrun_scenario 1048368 0).bind (fun r => Raw.validate_heap HEAP_SIZE r.1)
      = some false :=
  ⟨rfl, rfl, rfl⟩

/-- C2 on the code, at `allocator_init(); p = my_malloc(100);
*(size_t *)(p + 16) = 1048360; *(int *)(p + 24) = 0;
q = my_realloc(p, SIZE_MAX)`: afterwards the blocks reached from
`free_list_head` are those at the offsets 0 and 184, while the block at 184 is
a block of the arena walk whose flag `is_free` is 0. -/
theorem overrun_breaks_registry :
    (overrun_scenario 1048360 0).map Prod.snd = some (some 168) ∧
    (overrun_scenario 1048360 0).bind (fun r => Raw.arena_walk HEAP_SIZE r.1)
      = some ([(0, 104, true), (136, 16, false), (184, 1048360, false)], HEAP_SIZE) ∧
    (overrun_scenario 1048360 0).bind (fun r => Raw.registry HEAP_SIZE r.1)
      = some [(0, 104, true), (184, 1048360, false)] :=
  ⟨rfl, rfl, rfl⟩

/-- C3 on the code, at `allocator_init(); p = my_malloc(100);
*(size_t *)(p + 16) = S; *(int *)(p + 24) = 0; q = my_realloc(p, SIZE_MAX)`:
with `S = 1048328` the arena walk ends with a block of size 0 at offset
1048544, and with `S = 1048364` the block at offset 184 has a size that is not
a multiple of 8. -/
theorem overrun_breaks_sizes :
    (overrun_scenario 1048328 0).bind (fun r => Raw.arena_walk HEAP_SIZE r.1)
      = some ([(0, 104, true), (136, 16, false), (184, 1048328, false),
          (1048544, 0, false)], HEAP_SIZE) ∧
    (overrun_scenario 1048364 0).bind (fun r => Raw.arena_walk HEAP_SIZE r.1)
      = some ([(0, 104, true), (136, 16, false), (184, 1048364, false)], HEAP_SIZE + 4) ∧
    0 < MIN_BLOCK_SIZE ∧ 1048364 % ALIGNMENT = 4 :=
  ⟨rfl, rfl, by decide, by decide⟩

/-- C4 on the code, at `allocator_init(); p = my_malloc(100);
*(size_t *)(p + 16) = 1048360; *(int *)(p + 24) = 0;
q = my_realloc(p, SIZE_MAX)`: afterwards `get_total_allocated` returns 16,
while the blocks of the arena walk that are marked allocated, those at 136 and
184, have 16 + 1048360 bytes. -/
theorem overrun_breaks_total_allocated :
    (overrun_scenario 1048360 0).map (fun r => Raw.get_total_allocated r.1) = some 16 ∧
    (overrun_scenario 1048360 0).bind (fun r => Raw.arena_walk HEAP_SIZE r.1)
      = some ([(0, 104, true), (136, 16, false), (184, 1048360, false)], HEAP_SIZE) ∧
    (([(0, 104, true), (136, 16, false), (184, 1048360, false)] :
        List (Nat × Nat × Bool)).filter (fun b => !b.2.2)).map (fun b => b.2.1)
      = [16, 1048360] :=
  ⟨rfl, rfl, rfl⟩

/-- C6 on the code, at `allocator_init(); p = my_malloc(100);
*(size_t *)(p + 16) = 1048360; *(int *)(p + 24) = 0;
q = my_realloc(p, SIZE_MAX); my_malloc(200)`: before the last call the registry
holds the blocks at 0 and 184, of 104 and 1048360 bytes, so the block at 184
is the first one with at least 200 bytes; the call returns `NULL`. -/
theorem overrun_breaks_first_fit :
    (overrun_scenario 1048360 0).bind (fun r => Raw.registry HEAP_SIZE r.1)
      = some [(0, 104, true), (184, 1048360, false)] ∧
    request_size 200 = 200 ∧
    ((overrun_scenario 1048360 0).bind
      (fun r => Raw.my_malloc HEAP_SIZE r.1 200)).map Prod.snd = some none :=
  ⟨rfl, by decide, rfl⟩

/-- C8 on the code, at `allocator_init(); x = my_malloc(16); y = my_malloc(24);
p = my_malloc(100); my_free(x); *(size_t *)(p + 16) = 24; *(int *)(p + 24) = 0;
*(size_t *)(p + 72) = 104; *(int *)(p + 80) = 1; q = my_realloc(p, SIZE_MAX);
a = my_malloc(100); my_free(a); my_malloc(100)`: `a` is the address 272, and
the last call returns `NULL`, not `a`. -/
theorem overrun_breaks_immediate_reuse :
    (overrun_self_scenario 24 0).map Prod.snd = some (some 32) ∧
    ((overrun_self_scenario 24 0).bind
      (fun r => Raw.my_malloc HEAP_SIZE r.1 100)).map Prod.snd = some (some 272) ∧
    ((overrun_self_scenario 24 0).bind fun r =>
      (Raw.my_malloc HEAP_SIZE r.1 100).bind fun a =>
      (Raw.my_free HEAP_SIZE a.1 (some 272)).bind fun s =>
      Raw.my_malloc HEAP_SIZE s 100).map Prod.snd = some none :=
  ⟨rfl, rfl, rfl⟩

/-- C10 on the code, at `allocator_init(); p = my_malloc(100);
*(size_t *)(p + 16) = 1048360; *(int *)(p + 24) = 0;
q = my_realloc(p, SIZE_MAX); my_free(q)`: every address returned has been
released (`p` by `my_realloc`, `q` by `my_free`) and `get_total_allocated`
returns 0, but the arena walk has two blocks, a free one of 152 bytes at
offset 0 and one marked allocated at offset 184. -/
theorem overrun_breaks_full_release :
    (overrun_scenario 1048360 0).map Prod.snd = some (some 168) ∧
    ((overrun_scenario 1048360 0).bind
      (fun r => Raw.my_free HEAP_SIZE r.1 (some 168))).bind
        (fun s => Raw.arena_walk HEAP_SIZE s)
      = some ([(0, 152, true), (184, 1048360, false)], HEAP_SIZE) ∧
    ((overrun_scenario 1048360 0).bind
      (fun r => Raw.my_free HEAP_SIZE r.1 (some 168))).map Raw.get_total_allocated
      = some 0 :=
  ⟨rfl, rfl, rfl⟩

/-- C11 on the code, at `allocator_init(); p = my_malloc(100);
*(size_t *)(p + 16) = 1048368; *(int *)(p + 24) = 0;
q = my_realloc(p, SIZE_MAX); my_free(q); my_free(q)`: `q` is the live address
168; the second `my_free(q)` leaves the walk, the registry and the totals as
the first one left them, and `validate_heap` returns 0 afterwards. -/
theorem overrun_breaks_double_release :
    (overrun_scenario 1048368 0).map Prod.snd = some (some 168) ∧
    ((overrun_scenario 1048368 0).bind
      (fun r => Raw.my_free HEAP_SIZE r.1 (some 168))).map
        (fun s => (Raw.arena_walk HEAP_SIZE s, Raw.registry HEAP_SIZE s,
          s.total_allocated, s.total_free))
      = some (some ([(0, 152, true), (184, 1048368, false)], HEAP_SIZE + 8),
          some [(0, 152, true), (184, 1048368, false)], 0, 1048544) ∧
    ((overrun_scenario 1048368 0).bind fun r =>
      (Raw.my_free HEAP_SIZE r.1 (some 168)).bind fun s =>
      Raw.my_free HEAP_SIZE s (some 168)).map
        (fun s => (Raw.arena_walk HEAP_SIZE s, Raw.registry HEAP_SIZE s,
          s.total_allocated, s.total_free))
      = some (some ([(0, 152, true), (184, 1048368, false)], HEAP_SIZE + 8),
          some [(0, 152, true), (184, 1048368, false)], 0, 1048544) ∧
    ((overrun_scenario 1048368 0).bind fun r =>
      (Raw.my_free HEAP_SIZE r.1 (some 168)).bind fun s =>
      (Raw.my_free HEAP_SIZE s (some 168)).bind fun t =>
      Raw.validate_heap HEAP_SIZE t) = some false :=
  ⟨rfl, rfl, rfl, rfl⟩

/-- C14 on the code, at `allocator_init(); p = my_malloc(100);
*(size_t *)(p + 16) = 1048632; *(int *)(p + 24) = 1;
q = my_realloc(p, SIZE_MAX); my_malloc(HEAP_SIZE + 1)`: before the last call
the totals are 16 and 1048528; the call returns the address 216, of the block
at offset 184 whose `size` field holds 1048632, and changes both totals. -/
theorem overrun_serves_oversize_request :
    (overrun_scenario 1048632 1).map
      (fun r => (r.2, Raw.get_total_allocated r.1, Raw.get_total_free r.1))
      = some (some 168, 16, 1048528) ∧
    ((overrun_scenario 1048632 1).bind
      (fun r => Raw.my_malloc HEAP_SIZE r.1 (HEAP_SIZE + 1))).map
        (fun r => (r.2, Raw.get_total_allocated r.1, Raw.get_total_free r.1))
      = some (some 216, 1048648, SIZE_MOD - 104) :=
  ⟨rfl, rfl⟩

/-- C20 on the code, at `allocator_init(); x = my_malloc(16); y = my_malloc(24);
p = my_malloc(100); my_free(x); *(size_t *)(p + 16) = 24; *(int *)(p + 24) = 1;
*(size_t *)(p + 72) = 104; *(int *)(p + 80) = 1; q = my_realloc(p, SIZE_MAX);
my_realloc(y, 2000000)`: `y` is the live address 80, whose block, at offset
48, has 24 bytes and a header that the copy has overwritten, with the flag
set; the inner `my_malloc(2000000)` returns `NULL` and so does `my_realloc`,
both totals are unchanged, and afterwards the block of `y` has 1048496 bytes,
the coalescing pass of the failed `my_malloc` having merged it with the blocks
that follow. -/
theorem overrun_breaks_failed_resize :
    (overrun_self_scenario 24 1).bind (fun r => Raw.arena_walk HEAP_SIZE r.1)
      = some ([(0, 16, false), (48, 24, true), (104, 104, true), (240, 1048304, true)],
          HEAP_SIZE) ∧
    (overrun_self_scenario 24 1).map
      (fun r => (Raw.get_total_allocated r.1, Raw.get_total_free r.1)) = some (144, 1048400) ∧
    ((overrun_self_scenario 24 1).bind
      (fun r => Raw.my_malloc HEAP_SIZE r.1 2000000)).map Prod.snd = some none ∧
    ((overrun_self_scenario 24 1).bind
      (fun r => Raw.my_realloc HEAP_SIZE r.1 (some 80) 2000000)).map
        (fun r => (r.2, Raw.get_total_allocated r.1, Raw.get_total_free r.1))
      = some (none, 144, 1048400) ∧
    ((overrun_self_scenario 24 1).bind
      (fun r => Raw.my_realloc HEAP_SIZE r.1 (some 80) 2000000)).bind
        (fun r => Raw.arena_walk HEAP_SIZE r.1)
      = some ([(0, 16, false), (48, 1048496, true)], HEAP_SIZE) :=
  ⟨rfl, rfl, rfl, rfl, rfl⟩

/-- C24 on the code.  At `allocator_init(); p = my_malloc(100);
*(size_t *)(p + 16) = 1048360; *(int *)(p + 24) = 0;
q = my_realloc(p, SIZE_MAX)` the registry has two entries and
`get_fragmentation_count` returns 1.  At the program of
`overrun_self_scenario 24 0` the arena walk has two blocks marked free, at 104
and 240, and `get_fragmentation_count` returns 1. -/
theorem overrun_breaks_fragmentation_count :
    (overrun_scenario 1048360 0).bind (fun r => Raw.registry HEAP_SIZE r.1)
      = some [(0, 104, true), (184, 1048360, false)] ∧
    (overrun_scenario 1048360 0).bind
      (fun r => Raw.get_fragmentation_count HEAP_SIZE r.1) = some 1 ∧
    (overrun_self_scenario 24 0).bind (fun r => Raw.arena_walk HEAP_SIZE r.1)
      = some ([(0, 16, false), (48, 24, false), (104, 104, true), (240, 1048304, true)],
          HEAP_SIZE) ∧
    (overrun_self_scenario 24 0).bind
      (fun r => Raw.get_fragmentation_count HEAP_SIZE r.1) = some 1 :=
  ⟨rfl, rfl, rfl, rfl⟩

/-- C29 on the code, at `allocator_init(); x = my_malloc(16); y = my_malloc(24);
p = my_malloc(100); my_free(x); *(size_t *)(p + 16) = 24; *(int *)(p + 24) = 0;
*(size_t *)(p + 72) = 104; *(int *)(p + 80) = 1; q = my_realloc(p, SIZE_MAX)`:
when `my_realloc` has returned, the blocks at 104 and 240 are both free and
the second starts where the first ends; a following `my_malloc(2000000)`
returns `NULL` after a coalescing pass that changes the state, merging the two
blocks and emptying the registry. -/
theorem overrun_leaves_adjacent_free :
    (overrun_self_scenario 24 0).map Prod.snd = some (some 32) ∧
    (overrun_self_scenario 24 0).bind (fun r => Raw.arena_walk HEAP_SIZE r.1)
      = some ([(0, 16, false), (48, 24, false), (104, 104, true), (240, 1048304, true)],
          HEAP_SIZE) ∧
    104 + HEADER_SIZE + 104 = 240 ∧
    (overrun_self_scenario 24 0).bind (fun r => Raw.registry HEAP_SIZE r.1)
      = some [(240, 1048304, true)] ∧
    ((overrun_self_scenario 24 0).bind
      (fun r => Raw.my_malloc HEAP_SIZE r.1 2000000)).map
        (fun r => (r.2, Raw.arena_walk HEAP_SIZE r.1, Raw.registry HEAP_SIZE r.1))
      = some (none, some ([(0, 16, false), (48, 24, false), (104, 1048440, true)],
          HEAP_SIZE), some []) :=
  ⟨rfl, rfl, rfl, rfl, rfl⟩

/-- C30 on the code.  At `allocator_init(); p = my_malloc(100);
*(size_t *)(p + 16) = 1048560; *(int *)(p + 24) = 1;
q = my_realloc(p, SIZE_MAX); my_malloc(1048520)` the last call subtracts the
block size 1048560 from `total_free = 1048528`, which wraps around.  At the
program of `overrun_self_scenario 1048496 0` followed by `my_free(y)`, `y`
being the live address 80, the call subtracts the block size 1048496 from
`total_allocated = 144`, which wraps around. -/
theorem overrun_wraps_totals :
    (overrun_scenario 1048560 1).map
      (fun r => (Raw.get_total_allocated r.1, Raw.get_total_free r.1)) = some (16, 1048528) ∧
    ((overrun_scenario 1048560 1).bind
      (fun r => Raw.my_malloc HEAP_SIZE r.1 1048520)).map
        (fun r => (r.2, Raw.get_total_allocated r.1, Raw.get_total_free r.1))
      = some (some 216, 1048576, SIZE_MOD - 32) ∧
    (overrun_self_scenario 1048496 0).map
      (fun r => (Raw.get_total_allocated r.1, Raw.get_total_free r.1)) = some (144, 1048400) ∧
    ((overrun_self_scenario 1048496 0).bind
      (fun r => Raw.my_free HEAP_SIZE r.1 (some 80))).map
        (fun s => (Raw.get_total_allocated s, Raw.get_total_free s))
      = some (SIZE_MOD - 1048352, 2096896) :=
  ⟨rfl, rfl, rfl, rfl⟩

/-- C32 on the code, at `allocator_init(); x = my_malloc(16); y = my_malloc(24);
p = my_malloc(100); my_free(x); *(size_t *)(p + 16) = 24; *(int *)(p + 24) = 0;
*(size_t *)(p + 72) = 104; *(int *)(p + 80) = 1; q = my_realloc(p, SIZE_MAX);
a = my_malloc(100); my_free(a)`: before `my_malloc(100)` the arena walk has
the four blocks 0, 48, 104 and 240; the call returns `a = 272`, and after
`my_free(a)` the walk has the three blocks 0, 48 and 104, the last one of
1048440 bytes. -/
theorem overrun_breaks_round_trip :
    (overrun_self_scenario 24 0).bind (fun r => Raw.arena_walk HEAP_SIZE r.1)
      = some ([(0, 16, false), (48, 24, false), (104, 104, true), (240, 1048304, true)],
          HEAP_SIZE) ∧
    ((overrun_self_scenario 24 0).bind
      (fun r => Raw.my_malloc HEAP_SIZE r.1 100)).map Prod.snd = some (some 272) ∧
    ((overrun_self_scenario 24 0).bind fun r =>
      (Raw.my_malloc HEAP_SIZE r.1 100).bind fun a =>
      (Raw.my_free HEAP_SIZE a.1 (some 272)).bind fun s =>
      Raw.arena_walk HEAP_SIZE s)
      = some ([(0, 16, false), (48, 24, false), (104, 1048440, true)], HEAP_SIZE) :=
  ⟨rfl, rfl, rfl⟩

end Alloc
